import Mathlib

/-!
# cle-bill-bot: `pkg/models/bill.go`

A shallow embedding of the bill model: identifier parsing (`ParseBillID`),
display form (`GetCleanBillID`), the action history (`GetActions`), summary
composition (`CreateTweet`) and the schedule (`SetNextRun`).

Go strings are byte sequences, so a string is a `List Nat` of byte values and
`len` is `List.length`.  The pieces of the Go standard library that the source
calls (`strings.TrimSpace`, `strings.ToUpper`, `strings.Replace`, the two
regular expressions, `json.Unmarshal`) are embedded next to the functions that
use them.
-/

set_option maxRecDepth 100000

namespace Models

/-! ## Strings as byte sequences -/

/-- UTF-8 encoding of one code point, as Go stores it in a string. -/
def utf8EncodeNat (c : Nat) : List Nat :=
  if c < 0x80 then [c]
  else if c < 0x800 then [0xC0 + c / 64, 0x80 + c % 64]
  else if c < 0x10000 then [0xE0 + c / 4096, 0x80 + c / 64 % 64, 0x80 + c % 64]
  else [0xF0 + c / 262144, 0x80 + c / 4096 % 64, 0x80 + c / 64 % 64, 0x80 + c % 64]

/-- The bytes of a string literal of the source. -/
def bytes (s : String) : List Nat :=
  s.toList.flatMap (fun c => utf8EncodeNat c.toNat)

/-- Byte class `[a-zA-Z]`. -/
def isLetter (c : Nat) : Bool :=
  (0x61 ≤ c && c ≤ 0x7A) || (0x41 ≤ c && c ≤ 0x5A)

/-- Byte class `\d`, which in Go's regexp syntax is `[0-9]`. -/
def isDigit (c : Nat) : Bool :=
  0x30 ≤ c && c ≤ 0x39

/-- Byte class `\s`, which in Go's regexp syntax is `[\t\n\f\r ]`. -/
def isReSpace (c : Nat) : Bool :=
  c == 0x09 || c == 0x0A || c == 0x0C || c == 0x0D || c == 0x20

/-- Byte class `[\-\s]` (written `[\s-]` in `spacerRe`). -/
def isSpacer (c : Nat) : Bool :=
  c == 0x2D || isReSpace c

/-! ## `unicode/utf8` and `strings.TrimSpace` -/

/-- The replacement rune `utf8.RuneError`. -/
def RuneError : Nat := 0xFFFD

/-- The table `first` of `unicode/utf8` together with `acceptRanges`: for a
leading byte, the length of the sequence and the accepted range of the second
byte; `none` for the ASCII and the invalid entries. -/
def firstInfo (b : Nat) : Option (Nat × Nat × Nat) :=
  if 0xC2 ≤ b ∧ b ≤ 0xDF then some (2, 0x80, 0xBF)
  else if b = 0xE0 then some (3, 0xA0, 0xBF)
  else if 0xE1 ≤ b ∧ b ≤ 0xEC then some (3, 0x80, 0xBF)
  else if b = 0xED then some (3, 0x80, 0x9F)
  else if 0xEE ≤ b ∧ b ≤ 0xEF then some (3, 0x80, 0xBF)
  else if b = 0xF0 then some (4, 0x90, 0xBF)
  else if 0xF1 ≤ b ∧ b ≤ 0xF3 then some (4, 0x80, 0xBF)
  else if b = 0xF4 then some (4, 0x80, 0x8F)
  else none

/-- Continuation byte test (`locb <= b <= hicb`). -/
def isCont (b : Nat) : Bool :=
  0x80 ≤ b && b ≤ 0xBF

/-- The function `utf8.DecodeRuneInString`: the first rune of `s` and its width
in bytes; `(RuneError, 0)` on the empty string and `(RuneError, 1)` on an
invalid encoding. -/
def DecodeRuneInString : List Nat → Nat × Nat
  | [] => (RuneError, 0)
  | s0 :: rest =>
    if s0 < 0x80 then (s0, 1)
    else
      match firstInfo s0 with
      | none => (RuneError, 1)
      | some (sz, lo, hi) =>
        if rest.length + 1 < sz then (RuneError, 1)
        else
          match rest with
          | [] => (RuneError, 1)
          | s1 :: r1 =>
            if s1 < lo ∨ hi < s1 then (RuneError, 1)
            else if sz ≤ 2 then ((s0 % 32) * 64 + s1 % 64, 2)
            else
              match r1 with
              | [] => (RuneError, 1)
              | s2 :: r2 =>
                if !isCont s2 then (RuneError, 1)
                else if sz ≤ 3 then ((s0 % 16) * 4096 + (s1 % 64) * 64 + s2 % 64, 3)
                else
                  match r2 with
                  | [] => (RuneError, 1)
                  | s3 :: _ =>
                    if !isCont s3 then (RuneError, 1)
                    else ((s0 % 8) * 262144 + (s1 % 64) * 4096 + (s2 % 64) * 64 + s3 % 64, 4)

/-- The function `utf8.RuneStart`: the byte is not a continuation byte. -/
def RuneStart (b : Nat) : Bool :=
  b / 64 % 4 != 2

/-- The backwards scan of `utf8.DecodeLastRuneInString`: starting at index
`start` and going down to `lim`, the first index holding a rune start, or the
index just below `lim` (as an integer, possibly `-1`). -/
def scanBack (s : List Nat) (lim : Nat) : Nat → Nat → Int
  | 0, start => start
  | fuel + 1, start =>
    if start < lim then (start : Int)
    else if RuneStart (s.getD start 0) then (start : Int)
    else if start = 0 then -1
    else scanBack s lim fuel (start - 1)

/-- The start of the last rune as `utf8.DecodeLastRuneInString` finds it for
a string ending in a non-ASCII byte: the scan goes back from the byte before
the last over at most `UTFMax` bytes, and a negative result is set to 0. -/
def lastRuneStart (s : List Nat) : Nat :=
  let e := s.length
  let lim := e - 4
  let start : Int := if e - 1 = 0 then -1 else scanBack s lim 4 (e - 2)
  if start < 0 then 0 else start.toNat

/-- The function `utf8.DecodeLastRuneInString`: the last rune of `s` and its
width in bytes. -/
def DecodeLastRuneInString (s : List Nat) : Nat × Nat :=
  let e := s.length
  if e = 0 then (RuneError, 0)
  else
    let r := s.getD (e - 1) 0
    if r < 0x80 then (r, 1)
    else
      let start := lastRuneStart s
      let (r, size) := DecodeRuneInString (s.drop start)
      if start + size ≠ e then (RuneError, 1) else (r, size)

/-- The function `unicode.IsSpace`: the Latin-1 spaces and the other code
points of the `White_Space` table. -/
def IsSpace (r : Nat) : Bool :=
  if r ≤ 0xFF then
    r == 0x09 || r == 0x0A || r == 0x0B || r == 0x0C || r == 0x0D || r == 0x20
      || r == 0x85 || r == 0xA0
  else
    r == 0x1680 || (0x2000 ≤ r && r ≤ 0x200A) || r == 0x2028 || r == 0x2029
      || r == 0x202F || r == 0x205F || r == 0x3000

/-- The table `asciiSpace` of package `strings`. -/
def asciiSpace (c : Nat) : Bool :=
  c == 0x09 || c == 0x0A || c == 0x0B || c == 0x0C || c == 0x0D || c == 0x20

/-- The loop of `strings.TrimLeftFunc(s, unicode.IsSpace)` (`indexFunc` with
`truth = false`, then `s[i:]`): drops leading runes while they are spaces.
The fuel is the number of bytes, and every step consumes at least one. -/
def trimLeftLoop : Nat → List Nat → List Nat
  | 0, s => s
  | _ + 1, [] => []
  | fuel + 1, c :: cs =>
    let (r, size) := DecodeRuneInString (c :: cs)
    if IsSpace r then trimLeftLoop fuel ((c :: cs).drop size) else c :: cs

/-- The function `strings.TrimLeftFunc(s, unicode.IsSpace)`. -/
def TrimLeftSpace (s : List Nat) : List Nat :=
  trimLeftLoop s.length s

/-- The loop of `lastIndexFunc(s, unicode.IsSpace, false)` followed by the
slice of `strings.TrimRightFunc`: `i` is the current end; the result is the
length of the prefix that is kept. -/
def trimRightLoop (s : List Nat) : Nat → Nat → Nat
  | 0, i => i
  | fuel + 1, i =>
    if i = 0 then 0
    else
      let (r, size) := DecodeLastRuneInString (s.take i)
      if IsSpace r then trimRightLoop s fuel (i - size)
      else
        -- `i - size` is the index returned; the kept prefix ends after that rune
        let j := i - size
        if 0x80 ≤ s.getD j 0 then j + (DecodeRuneInString (s.drop j)).2 else j + 1

/-- The function `strings.TrimRightFunc(s, unicode.IsSpace)`. -/
def TrimRightSpace (s : List Nat) : List Nat :=
  s.take (trimRightLoop s s.length s.length)

/-- The first loop of `strings.TrimSpace`: skips leading ASCII spaces; `inr`
when a non-ASCII byte is met, with the rest of the string from that byte. -/
def trimSpaceStart : List Nat → List Nat ⊕ List Nat
  | [] => Sum.inl []
  | c :: cs =>
    if 0x80 ≤ c then Sum.inr (c :: cs)
    else if asciiSpace c then trimSpaceStart cs
    else Sum.inl (c :: cs)

/-- The second loop of `strings.TrimSpace`, on the string reversed: skips
trailing ASCII spaces; `inr` when a non-ASCII byte is met. -/
def trimSpaceStop : List Nat → List Nat ⊕ List Nat
  | [] => Sum.inl []
  | c :: cs =>
    if 0x80 ≤ c then Sum.inr (c :: cs)
    else if asciiSpace c then trimSpaceStop cs
    else Sum.inl (c :: cs)

/-- The function `strings.TrimSpace`: the ASCII fast path from both ends, and
the Unicode-aware `TrimFunc` / `TrimRightFunc` as soon as a non-ASCII byte is
met. -/
def TrimSpace (s : List Nat) : List Nat :=
  match trimSpaceStart s with
  | Sum.inr rest => TrimRightSpace (TrimLeftSpace rest)
  | Sum.inl rest =>
    match trimSpaceStop rest.reverse with
    | Sum.inr kept => TrimRightSpace kept.reverse
    | Sum.inl kept => kept.reverse

/-! ## `strings.ToUpper`, `strings.ToLower`, `strings.Replace` -/

/-- A business action of the history (`LegistarAction`).  The date is an
instant; its zero value stands for an absent date. -/
structure LegistarAction where
  Date : Int
  Actor : List Nat
  Action : List Nat
  Committee : List Nat
  deriving DecidableEq, Repr

/-- The parts of the Go standard library that are taken as given: the
Unicode paths of the case mappings (`strings.Map(unicode.ToUpper, s)` and
`strings.Map(unicode.ToLower, s)`, used when the string has a non-ASCII byte)
and `json.Unmarshal` into a `[]LegistarAction` (`none` when it reports an
error). -/
structure Lib where
  unicodeToUpper : List Nat → List Nat
  unicodeToLower : List Nat → List Nat
  jsonUnmarshal : List Nat → Option (List LegistarAction)

/-- The ASCII upper-casing of one byte (`c -= 'a' - 'A'` on `a`..`z`). -/
def asciiUpper (c : Nat) : Nat :=
  if 0x61 ≤ c ∧ c ≤ 0x7A then c - 0x20 else c

/-- The ASCII lower-casing of one byte (`c += 'a' - 'A'` on `A`..`Z`). -/
def asciiLower (c : Nat) : Nat :=
  if 0x41 ≤ c ∧ c ≤ 0x5A then c + 0x20 else c

/-- The function `strings.ToUpper`: byte-wise on an all-ASCII string, the
Unicode mapping otherwise. -/
def ToUpper (L : Lib) (s : List Nat) : List Nat :=
  if s.all (fun c => decide (c < 0x80)) then s.map asciiUpper
  else L.unicodeToUpper s

/-- The function `strings.ToLower`: byte-wise on an all-ASCII string, the
Unicode mapping otherwise. -/
def ToLower (L : Lib) (s : List Nat) : List Nat :=
  if s.all (fun c => decide (c < 0x80)) then s.map asciiLower
  else L.unicodeToLower s

/-- The call `strings.Replace(s, old, new, 1)`: the first occurrence of `old`
in `s` is replaced by `new`. -/
def Replace1 (old new : List Nat) : List Nat → List Nat
  | [] => if old.isPrefixOf [] then new else []
  | c :: cs =>
    if old.isPrefixOf (c :: cs) then new ++ (c :: cs).drop old.length
    else c :: Replace1 old new cs

/-! ## The regular expressions -/

/-- Greedy repetition `c{lo,hi}` of a byte class, followed by the rest of the
pattern `k`: the longest run is tried first and shorter ones on failure of
`k`, as in Go's leftmost-first matching. -/
def repeatClass {α : Type} (p : Nat → Bool) (k : List Nat → Option α) :
    Nat → Nat → List Nat → Option α
  | lo, 0, s => if lo = 0 then k s else none
  | lo, _ + 1, [] => if lo = 0 then k [] else none
  | lo, hi + 1, c :: cs =>
    if p c then
      match repeatClass p k (lo - 1) hi cs with
      | some r => some r
      | none => if lo = 0 then k (c :: cs) else none
    else if lo = 0 then k (c :: cs) else none

/-- Greedy `c*`: no run is longer than the text. -/
def starClass {α : Type} (p : Nat → Bool) (k : List Nat → Option α) (s : List Nat) : Option α :=
  repeatClass p k 0 s.length s

/-- Greedy `c+`. -/
def plusClass {α : Type} (p : Nat → Bool) (k : List Nat → Option α) (s : List Nat) : Option α :=
  repeatClass p k 1 s.length s

/-- The text between the start of `s` and the start of its suffix `rest`. -/
def consumed (s rest : List Nat) : List Nat :=
  s.take (s.length - rest.length)

/-- The part `[a-zA-Z]{1,4}[\-\s]*\d{4}[\-\s]*\d{1,5}` of `billRe`, matched
at the head of `s`; the result is what is left of `s` after the match. -/
def billReBody (s : List Nat) : Option (List Nat) :=
  repeatClass isLetter
    (starClass isSpacer
      (repeatClass isDigit
        (starClass isSpacer
          (repeatClass isDigit (fun rest => some rest) 1 5)) 4 4)) 1 4 s

/-- The pattern `billRe` matched at one position of the text; `atStart` tells
whether the position is the beginning of the text.  The alternation `(^| )`
tries `^` first and a space second. -/
def billReAt (atStart : Bool) (s : List Nat) : Option (List Nat) :=
  match (if atStart then billReBody s else none) with
  | some rest => some (consumed s rest)
  | none =>
    match s with
    | 0x20 :: cs => (billReBody cs).map (fun rest => consumed s rest)
    | _ => none

/-- The leftmost match of `billRe`, scanning the positions from the left. -/
def billReFind : Bool → List Nat → Option (List Nat)
  | atStart, [] => billReAt atStart []
  | atStart, c :: cs =>
    match billReAt atStart (c :: cs) with
    | some m => some m
    | none => billReFind false cs

/-- The call `billRe.FindString(text)`: the leftmost match, or the empty
string. -/
def billReFindString (text : List Nat) : List Nat :=
  (billReFind true text).getD []

/-- The call `spacerRe.ReplaceAllLiteralString(s, repl)` for
`spacerRe = [\s-]+`: every maximal run of spacer bytes is replaced by `repl`;
`inRun` tells whether the previous byte belongs to the current run. -/
def spacerReplaceAll (repl : List Nat) : Bool → List Nat → List Nat
  | _, [] => []
  | inRun, c :: cs =>
    if isSpacer c then (if inRun then [] else repl) ++ spacerReplaceAll repl true cs
    else c :: spacerReplaceAll repl false cs

/-- The pattern `(?P<type>[A-Za-z]+)(?P<year>\d{4})(?P<id>\d+)` matched at the
head of `s`: the three submatches. -/
def cleanReAt (s : List Nat) : Option (List Nat × List Nat × List Nat) :=
  plusClass isLetter
    (fun r1 =>
      repeatClass isDigit
        (fun r2 =>
          plusClass isDigit
            (fun r3 => some (consumed s r1, consumed r1 r2, consumed r2 r3)) r2)
        4 4 r1) s

/-- The call `billRe.FindStringSubmatch` of `GetCleanBillID`: the submatches
of the leftmost match, `none` for the nil slice of no match. -/
def cleanReFindSubmatch : List Nat → Option (List Nat × List Nat × List Nat)
  | [] => cleanReAt []
  | c :: cs =>
    match cleanReAt (c :: cs) with
    | some m => some m
    | none => cleanReFindSubmatch cs

/-! ## The bill -/

/-- The record `Bill`.  Instants are integers and `none` is the nil pointer. -/
structure Bill where
  PK : Nat
  TweetID : Option Int
  TweetUser : List Nat
  TweetText : List Nat
  LastTweetID : Option Int
  BillID : List Nat
  Title : List Nat
  Classification : List Nat
  URL : List Nat
  Active : Bool
  Data : List Nat
  NextRun : Option Int

/-- The ways in which a call ends without a result: a run-time panic on an
index or on slice bounds, and `log.Fatal`. -/
inductive Fault where
  | indexOutOfRange
  | sliceOutOfRange
  | fatal
  deriving DecidableEq, Repr

deriving instance DecidableEq for Except

/-- The method `ParseBillID`: pulls the bill identifier out of a text. -/
def ParseBillID (L : Lib) (text : List Nat) : List Nat :=
  let billText := TrimSpace (billReFindString text)
  let billUpper := ToUpper L (spacerReplaceAll [] false billText)
  -- Special exception for Orders
  Replace1 (bytes "OR") (bytes "Or") billUpper

/-- The method `GetCleanBillID`: the identifier in display form.  Indexing the
nil slice of a failed match panics. -/
def GetCleanBillID (b : Bill) : Except Fault (List Nat) :=
  match cleanReFindSubmatch b.BillID with
  | none => Except.error Fault.indexOutOfRange
  | some (type, year, id) => Except.ok (type ++ year ++ bytes "-" ++ id)

/-- The method `GetActions`: the actions of the bill's JSON data; an error of
`json.Unmarshal` ends the process. -/
def GetActions (L : Lib) (b : Bill) : Except Fault (List LegistarAction) :=
  match L.jsonUnmarshal b.Data with
  | none => Except.error Fault.fatal
  | some actions => Except.ok actions

/-- The zero value of `LegistarAction`. -/
def LegistarAction.zero : LegistarAction :=
  { Date := 0, Actor := [], Action := [], Committee := [] }

/-- The `switch` of `CreateTweet` on the action label `cls`: the text put
after the title. -/
def actionText (L : Lib) (cls : List Nat) (action : LegistarAction) : List Nat :=
  if cls = bytes "Introduced" ∨ cls = bytes "Direct Introduction" then
    bytes " was introduced in " ++ action.Actor
  else if cls = bytes "Placed on File" then
    bytes " was placed on file"
  else if cls = bytes "Referred" ∨ cls = bytes "Re-Referred" then
    if action.Committee ≠ [] then bytes " was referred to the " ++ action.Committee
    else bytes " was referred to committee"
  else if cls = bytes "Recommended for Passage" then
    bytes " was recommended to pass by the " ++ action.Actor
  else if cls = bytes "Recommended Do Not Pass" then
    bytes " was recommended not to pass by the " ++ action.Actor
  else if cls = bytes "Recommended for Re-referral" then
    bytes " was recommended for re-referral by the " ++ action.Actor
  else if cls = bytes "Passed" ∨ cls = bytes "Passed as Substitute" then
    bytes " passed"
  else if cls = bytes "Failed to Pass" then
    bytes " failed to pass"
  else if cls = bytes "Introduced (Agreed Calendar)" ∨ cls = bytes "Adopted" then
    bytes " was adopted"
  else if cls = bytes "Approved" ∨ cls = bytes "Repealed" ∨ cls = bytes "Vetoed"
      ∨ cls = bytes "Tabled" ∨ cls = bytes "Withdrawn" then
    bytes " was " ++ ToLower L cls
  else if cls = bytes "" then
    []
  else
    bytes " " ++ ToLower L cls

/-- Maximum tweet length. -/
def tweetLen : Int := 280

/-- Twitter cap for URL characters. -/
def urlLen : Int := 23

/-- The slice expression `s[0:h]`, which panics unless `0 <= h <= len(s)`. -/
def slice0 (s : List Nat) (h : Int) : Except Fault (List Nat) :=
  if h < 0 ∨ (s.length : Int) < h then Except.error Fault.sliceOutOfRange
  else Except.ok (s.take h.toNat)

/-- The most recent action as `CreateTweet` pulls it: the first of the list,
the zero value when the list is empty. -/
def firstAction (actions : List LegistarAction) : LegistarAction :=
  match actions with
  | [] => LegistarAction.zero
  | a :: _ => a

/-- The method `CreateTweet`: a tweet string based on the bill's
information. -/
def CreateTweet (L : Lib) (b : Bill) (billURL : List Nat) : Except Fault (List Nat) :=
  match GetCleanBillID b with
  | Except.error e => Except.error e
  | Except.ok billID =>
    match GetActions L b with
    | Except.error e => Except.error e
    | Except.ok actions =>
      let billTitle := if b.Title ≠ [] then billID ++ bytes ": " ++ b.Title else billID
      let baseChars : Int := ((bytes " See more at  #" ++ b.BillID).length : Int) + urlLen
      -- Pull the first action which is the most recent, otherwise leave empty
      let action := firstAction actions
      let actionStr := action.Action
      let actionText := actionText L actionStr action
      let tweetContent := billTitle ++ actionText ++ bytes "."
      let tail := bytes " See more at " ++ billURL ++ bytes " #" ++ b.BillID
      if (tweetContent.length : Int) + baseChars > tweetLen then
        -- Get the difference to remove (add characters for ellipsis)
        let tweetDiff : Int := (baseChars + (tweetContent.length : Int) + 3) - tweetLen
        let ellipsis := if actionText = [] then bytes ".." else bytes "..."
        match slice0 billTitle ((billTitle.length : Int) - tweetDiff) with
        | Except.error e => Except.error e
        | Except.ok cut =>
          Except.ok (TrimSpace cut ++ ellipsis ++ actionText ++ bytes "." ++ tail)
      else
        Except.ok (tweetContent ++ tail)

/-! ## Vocabulary of the statements -/

/-- Canonical shape of a storage identifier: letters, a 4-digit year, and one
or more sequence digits. -/
structure Canonical (id Ls Y N : List Nat) : Prop where
  split : id = Ls ++ Y ++ N
  letters : ∀ c ∈ Ls, isLetter c = true
  nonempty : Ls ≠ []
  year : ∀ c ∈ Y, isDigit c = true
  yearLen : Y.length = 4
  seq : ∀ c ∈ N, isDigit c = true
  seqNonempty : N ≠ []

/-- The headline of a tweet: the display identifier, followed by `": "` and
the title when there is a title. -/
def headline (cid title : List Nat) : List Nat :=
  if title ≠ [] then cid ++ bytes ": " ++ title else cid

/-- The clause of a tweet: the action text of the first action of the
history, the text of the zero action when the history is empty. -/
def clause (L : Lib) (actions : List LegistarAction) : List Nat :=
  actionText L (firstAction actions).Action (firstAction actions)

/-- The overhead `baseChars` of a tweet: the trailing template without the
link, plus the 23 units counted for the link. -/
def baseOverhead (billID : List Nat) : Nat :=
  (bytes " See more at  #" ++ billID).length + 23

/-- The trailing part of a tweet: link and hashtag. -/
def trailer (billURL billID : List Nat) : List Nat :=
  bytes " See more at " ++ billURL ++ bytes " #" ++ billID

/-- The ellipsis put after a truncated title. -/
def ellipsisFor (cl : List Nat) : List Nat :=
  if cl = [] then bytes ".." else bytes "..."

/-- The clause table of the specification (step 1 of the summary compositor),
row by row: the labels of a row and the clause the row produces, given the
actor, the committee and the lower-cased label. -/
def clauseTable (actor committee lowered : List Nat) : List (List (List Nat) × List Nat) :=
  [ ([bytes "Introduced", bytes "Direct Introduction"], bytes " was introduced in " ++ actor),
    ([bytes "Placed on File"], bytes " was placed on file"),
    ([bytes "Referred", bytes "Re-Referred"],
      if committee ≠ [] then bytes " was referred to the " ++ committee
      else bytes " was referred to committee"),
    ([bytes "Recommended for Passage"], bytes " was recommended to pass by the " ++ actor),
    ([bytes "Recommended Do Not Pass"], bytes " was recommended not to pass by the " ++ actor),
    ([bytes "Recommended for Re-referral"],
      bytes " was recommended for re-referral by the " ++ actor),
    ([bytes "Passed", bytes "Passed as Substitute"], bytes " passed"),
    ([bytes "Failed to Pass"], bytes " failed to pass"),
    ([bytes "Introduced (Agreed Calendar)", bytes "Adopted"], bytes " was adopted"),
    ([bytes "Approved", bytes "Repealed", bytes "Vetoed", bytes "Tabled", bytes "Withdrawn"],
      bytes " was " ++ lowered),
    ([bytes ""], []) ]

/-- The clause of the specification for a label: the first row of the table
that lists the label, and the generic fallback for any other label. -/
def specClause (L : Lib) (label actor committee : List Nat) : List Nat :=
  match (clauseTable actor committee (ToLower L label)).find?
      (fun row => row.1.contains label) with
  | some row => row.2
  | none => bytes " " ++ ToLower L label

/-- The shape of a match of `billRe` without its leading space: one to four
letters, separators, four digits, separators, one to five digits. -/
structure IsMention (Ls S1 Y S2 N : List Nat) : Prop where
  letters : ∀ c ∈ Ls, isLetter c = true
  lettersMin : 1 ≤ Ls.length
  lettersMax : Ls.length ≤ 4
  sep1 : ∀ c ∈ S1, isSpacer c = true
  year : ∀ c ∈ Y, isDigit c = true
  yearLen : Y.length = 4
  sep2 : ∀ c ∈ S2, isSpacer c = true
  seq : ∀ c ∈ N, isDigit c = true
  seqMin : 1 ≤ N.length
  seqMax : N.length ≤ 5

/-- The Orders exception in the words of the specification: the first
occurrence of `OR` becomes `Or`, later occurrences stay. -/
def rewriteFirstOR : List Nat → List Nat
  | [] => []
  | [c] => [c]
  | c :: d :: rest =>
    if c = 0x4F ∧ d = 0x52 then 0x4F :: 0x72 :: rest
    else c :: rewriteFirstOR (d :: rest)

/-- Byte class `[A-Z]`. -/
def isUpper (c : Nat) : Bool :=
  0x41 ≤ c && c ≤ 0x5A

/-- The pattern `^[A-Z]{1,4}\d{4,}$` of the specification, matched against
the whole string. -/
def matchesStorageRe (s : List Nat) : Bool :=
  (repeatClass isUpper
    (fun r1 => repeatClass isDigit (fun r2 => if r2 = [] then some () else none)
      4 r1.length r1) 1 4 s).isSome

/-! ## Worked examples -/

/-- A library for the worked examples: its JSON decoder yields the given
history and its Unicode case mappings are never reached on ASCII text. -/
def exampleLib (actions : List LegistarAction) : Lib :=
  ⟨fun s => s, fun s => s, fun _ => some actions⟩

/-- The bill of `TestCreateTweet`. -/
def testBill : Bill :=
  { PK := 0, TweetID := none, TweetUser := [], TweetText := [], LastTweetID := none,
    BillID := bytes "O201011", Title := bytes "Testing bill",
    Classification := bytes "Ordinance", URL := bytes "https://chicago.legistar.com",
    Active := true, Data := bytes "[]", NextRun := none }

/-- The long title of `TestCreateTweet`. -/
def longTitle : List Nat :=
  bytes "Certification of city funding requirement for Laborers' and Retirement Board Employees Annuity and Benefit Fund of Chicago for tax year 2020, payment year 2021"

/-- The action of the clipped-title case of `TestCreateTweet`. -/
def ethicsAction : LegistarAction :=
  { Date := 0, Actor := bytes "Committee on Ethics and Government Oversight",
    Action := bytes "Recommended for Passage", Committee := [] }

/-- The action `Passed` of `TestCreateTweet`, dated. -/
def passedAction : LegistarAction :=
  { Date := 1577836800, Actor := [], Action := bytes "Passed", Committee := [] }

/-- The action `Referred` of `TestCreateTweet`, dated after `passedAction`. -/
def referredAction : LegistarAction :=
  { Date := 1580515200, Actor := [], Action := bytes "Referred", Committee := [] }

/-- The data `[{"action": "Passed"}, {"action": "Referred"}]`. -/
def passedReferredData : List Nat :=
  bytes "[\x7b\x22action\x22: \x22Passed\x22\x7d, \x7b\x22action\x22: \x22Referred\x22\x7d]"

/-- The data `[{"action": "Passed"}]`. -/
def passedData : List Nat :=
  bytes "[\x7b\x22action\x22: \x22Passed\x22\x7d]"

/-- A library for the histories of `TestCreateTweet`: the decoder yields the
two histories above on their data and reports an error elsewhere. -/
def testLib : Lib :=
  ⟨fun s => s, fun s => s, fun data =>
    if data = passedReferredData then some [passedAction, referredAction]
    else if data = passedData then some [{ passedAction with Date := 0 }]
    else if data = bytes "[]" then some []
    else none⟩

/-- The referral of `TestCreateTweet` with a committee. -/
def committeeReferral : LegistarAction :=
  { Date := 0, Actor := [], Action := bytes "Referred", Committee := bytes "Test Committee" }

/-- An introduction by a joint meeting with a long name. -/
def jointIntroduction : LegistarAction :=
  { Date := 0,
    Actor := bytes "Joint Meeting of the Committee on Finance, Diversity, Equity and Inclusion, the Committee on Development, Planning and Sustainability, the Committee on Health, Human Services and the Arts and Committee on Safety",
    Action := bytes "Introduced", Committee := [] }

/-! ## The schedule -/

/-- The duration `time.Second`; instants and durations count nanoseconds. -/
def Second : Int := 1000000000

/-- The duration `time.Minute`. -/
def Minute : Int := 60 * Second

/-- The duration `time.Hour`. -/
def Hour : Int := 60 * Minute

/-- The method `Time.Hour` for an instant shown in a zone whose offset is
`offset` seconds east of UTC: the hour within the day, from 0 to 23. -/
def hourOfDay (offset t : Int) : Int :=
  (t / Second + offset) / 3600 % 24

/-- The method `SetNextRun`: the time the bill should be queried next.
`zone` is the offset of `America/New_York` at an instant (the time-zone
database), `timeNow` is `time.Now()`, and `randHours` and `randMinutes` are
the values of `rand.Intn(4)` and `rand.Intn(60)`. -/
def SetNextRun (zone : Int → Int) (timeNow : Int) (randHours randMinutes : Nat)
    (b : Bill) : Bill :=
  -- Set NextRun to a time in the future within a defined range
  let now := timeNow + Hour * 12
  let offset := zone now
  -- Make sure it's between 9AM and 10PM ET with some randomness to stagger posts
  let localHour := hourOfDay offset now + offset.tdiv 3600
  let diffHours : Int :=
    if localHour < 9 then 24 + (9 - localHour) + (randHours : Int)
    else if localHour > 17 then 24 - (localHour - 17) - (randHours : Int)
    else 24
  let diffMinutes : Int :=
    if localHour < 9 then (randMinutes : Int)
    else if localHour > 17 then -(randMinutes : Int)
    else 0
  let nextRun := now + Hour * diffHours + Minute * diffMinutes
  { b with NextRun := some nextRun }

/-- The offset of Eastern Standard Time, for instants in winter. -/
def easternStandard : Int → Int :=
  fun _ => -18000

/-! ## `encoding/json` on the action history -/

/-- A JSON value as `encoding/json` reads it.  A string keeps the raw bytes
between its quotes and a number keeps nothing, since no field of
`LegistarAction` accepts a number. -/
inductive JValue where
  | null
  | bool (b : Bool)
  | number
  | string (raw : List Nat)
  | array (elems : List JValue)
  | object (members : List (List Nat × JValue))

/-- The tokens of a JSON text. -/
inductive Token where
  | lbracket
  | rbracket
  | lbrace
  | rbrace
  | comma
  | colon
  | str (raw : List Nat)
  | num
  | tru
  | fls
  | nul

/-- The scanner states inside a string: `stateInString`, `stateInStringEsc`
and `stateInStringEscU` to `stateInStringEscU123` (hex digits to come). -/
inductive StrState where
  | normal
  | esc
  | hex (k : Nat)

/-- The scanner states inside a number: `stateNeg`, `state0`, `state1`,
`stateDot`, `stateDot0`, `stateE`, `stateESign`, `stateE0`. -/
inductive NumState where
  | neg
  | zero
  | int
  | dot
  | frac
  | e
  | esign
  | exp

/-- The states of the scanner between and inside tokens. -/
inductive LexState where
  | start
  | str (sub : StrState) (acc : List Nat)
  | num (sub : NumState)
  | lit (rest : List Nat) (tok : Token)

/-- The function `isSpace` of the scanner: space, tab, carriage return and
newline. -/
def jsonSpace (c : Nat) : Bool :=
  c == 0x20 || c == 0x09 || c == 0x0D || c == 0x0A

/-- A hexadecimal digit of a `\u` escape. -/
def isHex (c : Nat) : Bool :=
  (0x30 ≤ c && c ≤ 0x39) || (0x61 ≤ c && c ≤ 0x66) || (0x41 ≤ c && c ≤ 0x46)

/-- One byte in a number state: the next number state, or `none` when the
byte does not continue the number. -/
def numStep (sub : NumState) (c : Nat) : Option NumState :=
  match sub with
  | NumState.neg =>
    if c = 0x30 then some NumState.zero
    else if 0x31 ≤ c ∧ c ≤ 0x39 then some NumState.int
    else none
  | NumState.zero =>
    if c = 0x2E then some NumState.dot
    else if c = 0x65 ∨ c = 0x45 then some NumState.e
    else none
  | NumState.int =>
    if isDigit c then some NumState.int
    else if c = 0x2E then some NumState.dot
    else if c = 0x65 ∨ c = 0x45 then some NumState.e
    else none
  | NumState.dot => if isDigit c then some NumState.frac else none
  | NumState.frac =>
    if isDigit c then some NumState.frac
    else if c = 0x65 ∨ c = 0x45 then some NumState.e
    else none
  | NumState.e =>
    if c = 0x2B ∨ c = 0x2D then some NumState.esign
    else if isDigit c then some NumState.exp
    else none
  | NumState.esign => if isDigit c then some NumState.exp else none
  | NumState.exp => if isDigit c then some NumState.exp else none

/-- The number states in which the number may end. -/
def NumState.accepting : NumState → Bool
  | NumState.zero => true
  | NumState.int => true
  | NumState.frac => true
  | NumState.exp => true
  | _ => false

/-- One byte at the beginning of a token: the tokens it completes and the
state it leaves, or `none` for a byte that begins no token. -/
def lexStart (c : Nat) : Option (List Token × LexState) :=
  if jsonSpace c then some ([], LexState.start)
  else if c = 0x5B then some ([Token.lbracket], LexState.start)
  else if c = 0x5D then some ([Token.rbracket], LexState.start)
  else if c = 0x7B then some ([Token.lbrace], LexState.start)
  else if c = 0x7D then some ([Token.rbrace], LexState.start)
  else if c = 0x2C then some ([Token.comma], LexState.start)
  else if c = 0x3A then some ([Token.colon], LexState.start)
  else if c = 0x22 then some ([], LexState.str StrState.normal [])
  else if c = 0x2D then some ([], LexState.num NumState.neg)
  else if c = 0x30 then some ([], LexState.num NumState.zero)
  else if 0x31 ≤ c ∧ c ≤ 0x39 then some ([], LexState.num NumState.int)
  else if c = 0x74 then some ([], LexState.lit (bytes "rue") Token.tru)
  else if c = 0x66 then some ([], LexState.lit (bytes "alse") Token.fls)
  else if c = 0x6E then some ([], LexState.lit (bytes "ull") Token.nul)
  else none

/-- The scanner of `encoding/json`, byte by byte: the tokens of the text, or
`none` on a byte that no state accepts or on an unfinished token at the end.
In a string the accumulator holds the raw bytes read so far, last first. -/
def lex : LexState → List Nat → Option (List Token)
  | LexState.start, [] => some []
  | LexState.num sub, [] => if sub.accepting then some [Token.num] else none
  | LexState.str _ _, [] => none
  | LexState.lit _ _, [] => none
  | LexState.start, c :: cs =>
    match lexStart c with
    | none => none
    | some (toks, st) => (lex st cs).map (fun r => toks ++ r)
  | LexState.str StrState.normal acc, c :: cs =>
    if c = 0x22 then (lex LexState.start cs).map (fun r => Token.str acc.reverse :: r)
    else if c = 0x5C then lex (LexState.str StrState.esc (c :: acc)) cs
    else if c < 0x20 then none
    else lex (LexState.str StrState.normal (c :: acc)) cs
  | LexState.str StrState.esc acc, c :: cs =>
    if c = 0x62 ∨ c = 0x66 ∨ c = 0x6E ∨ c = 0x72 ∨ c = 0x74 ∨ c = 0x5C ∨ c = 0x2F ∨ c = 0x22 then
      lex (LexState.str StrState.normal (c :: acc)) cs
    else if c = 0x75 then lex (LexState.str (StrState.hex 4) (c :: acc)) cs
    else none
  | LexState.str (StrState.hex k) acc, c :: cs =>
    if isHex c then
      lex (LexState.str (if k ≤ 1 then StrState.normal else StrState.hex (k - 1)) (c :: acc)) cs
    else none
  | LexState.num sub, c :: cs =>
    match numStep sub c with
    | some sub' => lex (LexState.num sub') cs
    | none =>
      if sub.accepting then
        match lexStart c with
        | none => none
        | some (toks, st) => (lex st cs).map (fun r => Token.num :: (toks ++ r))
      else none
  | LexState.lit [] _, _ :: _ => none
  | LexState.lit (e :: rest) tok, c :: cs =>
    if c = e then
      (match rest with
       | [] => (lex LexState.start cs).map (fun r => tok :: r)
       | _ :: _ => lex (LexState.lit rest tok) cs)
    else none

/-- An open array or object of the parse: the values read so far, last
first, and for an object the key that waits for its value. -/
inductive Frame where
  | arr (elems : List JValue)
  | obj (members : List (List Nat × JValue)) (key : Option (List Nat))

/-- What the grammar allows next. -/
inductive Expect where
  | value
  | valueOrEnd
  | key
  | keyOrEnd
  | colon
  | commaOrEnd
  | done

/-- The nesting limit `maxNestingDepth` of the scanner. -/
def maxNestingDepth : Nat := 10000

/-- A value is complete: it becomes the result at the top level, an element
of the open array, or the value of the waiting key of the open object. -/
def complete (v : JValue) : List Frame → Option (List Frame × Expect × Option JValue)
  | [] => some ([], Expect.done, some v)
  | Frame.arr elems :: stack => some (Frame.arr (v :: elems) :: stack, Expect.commaOrEnd, none)
  | Frame.obj members (some k) :: stack =>
    some (Frame.obj ((k, v) :: members) none :: stack, Expect.commaOrEnd, none)
  | Frame.obj _ none :: _ => none

/-- A token that begins a value: a scalar completes, a bracket or brace opens
a frame unless the nesting limit is exceeded. -/
def beginValue (t : Token) (stack : List Frame) :
    Option (List Frame × Expect × Option JValue) :=
  match t with
  | Token.str raw => complete (JValue.string raw) stack
  | Token.num => complete JValue.number stack
  | Token.tru => complete (JValue.bool true) stack
  | Token.fls => complete (JValue.bool false) stack
  | Token.nul => complete JValue.null stack
  | Token.lbracket =>
    if stack.length < maxNestingDepth then some (Frame.arr [] :: stack, Expect.valueOrEnd, none)
    else none
  | Token.lbrace =>
    if stack.length < maxNestingDepth then
      some (Frame.obj [] none :: stack, Expect.keyOrEnd, none)
    else none
  | _ => none

/-- One token of the grammar. -/
def parseStep (t : Token) (stack : List Frame) (ex : Expect) :
    Option (List Frame × Expect × Option JValue) :=
  match ex, t, stack with
  | Expect.value, t, stack => beginValue t stack
  | Expect.valueOrEnd, Token.rbracket, Frame.arr elems :: stack =>
    complete (JValue.array elems.reverse) stack
  | Expect.valueOrEnd, t, stack => beginValue t stack
  | Expect.key, Token.str raw, Frame.obj members none :: stack =>
    some (Frame.obj members (some raw) :: stack, Expect.colon, none)
  | Expect.keyOrEnd, Token.str raw, Frame.obj members none :: stack =>
    some (Frame.obj members (some raw) :: stack, Expect.colon, none)
  | Expect.keyOrEnd, Token.rbrace, Frame.obj members none :: stack =>
    complete (JValue.object members.reverse) stack
  | Expect.colon, Token.colon, stack => some (stack, Expect.value, none)
  | Expect.commaOrEnd, Token.comma, Frame.arr elems :: stack =>
    some (Frame.arr elems :: stack, Expect.value, none)
  | Expect.commaOrEnd, Token.comma, Frame.obj members none :: stack =>
    some (Frame.obj members none :: stack, Expect.key, none)
  | Expect.commaOrEnd, Token.rbracket, Frame.arr elems :: stack =>
    complete (JValue.array elems.reverse) stack
  | Expect.commaOrEnd, Token.rbrace, Frame.obj members none :: stack =>
    complete (JValue.object members.reverse) stack
  | _, _, _ => none

/-- The grammar over the tokens: the top-level value, or `none` on a token
out of place or an unfinished value. -/
def parseTokens : List Token → List Frame → Expect → Option JValue → Option JValue
  | [], _, Expect.done, result => result
  | [], _, _, _ => none
  | t :: ts, stack, ex, result =>
    match parseStep t stack ex with
    | none => none
    | some (stack', ex', r) =>
      parseTokens ts stack' ex' (match r with | some v => some v | none => result)

/-- The syntax check and the reading of a JSON text: `none` is a
`SyntaxError`, the empty text included. -/
def parseJSON (data : List Nat) : Option JValue :=
  match lex LexState.start data with
  | none => none
  | some toks => parseTokens toks [] Expect.value none

/-- The value of a hexadecimal digit. -/
def hexVal (c : Nat) : Nat :=
  if 0x30 ≤ c ∧ c ≤ 0x39 then c - 0x30
  else if 0x61 ≤ c ∧ c ≤ 0x66 then c - 0x61 + 10
  else c - 0x41 + 10

/-- The function `getu4`: the code unit of a `\uXXXX` escape at the head of
the text, `none` for the result -1. -/
def getu4 : List Nat → Option Nat
  | 0x5C :: 0x75 :: a :: b :: c :: d :: _ =>
    if isHex a && isHex b && isHex c && isHex d then
      some (((hexVal a * 16 + hexVal b) * 16 + hexVal c) * 16 + hexVal d)
    else none
  | _ => none

/-- The byte that a one-letter escape stands for. -/
def simpleEscape (e : Nat) : Option Nat :=
  if e = 0x22 ∨ e = 0x5C ∨ e = 0x2F ∨ e = 0x27 then some e
  else if e = 0x62 then some 0x08
  else if e = 0x66 then some 0x0C
  else if e = 0x6E then some 0x0A
  else if e = 0x72 then some 0x0D
  else if e = 0x74 then some 0x09
  else none

/-- The loop of `unquoteBytes` on the bytes between the quotes: escapes are
replaced, a `\u` surrogate pair gives one rune and a lone surrogate the
replacement rune, and bytes that are not UTF-8 are replaced by the
replacement rune.  The fuel is the number of bytes, and every step consumes
at least one. -/
def unquoteLoop : Nat → List Nat → Option (List Nat)
  | _, [] => some []
  | 0, _ :: _ => none
  | fuel + 1, c :: rest =>
    if c = 0x5C then
      match rest with
      | [] => none
      | e :: rest' =>
        if e = 0x75 then
          match getu4 (c :: rest) with
          | none => none
          | some rr =>
            if 0xD800 ≤ rr ∧ rr < 0xE000 then
              match getu4 ((c :: rest).drop 6) with
              | some rr1 =>
                if rr < 0xDC00 ∧ 0xDC00 ≤ rr1 ∧ rr1 < 0xE000 then
                  (unquoteLoop fuel ((c :: rest).drop 12)).map (fun t =>
                    utf8EncodeNat ((rr - 0xD800) * 1024 + (rr1 - 0xDC00) + 0x10000) ++ t)
                else
                  (unquoteLoop fuel ((c :: rest).drop 6)).map (fun t =>
                    utf8EncodeNat RuneError ++ t)
              | none =>
                (unquoteLoop fuel ((c :: rest).drop 6)).map (fun t =>
                  utf8EncodeNat RuneError ++ t)
            else
              (unquoteLoop fuel ((c :: rest).drop 6)).map (fun t => utf8EncodeNat rr ++ t)
        else
          match simpleEscape e with
          | none => none
          | some b => (unquoteLoop fuel rest').map (fun t => b :: t)
    else if c = 0x22 ∨ c < 0x20 then none
    else if c < 0x80 then (unquoteLoop fuel rest).map (fun t => c :: t)
    else
      (unquoteLoop fuel ((c :: rest).drop (DecodeRuneInString (c :: rest)).2)).map (fun t =>
        utf8EncodeNat (DecodeRuneInString (c :: rest)).1 ++ t)

/-- The function `unquoteBytes` on the raw bytes of a string literal. -/
def unquote (raw : List Nat) : Option (List Nat) :=
  unquoteLoop raw.length raw

/-- The match of an object key with the JSON name of a field: equal up to
the case of ASCII letters (no other rune folds to a letter of `date`,
`actor`, `action` or `committee`). -/
def fieldIs (name : String) (key : List Nat) : Bool :=
  key.map asciiUpper == (bytes name).map asciiUpper

/-- A JSON value stored into a `string` field: `null` leaves the field, a
string sets it, anything else is an `UnmarshalTypeError`. -/
def storeString (v : JValue) (old : List Nat) : Option (List Nat) :=
  match v with
  | JValue.null => some old
  | JValue.string raw => unquote raw
  | _ => none

/-- A JSON value stored into the `time.Time` field through
`Time.UnmarshalJSON`: `null` leaves the field, a string is handed, as its raw
bytes, to the RFC 3339 parser `parseTime`, anything else is an error. -/
def storeTime (parseTime : List Nat → Option Int) (v : JValue) (old : Int) : Option Int :=
  match v with
  | JValue.null => some old
  | JValue.string raw => parseTime raw
  | _ => none

/-- One member of a JSON object stored into a `LegistarAction`, by the
`json` tags of the fields; a member with another key is skipped. -/
def decodeMember (parseTime : List Nat → Option Int) (a : LegistarAction)
    (m : List Nat × JValue) : Option LegistarAction :=
  match unquote m.1 with
  | none => none
  | some key =>
    if fieldIs "date" key then
      (storeTime parseTime m.2 a.Date).map (fun d => { a with Date := d })
    else if fieldIs "actor" key then
      (storeString m.2 a.Actor).map (fun s => { a with Actor := s })
    else if fieldIs "action" key then
      (storeString m.2 a.Action).map (fun s => { a with Action := s })
    else if fieldIs "committee" key then
      (storeString m.2 a.Committee).map (fun s => { a with Committee := s })
    else some a

/-- The members of a JSON object stored one after the other. -/
def decodeMembers (parseTime : List Nat → Option Int) :
    LegistarAction → List (List Nat × JValue) → Option LegistarAction
  | a, [] => some a
  | a, m :: ms =>
    match decodeMember parseTime a m with
    | none => none
    | some a' => decodeMembers parseTime a' ms

/-- One element of the JSON array decoded into a `LegistarAction`: `null`
leaves the zero value, an object is stored member by member, anything else
is an `UnmarshalTypeError`. -/
def decodeElem (parseTime : List Nat → Option Int) (v : JValue) : Option LegistarAction :=
  match v with
  | JValue.null => some LegistarAction.zero
  | JValue.object members => decodeMembers parseTime LegistarAction.zero members
  | _ => none

/-- The elements of the JSON array decoded in order. -/
def decodeElems (parseTime : List Nat → Option Int) :
    List JValue → Option (List LegistarAction)
  | [] => some []
  | v :: vs =>
    match decodeElem parseTime v, decodeElems parseTime vs with
    | some a, some as => some (a :: as)
    | _, _ => none

/-- A JSON value decoded into a `[]LegistarAction`: `null` gives the nil
slice, an array its elements, anything else an `UnmarshalTypeError`. -/
def decodeActions (parseTime : List Nat → Option Int) (v : JValue) :
    Option (List LegistarAction) :=
  match v with
  | JValue.null => some []
  | JValue.array elems => decodeElems parseTime elems
  | _ => none

/-- The call `json.Unmarshal([]byte(data), &actions)`: `none` when it
returns an error. -/
def goUnmarshal (parseTime : List Nat → Option Int) (data : List Nat) :
    Option (List LegistarAction) :=
  match parseJSON data with
  | none => none
  | some v => decodeActions parseTime v

/-- A library whose JSON decoder is `json.Unmarshal` as embedded above. -/
def goLib (U : Lib) (parseTime : List Nat → Option Int) : Lib :=
  ⟨U.unicodeToUpper, U.unicodeToLower, goUnmarshal parseTime⟩

/-- A member of an action object: under the key of a field it holds `null`
or a string that the field accepts (for `date`, a string that `parseTime`
accepts); under any other key it holds anything. -/
def memberOk (parseTime : List Nat → Option Int) (m : List Nat × JValue) : Bool :=
  match unquote m.1 with
  | none => false
  | some key =>
    if fieldIs "date" key then
      (match m.2 with
       | JValue.null => true
       | JValue.string raw => (parseTime raw).isSome
       | _ => false)
    else if fieldIs "actor" key || fieldIs "action" key || fieldIs "committee" key then
      (match m.2 with
       | JValue.null => true
       | JValue.string raw => (unquote raw).isSome
       | _ => false)
    else true

/-- An action object: a JSON object whose members `date`, `actor`, `action`
and `committee`, where present, are strings or `null`. -/
def isActionObject (parseTime : List Nat → Option Int) : JValue → Bool
  | JValue.object members => members.all (memberOk parseTime)
  | _ => false

/-- The object has a member under the key of the field. -/
def hasField (name : String) (members : List (List Nat × JValue)) : Bool :=
  members.any (fun m =>
    match unquote m.1 with
    | some key => fieldIs name key
    | none => false)

/-- The action decoded from an element of the array, with every field that
has no member in the object left at its empty value. -/
def DecodesTo (parseTime : List Nat → Option Int) (e : JValue) (a : LegistarAction) : Prop :=
  decodeElem parseTime e = some a ∧
  ∀ members, e = JValue.object members →
    (hasField "date" members = false → a.Date = 0) ∧
    (hasField "actor" members = false → a.Actor = []) ∧
    (hasField "action" members = false → a.Action = []) ∧
    (hasField "committee" members = false → a.Committee = [])

/-- The data `[{"actor": 5}]`. -/
def numberActorData : List Nat :=
  bytes "[\x7b\x22actor\x22: 5\x7d]"

/-- A time parser that accepts nothing; none of the examples holds a date. -/
def noTime : List Nat → Option Int :=
  fun _ => none

/-- The string ends on a rune boundary: it is empty, or its last byte is
ASCII, or it ends with a complete rune of two or more bytes. -/
def EndsOnRune (a : List Nat) : Prop :=
  a = [] ∨ (∃ a0 c, a = a0 ++ [c] ∧ c < 0x80) ∨
    (∃ a0 R r, a = a0 ++ R ∧ 2 ≤ R.length ∧ DecodeRuneInString R = (r, R.length))


/-- The data of the clipped-title case of `TestCreateTweet`. -/
def ethicsData : List Nat :=
  bytes "[\x7b\x22action\x22: \x22Recommended for Passage\x22, \x22actor\x22: \x22Committee on Ethics and Government Oversight\x22\x7d]"

/-- The data of an introduction by a joint meeting with a long name. -/
def jointIntroductionData : List Nat :=
  bytes "[\x7b\x22action\x22: \x22Introduced\x22, \x22actor\x22: \x22Joint Meeting of the Committee on Finance, Diversity, Equity and Inclusion, the Committee on Development, Planning and Sustainability, the Committee on Health, Human Services and the Arts and Committee on Safety\x22\x7d]"

/-- A title of one hundred accented letters, two bytes each. -/
def accentedTitle : List Nat :=
  bytes "ÉÉÉÉÉÉÉÉÉÉÉÉÉÉÉÉÉÉÉÉÉÉÉÉÉÉÉÉÉÉÉÉÉÉÉÉÉÉÉÉÉÉÉÉÉÉÉÉÉÉÉÉÉÉÉÉÉÉÉÉÉÉÉÉÉÉÉÉÉÉÉÉÉÉÉÉÉÉÉÉÉÉÉÉÉÉÉÉÉÉÉÉÉÉÉÉÉÉÉÉ"

/-- A title of three hundred spaces. -/
def blankTitle : List Nat :=
  List.replicate 300 0x20

/-- The library of the examples: `encoding/json` as embedded, no date to
parse, and Unicode case mappings that the examples never reach, their action
labels and identifiers being ASCII. -/
def jsonLib : Lib :=
  goLib (exampleLib []) noTime

/-! ## The JSON grammar -/

/-- One item of the body of a JSON string: a byte other than the quote, the
backslash and the control characters, a two-character escape, or `\u` and
four hexadecimal digits. -/
inductive StringItem : List Nat → Prop where
  | plain (c : Nat) (h1 : 0x20 ≤ c) (h2 : c ≠ 0x22) (h3 : c ≠ 0x5C) : StringItem [c]
  | escape (e : Nat)
      (h : e = 0x22 ∨ e = 0x5C ∨ e = 0x2F ∨ e = 0x62 ∨ e = 0x66 ∨ e = 0x6E ∨ e = 0x72
        ∨ e = 0x74) : StringItem [0x5C, e]
  | unicode (a b c d : Nat) (ha : isHex a = true) (hb : isHex b = true)
      (hc : isHex c = true) (hd : isHex d = true) : StringItem [0x5C, 0x75, a, b, c, d]

/-- The text between the quotes of a JSON string: items one after another. -/
inductive StringBody : List Nat → Prop where
  | nil : StringBody []
  | cons (item rest : List Nat) (h : StringItem item) (t : StringBody rest) :
      StringBody (item ++ rest)

/-- Bytes that are all decimal digits. -/
def Digits (ds : List Nat) : Prop :=
  ∀ c ∈ ds, isDigit c = true

/-- The integer part of a JSON number: `0`, or a digit from 1 to 9 followed
by digits. -/
def IsInt (i : List Nat) : Prop :=
  i = [0x30] ∨ ∃ d ds, i = d :: ds ∧ 0x31 ≤ d ∧ d ≤ 0x39 ∧ Digits ds

/-- The optional fraction of a JSON number: a point and one or more digits. -/
def IsFrac (f : List Nat) : Prop :=
  f = [] ∨ ∃ ds, f = 0x2E :: ds ∧ ds ≠ [] ∧ Digits ds

/-- The optional exponent of a JSON number: `e` or `E`, an optional sign and
one or more digits. -/
def IsExp (x : List Nat) : Prop :=
  x = [] ∨ ∃ e sg ds, x = e :: (sg ++ ds) ∧ (e = 0x65 ∨ e = 0x45) ∧
    (sg = [] ∨ sg = [0x2B] ∨ sg = [0x2D]) ∧ ds ≠ [] ∧ Digits ds

/-- A JSON number: an optional minus, the integer part, the optional
fraction and the optional exponent. -/
def IsNumber (s : List Nat) : Prop :=
  ∃ sg i f x, s = sg ++ i ++ f ++ x ∧ (sg = [] ∨ sg = [0x2D]) ∧ IsInt i ∧ IsFrac f ∧ IsExp x

/-- The text of one token: a structural character, a string in quotes, a
number or a literal name. -/
inductive Lexeme : List Nat → Token → Prop where
  | lbracket : Lexeme [0x5B] Token.lbracket
  | rbracket : Lexeme [0x5D] Token.rbracket
  | lbrace : Lexeme [0x7B] Token.lbrace
  | rbrace : Lexeme [0x7D] Token.rbrace
  | comma : Lexeme [0x2C] Token.comma
  | colon : Lexeme [0x3A] Token.colon
  | str (raw : List Nat) (h : StringBody raw) : Lexeme (0x22 :: raw ++ [0x22]) (Token.str raw)
  | num (s : List Nat) (h : IsNumber s) : Lexeme s Token.num
  | tru : Lexeme (bytes "true") Token.tru
  | fls : Lexeme (bytes "false") Token.fls
  | nul : Lexeme (bytes "null") Token.nul

/-- The text is the given tokens one after another, with any white space
(space, tab, line feed, carriage return) before, between and after them. -/
inductive Tokenizes : List Nat → List Token → Prop where
  | nil : Tokenizes [] []
  | space (c : Nat) (s : List Nat) (toks : List Token) (h : jsonSpace c = true)
      (t : Tokenizes s toks) : Tokenizes (c :: s) toks
  | lexeme (l : List Nat) (t : Token) (s : List Nat) (toks : List Token) (h : Lexeme l t)
      (r : Tokenizes s toks) : Tokenizes (l ++ s) (t :: toks)

mutual
/-- The tokens of a JSON value: a scalar is one token, an array its elements
between brackets and an object its members between braces, separated by
commas, each member a key, a colon and a value. -/
def tokensOf : JValue → List Token
  | JValue.null => [Token.nul]
  | JValue.bool true => [Token.tru]
  | JValue.bool false => [Token.fls]
  | JValue.number => [Token.num]
  | JValue.string raw => [Token.str raw]
  | JValue.array [] => [Token.lbracket, Token.rbracket]
  | JValue.array (v :: vs) => Token.lbracket :: tokensOf v ++ moreElems vs ++ [Token.rbracket]
  | JValue.object [] => [Token.lbrace, Token.rbrace]
  | JValue.object ((k, v) :: ms) =>
    Token.lbrace :: Token.str k :: Token.colon :: tokensOf v ++ moreMembers ms ++ [Token.rbrace]
/-- The tokens of the elements after the first: a comma before each. -/
def moreElems : List JValue → List Token
  | [] => []
  | v :: vs => Token.comma :: tokensOf v ++ moreElems vs
/-- The tokens of the members after the first: a comma before each. -/
def moreMembers : List (List Nat × JValue) → List Token
  | [] => []
  | (k, v) :: ms => Token.comma :: Token.str k :: Token.colon :: tokensOf v ++ moreMembers ms
end

mutual
/-- The nesting depth of a JSON value: 0 for a scalar, one more than the
deepest element or member value for an array or an object. -/
def depth : JValue → Nat
  | JValue.array elems => 1 + depthElems elems
  | JValue.object members => 1 + depthMembers members
  | _ => 0
/-- The depth of the deepest of the elements. -/
def depthElems : List JValue → Nat
  | [] => 0
  | v :: vs => max (depth v) (depthElems vs)
/-- The depth of the deepest of the member values. -/
def depthMembers : List (List Nat × JValue) → Nat
  | [] => 0
  | (_, v) :: ms => max (depth v) (depthMembers ms)
end

/-- The text is well-formed JSON for the value: its tokens are those of the
value. -/
def JsonText (s : List Nat) (v : JValue) : Prop :=
  Tokenizes s (tokensOf v)

/-- The result that `parseTokens` carries on: the top-level value once it is
complete. -/
def firstSome (r res : Option JValue) : Option JValue :=
  match r with
  | some v => some v
  | none => res

/-- What `parseTokens` does after one step. -/
def afterValue (c : Option (List Frame × Expect × Option JValue)) (ts : List Token)
    (res : Option JValue) : Option JValue :=
  match c with
  | none => none
  | some (stack, ex, r) => parseTokens ts stack ex (firstSome r res)

/-- The tokens of the elements of an array. -/
def elemTokens : List JValue → List Token
  | [] => []
  | v :: vs => tokensOf v ++ moreElems vs

/-- The tokens of the members of an object. -/
def memberTokens : List (List Nat × JValue) → List Token
  | [] => []
  | (k, v) :: ms => Token.str k :: Token.colon :: tokensOf v ++ moreMembers ms

/-- Every open frame waits for a value: no object is between two members. -/
def Awaiting : List Frame → Prop
  | [] => True
  | Frame.obj _ none :: _ => False
  | _ :: rest => Awaiting rest

/-- The tokens read so far when every open frame waits for a value, the
innermost frame first in the stack. -/
def awaiting : List Frame → List Token
  | [] => []
  | Frame.arr [] :: rest => awaiting rest ++ [Token.lbracket]
  | Frame.arr (v :: acc) :: rest =>
    awaiting rest ++ Token.lbracket :: elemTokens (v :: acc).reverse ++ [Token.comma]
  | Frame.obj [] (some k) :: rest => awaiting rest ++ [Token.lbrace, Token.str k, Token.colon]
  | Frame.obj (m :: acc) (some k) :: rest =>
    awaiting rest ++ Token.lbrace :: memberTokens (m :: acc).reverse
      ++ [Token.comma, Token.str k, Token.colon]
  | Frame.obj _ none :: rest => awaiting rest

/-- The state of `parseTokens` after the tokens `pre`: what the stack and
the expectation are when these tokens have been read. -/
inductive Parsed : List Frame → Expect → Option JValue → List Token → Prop where
  | value (stack : List Frame) (res : Option JValue) (h : Awaiting stack) :
      Parsed stack Expect.value res (awaiting stack)
  | valueOrEnd (rest : List Frame) (res : Option JValue) (h : Awaiting rest) :
      Parsed (Frame.arr [] :: rest) Expect.valueOrEnd res (awaiting rest ++ [Token.lbracket])
  | key (m : List Nat × JValue) (acc : List (List Nat × JValue)) (rest : List Frame)
      (res : Option JValue) (h : Awaiting rest) :
      Parsed (Frame.obj (m :: acc) none :: rest) Expect.key res
        (awaiting rest ++ Token.lbrace :: memberTokens (m :: acc).reverse ++ [Token.comma])
  | keyOrEnd (rest : List Frame) (res : Option JValue) (h : Awaiting rest) :
      Parsed (Frame.obj [] none :: rest) Expect.keyOrEnd res (awaiting rest ++ [Token.lbrace])
  | colonFirst (k : List Nat) (rest : List Frame) (res : Option JValue) (h : Awaiting rest) :
      Parsed (Frame.obj [] (some k) :: rest) Expect.colon res
        (awaiting rest ++ [Token.lbrace, Token.str k])
  | colonNext (m : List Nat × JValue) (acc : List (List Nat × JValue)) (k : List Nat)
      (rest : List Frame) (res : Option JValue) (h : Awaiting rest) :
      Parsed (Frame.obj (m :: acc) (some k) :: rest) Expect.colon res
        (awaiting rest ++ Token.lbrace :: memberTokens (m :: acc).reverse
          ++ [Token.comma, Token.str k])
  | arrEnd (v : JValue) (acc : List JValue) (rest : List Frame) (res : Option JValue)
      (h : Awaiting rest) :
      Parsed (Frame.arr (v :: acc) :: rest) Expect.commaOrEnd res
        (awaiting rest ++ Token.lbracket :: elemTokens (v :: acc).reverse)
  | objEnd (m : List Nat × JValue) (acc : List (List Nat × JValue)) (rest : List Frame)
      (res : Option JValue) (h : Awaiting rest) :
      Parsed (Frame.obj (m :: acc) none :: rest) Expect.commaOrEnd res
        (awaiting rest ++ Token.lbrace :: memberTokens (m :: acc).reverse)
  | done (v : JValue) : Parsed [] Expect.done (some v) (tokensOf v)

/-- The number states run over the bytes of a text: the state reached, or
`none` when a byte does not continue the number. -/
def numRun : NumState → List Nat → Option NumState
  | sub, [] => some sub
  | sub, c :: cs =>
    match numStep sub c with
    | none => none
    | some sub' => numRun sub' cs

/-- An optional sign of an exponent. -/
def IsSign (sg : List Nat) : Prop :=
  sg = [] ∨ sg = [0x2B] ∨ sg = [0x2D]

/-- The token list begins with a number. -/
def startsNum : List Token → Bool
  | Token.num :: _ => true
  | _ => false

/-- No number is followed at once by another number. -/
def NoAdjNum (toks : List Token) : Prop :=
  ∀ pre post, toks = pre ++ Token.num :: post → startsNum post = false

/-- An element of the history: `null`, or an action object. -/
def isActionElem (parseTime : List Nat → Option Int) : JValue → Bool
  | JValue.null => true
  | v => isActionObject parseTime v

/-- A history: `null`, or an array whose elements are `null` or action
objects. -/
def isActionList (parseTime : List Nat → Option Int) : JValue → Bool
  | JValue.null => true
  | JValue.array elems => elems.all (isActionElem parseTime)
  | _ => false

/-- `GetActions` ends the process on the bill, and so `CreateTweet`
produces no summary, whatever the link. -/
def Refused (L : Lib) (b : Bill) : Prop :=
  GetActions L b = Except.error Fault.fatal ∧
    ∀ billURL s, CreateTweet L b billURL ≠ Except.ok s

/-- The data `[null]`. -/
def nullElementData : List Nat :=
  bytes "[null]"

/-- The data `{}`. -/
def emptyObjectData : List Nat :=
  bytes "\x7b\x7d"

/-- The data `[5]`. -/
def numberElementData : List Nat :=
  bytes "[5]"

/-- The values read so far in a frame are shallow enough for the frame to
stand at height `h` of the stack. -/
def frameFits (h : Nat) : Frame → Prop
  | Frame.arr acc => h ≤ maxNestingDepth ∧ depthElems acc + h ≤ maxNestingDepth
  | Frame.obj acc _ => h ≤ maxNestingDepth ∧ depthMembers acc + h ≤ maxNestingDepth

/-- Every frame of the stack fits at its height: the stack is within the
nesting limit and so is every value that it will give. -/
def Shallow : List Frame → Prop
  | [] => True
  | f :: rest => frameFits (rest.length + 1) f ∧ Shallow rest

/-! ## The regular expression matcher -/

theorem repeatClass_greedy {α : Type} (p : Nat → Bool) (k : List Nat → Option α) (r : α)
    (rest : List Nat) (hk : k rest = some r) :
    ∀ (run : List Nat) (lo hi : Nat), (∀ c ∈ run, p c = true) →
      (run.length = hi ∨ ∀ c, rest.head? = some c → p c = false) →
      lo ≤ run.length → run.length ≤ hi →
      repeatClass p k lo hi (run ++ rest) = some r := by
  intro run
  induction run with
  | nil =>
    intro lo hi _ hstop hlo _
    have hlo0 : lo = 0 := by simpa using hlo
    subst hlo0
    cases hi with
    | zero => simp [repeatClass, hk]
    | succ hi =>
      cases rest with
      | nil => simp [repeatClass, hk]
      | cons c cs =>
        have hc : p c = false := by
          rcases hstop with h | h
          · simp at h
          · exact h c rfl
        simp [repeatClass, hc, hk]
  | cons a run ih =>
    intro lo hi hrun hstop hlo hhi
    cases hi with
    | zero => simp at hhi
    | succ hi =>
      have ha : p a = true := hrun a (by simp)
      have hrec := ih (lo - 1) hi (fun c hc => hrun c (by simp [hc]))
        (by
          rcases hstop with h | h
          · left; simpa using h
          · right; exact h)
        (by simp at hlo; omega) (by simpa using hhi)
      simp [repeatClass, ha, hrec]

theorem repeatClass_sound {α : Type} (p : Nat → Bool) (k : List Nat → Option α) (r : α) :
    ∀ (hi lo : Nat) (s : List Nat), repeatClass p k lo hi s = some r →
      ∃ run rest, s = run ++ rest ∧ (∀ c ∈ run, p c = true) ∧ lo ≤ run.length ∧
        run.length ≤ hi ∧ k rest = some r := by
  intro hi
  induction hi with
  | zero =>
    intro lo s h
    by_cases hlo : lo = 0
    · subst hlo
      exact ⟨[], s, by simp, by simp, by simp, by simp, by simpa [repeatClass] using h⟩
    · simp [repeatClass, hlo] at h
  | succ hi ih =>
    intro lo s h
    have base : (if lo = 0 then k s else none) = some r →
        ∃ run rest, s = run ++ rest ∧ (∀ c ∈ run, p c = true) ∧ lo ≤ run.length ∧
          run.length ≤ hi + 1 ∧ k rest = some r := by
      intro h0
      by_cases hlo : lo = 0
      · subst hlo
        exact ⟨[], s, by simp, by simp, by simp, by simp, by simpa using h0⟩
      · simp [hlo] at h0
    cases s with
    | nil => exact base (by simpa [repeatClass] using h)
    | cons c cs =>
      by_cases hc : p c = true
      · cases hrec : repeatClass p k (lo - 1) hi cs with
        | some r1 =>
          have hr : r1 = r := by simpa [repeatClass, hc, hrec] using h
          subst hr
          obtain ⟨run, rest, hs, hrun, hlo, hhi, hk⟩ := ih (lo - 1) cs hrec
          refine ⟨c :: run, rest, by simp [hs], ?_, by simp; omega, by simp; omega, hk⟩
          intro d hd
          rcases List.mem_cons.mp hd with h1 | h1
          · simpa [h1] using hc
          · exact hrun d h1
        | none =>
          exact base (by simpa [repeatClass, hc, hrec] using h)
      · have hc2 : p c = false := by simpa using hc
        exact base (by simpa [repeatClass, hc2] using h)

theorem consumed_append (a b : List Nat) : consumed (a ++ b) b = a := by
  simp [consumed]

/-! ## `GetCleanBillID` on canonical identifiers -/

theorem digit_not_letter {c : Nat} (h : isDigit c = true) : isLetter c = false := by
  simp [isDigit, isLetter] at *
  omega

theorem cleanReAt_canonical {id Ls Y N : List Nat} (h : Canonical id Ls Y N) :
    cleanReAt id = some (Ls, Y, N) := by
  have hY : Y ≠ [] := by
    intro h0
    have := h.yearLen
    simp [h0] at this
  have hN := h.seqNonempty
  have hid : id = Ls ++ (Y ++ N) := by simp [h.split]
  unfold cleanReAt plusClass
  rw [hid]
  apply repeatClass_greedy
  · show repeatClass isDigit _ 4 4 (Y ++ N) = _
    refine repeatClass_greedy isDigit _ _ N ?_ Y 4 4 h.year (Or.inl h.yearLen)
      (by simp [h.yearLen]) (by simp [h.yearLen])
    show repeatClass isDigit _ 1 N.length N = _
    have := repeatClass_greedy isDigit
      (fun r3 => some (consumed (Ls ++ (Y ++ N)) (Y ++ N), consumed (Y ++ N) N, consumed N r3))
      (consumed (Ls ++ (Y ++ N)) (Y ++ N), consumed (Y ++ N) N, consumed N []) [] rfl N 1 N.length
      h.seq (Or.inl rfl) (by cases N <;> simp_all) (le_refl _)
    simp only [List.append_nil] at this
    rw [this]
    simp [consumed]
  · exact h.letters
  · right
    intro c hc
    cases Y with
    | nil => exact absurd rfl hY
    | cons y ys =>
      simp at hc
      subst hc
      exact digit_not_letter (h.year _ (by simp))
  · cases Ls with
    | nil => exact absurd rfl h.nonempty
    | cons _ _ => simp
  · simp

theorem cleanReFindSubmatch_canonical {id Ls Y N : List Nat} (h : Canonical id Ls Y N) :
    cleanReFindSubmatch id = some (Ls, Y, N) := by
  have := cleanReAt_canonical h
  cases id with
  | nil => simpa [cleanReFindSubmatch] using this
  | cons c cs => simp [cleanReFindSubmatch, this]

theorem GetCleanBillID_canonical (b : Bill) {Ls Y N : List Nat}
    (h : Canonical b.BillID Ls Y N) :
    GetCleanBillID b = Except.ok (Ls ++ Y ++ bytes "-" ++ N) := by
  simp [GetCleanBillID, cleanReFindSubmatch_canonical h]

/-! ## The shape of `CreateTweet` -/

theorem len_dot : (bytes ".").length = 1 := by decide

theorem baseOverhead_eq (id : List Nat) : baseOverhead id = id.length + 38 := by
  have h : (bytes " See more at  #").length = 15 := by decide
  simp [baseOverhead, h]
  omega

theorem tweet_core (h c tl : List Nat) (base : Nat) :
    (if ((h ++ c ++ bytes ".").length : Int) + (base : Int) > tweetLen then
      match slice0 h ((h.length : Int)
          - (((base : Int) + ((h ++ c ++ bytes ".").length : Int) + 3) - tweetLen)) with
      | Except.error e => Except.error e
      | Except.ok cut =>
        Except.ok (TrimSpace cut ++ (if c = [] then bytes ".." else bytes "...") ++ c
          ++ bytes "." ++ tl)
    else Except.ok (h ++ c ++ bytes "." ++ tl))
    = if (h ++ c ++ bytes ".").length + base ≤ 280 then
        Except.ok (h ++ c ++ bytes "." ++ tl)
      else if 276 < base + c.length then
        Except.error Fault.sliceOutOfRange
      else
        Except.ok (TrimSpace (h.take (276 - base - c.length)) ++ ellipsisFor c ++ c
          ++ bytes "." ++ tl) := by
  have hl : (h ++ c ++ bytes ".").length = h.length + c.length + 1 := by
    simp [len_dot]; omega
  rw [hl]
  simp only [tweetLen, slice0, ellipsisFor]
  by_cases h1 : h.length + c.length + 1 + base ≤ 280
  · have h2 : ¬ (((h.length + c.length + 1 : Nat) : Int) + (base : Int) > 280) := by omega
    rw [if_neg h2, if_pos h1]
  · have h2 : (((h.length + c.length + 1 : Nat) : Int) + (base : Int) > 280) := by omega
    rw [if_pos h2, if_neg h1]
    by_cases h3 : 276 < base + c.length
    · have h4 : ((h.length : Int) - ((base : Int) + ((h.length + c.length + 1 : Nat) : Int) + 3 - 280) < 0
          ∨ (h.length : Int) < (h.length : Int)
            - ((base : Int) + ((h.length + c.length + 1 : Nat) : Int) + 3 - 280)) := by
        left; omega
      rw [if_pos h4, if_pos h3]
    · have h4 : ¬ ((h.length : Int) - ((base : Int) + ((h.length + c.length + 1 : Nat) : Int) + 3 - 280) < 0
          ∨ (h.length : Int) < (h.length : Int)
            - ((base : Int) + ((h.length + c.length + 1 : Nat) : Int) + 3 - 280)) := by
        omega
      rw [if_neg h4, if_neg h3]
      have h5 : ((h.length : Int) - ((base : Int) + ((h.length + c.length + 1 : Nat) : Int) + 3 - 280)).toNat
          = 276 - base - c.length := by omega
      rw [h5]

theorem CreateTweet_eq (L : Lib) (b : Bill) (billURL cid : List Nat)
    (actions : List LegistarAction)
    (hid : GetCleanBillID b = Except.ok cid)
    (hact : L.jsonUnmarshal b.Data = some actions) :
    CreateTweet L b billURL =
      if (headline cid b.Title ++ clause L actions ++ bytes ".").length
          + baseOverhead b.BillID ≤ 280 then
        Except.ok (headline cid b.Title ++ clause L actions ++ bytes "."
          ++ trailer billURL b.BillID)
      else if 276 < baseOverhead b.BillID + (clause L actions).length then
        Except.error Fault.sliceOutOfRange
      else
        Except.ok (TrimSpace ((headline cid b.Title).take
            (276 - baseOverhead b.BillID - (clause L actions).length))
          ++ ellipsisFor (clause L actions) ++ clause L actions ++ bytes "."
          ++ trailer billURL b.BillID) := by
  have hbase : (((bytes " See more at  #" ++ b.BillID).length : Int) + urlLen)
      = ((baseOverhead b.BillID : Nat) : Int) := by
    simp [baseOverhead, urlLen]
  simp only [CreateTweet, hid, GetActions, hact]
  rw [hbase]
  exact tweet_core (headline cid b.Title) (clause L actions) (trailer billURL b.BillID)
    (baseOverhead b.BillID)

/-! ## Length of `strings.TrimSpace` -/

theorem trimSpaceStart_length (s : List Nat) :
    Sum.elim List.length List.length (trimSpaceStart s) ≤ s.length := by
  induction s with
  | nil => simp [trimSpaceStart]
  | cons c cs ih =>
    unfold trimSpaceStart
    split
    · simp
    · split
      · exact Nat.le_succ_of_le ih
      · simp

theorem trimSpaceStop_length (s : List Nat) :
    Sum.elim List.length List.length (trimSpaceStop s) ≤ s.length := by
  induction s with
  | nil => simp [trimSpaceStop]
  | cons c cs ih =>
    unfold trimSpaceStop
    split
    · simp
    · split
      · exact Nat.le_succ_of_le ih
      · simp

theorem trimLeftLoop_length (fuel : Nat) :
    ∀ s : List Nat, (trimLeftLoop fuel s).length ≤ s.length := by
  induction fuel with
  | zero => intro s; simp [trimLeftLoop]
  | succ fuel ih =>
    intro s
    cases s with
    | nil => simp [trimLeftLoop]
    | cons c cs =>
      simp only [trimLeftLoop]
      split
      · refine le_trans (ih _) ?_
        simp
      · exact le_refl _

theorem TrimRightSpace_length (s : List Nat) : (TrimRightSpace s).length ≤ s.length := by
  simp [TrimRightSpace]

theorem TrimSpace_length (s : List Nat) : (TrimSpace s).length ≤ s.length := by
  unfold TrimSpace
  have h1 := trimSpaceStart_length s
  split
  · rename_i rest heq
    rw [heq] at h1
    simp only [Sum.elim_inr] at h1
    exact le_trans (TrimRightSpace_length _) (le_trans (trimLeftLoop_length _ _) h1)
  · rename_i rest heq
    rw [heq] at h1
    simp only [Sum.elim_inl] at h1
    have h2 := trimSpaceStop_length rest.reverse
    split
    · rename_i kept heq2
      rw [heq2] at h2
      simp only [Sum.elim_inr, List.length_reverse] at h2
      refine le_trans (TrimRightSpace_length _) ?_
      simp only [List.length_reverse]
      omega
    · rename_i kept heq2
      rw [heq2] at h2
      simp only [Sum.elim_inl, List.length_reverse] at h2
      simp only [List.length_reverse]
      omega

/-! ## Claims on `CreateTweet` -/

theorem testBill_canonical :
    Canonical testBill.BillID (bytes "O") (bytes "2010") (bytes "11") :=
  ⟨by decide, by decide, by decide, by decide, by decide, by decide, by decide⟩

/-- C1: for a bill with a canonical identifier whose candidate body fits the
budget, `GetCleanBillID` returns the display form and `CreateTweet` returns
exactly headline, clause, period, link and hashtag, the title unmodified. -/
theorem C1_fitting_tweet_is_untruncated (L : Lib) (b : Bill) (billURL Ls Y N : List Nat)
    (actions : List LegistarAction)
    (hcanon : Canonical b.BillID Ls Y N)
    (hact : L.jsonUnmarshal b.Data = some actions)
    (hfit : (headline (Ls ++ Y ++ bytes "-" ++ N) b.Title ++ clause L actions
        ++ bytes ".").length + (bytes " See more at  #" ++ b.BillID).length + 23 ≤ 280) :
    GetCleanBillID b = Except.ok (Ls ++ Y ++ bytes "-" ++ N) ∧
    CreateTweet L b billURL =
      Except.ok (headline (Ls ++ Y ++ bytes "-" ++ N) b.Title ++ clause L actions
        ++ bytes ". See more at " ++ billURL ++ bytes " #" ++ b.BillID) := by
  have hid := GetCleanBillID_canonical b hcanon
  refine ⟨hid, ?_⟩
  rw [CreateTweet_eq L b billURL _ actions hid hact]
  have hfit2 : (headline (Ls ++ Y ++ bytes "-" ++ N) b.Title ++ clause L actions
      ++ bytes ".").length + baseOverhead b.BillID ≤ 280 := by
    simp only [baseOverhead]; omega
  rw [if_pos hfit2]
  have hlit : bytes "." ++ bytes " See more at " = bytes ". See more at " := by decide
  simp only [trailer, List.append_assoc]
  rw [← List.append_assoc (bytes "."), hlit]

theorem C1_fitting_tweet_is_untruncated_witness :
    CreateTweet (exampleLib []) testBill (bytes "https://chicago.legistar.com") =
      Except.ok (bytes "O2010-11: Testing bill. See more at https://chicago.legistar.com #O201011") :=
  (C1_fitting_tweet_is_untruncated (exampleLib []) testBill
    (bytes "https://chicago.legistar.com") (bytes "O") (bytes "2010") (bytes "11") []
    testBill_canonical rfl (by decide)).2

theorem lit_dot_see : bytes "." ++ bytes " See more at " = bytes ". See more at " := by
  decide

theorem overhead_eq (id : List Nat) :
    (bytes " See more at  #" ++ id).length + 23 = baseOverhead id := rfl

/-- C2: whenever `CreateTweet` returns on a bill with a canonical identifier,
the body in front of the trailing link and hashtag, together with the
template overhead and the 23 units of the link, stays within 280, with or
without truncation. -/
theorem C2_rendered_length_within_budget (L : Lib) (b : Bill)
    (billURL Ls Y N s : List Nat) (actions : List LegistarAction)
    (hcanon : Canonical b.BillID Ls Y N)
    (hact : L.jsonUnmarshal b.Data = some actions)
    (hret : CreateTweet L b billURL = Except.ok s) :
    ∃ body, s = body ++ (bytes " See more at " ++ billURL ++ bytes " #" ++ b.BillID) ∧
      body.length + (bytes " See more at  #" ++ b.BillID).length + 23 ≤ 280 := by
  have hid := GetCleanBillID_canonical b hcanon
  rw [CreateTweet_eq L b billURL _ actions hid hact] at hret
  split at hret
  · rename_i hfit
    refine ⟨headline (Ls ++ Y ++ bytes "-" ++ N) b.Title ++ clause L actions ++ bytes ".", ?_, ?_⟩
    · simpa [trailer] using (Except.ok.inj hret).symm
    · rw [Nat.add_assoc, overhead_eq]; exact hfit
  · split at hret
    · cases hret
    · rename_i hover hneg
      refine ⟨TrimSpace ((headline (Ls ++ Y ++ bytes "-" ++ N) b.Title).take
          (276 - baseOverhead b.BillID - (clause L actions).length))
          ++ ellipsisFor (clause L actions) ++ clause L actions ++ bytes ".", ?_, ?_⟩
      · simpa [trailer] using (Except.ok.inj hret).symm
      · rw [Nat.add_assoc, overhead_eq]
        have h1 := TrimSpace_length ((headline (Ls ++ Y ++ bytes "-" ++ N) b.Title).take
          (276 - baseOverhead b.BillID - (clause L actions).length))
        have h2 : ((headline (Ls ++ Y ++ bytes "-" ++ N) b.Title).take
            (276 - baseOverhead b.BillID - (clause L actions).length)).length
            ≤ 276 - baseOverhead b.BillID - (clause L actions).length :=
          List.length_take_le _ _
        have h3 : (ellipsisFor (clause L actions)).length ≤ 3 := by
          unfold ellipsisFor
          split <;> decide
        simp only [List.length_append, len_dot]
        omega

theorem C2_rendered_length_within_budget_witness :
    ∃ body, bytes "O2010-11: Certification of city funding requirement for Laborers' and Retirement Board Employees Annuity and Benefit Fund of Chicago for tax year 2020, pay... was recommended to pass by the Committee on Ethics and Government Oversight. See more at https://chicago.legistar.com #O201011"
        = body ++ (bytes " See more at " ++ bytes "https://chicago.legistar.com" ++ bytes " #"
          ++ testBill.BillID) ∧
      body.length + (bytes " See more at  #" ++ testBill.BillID).length + 23 ≤ 280 :=
  C2_rendered_length_within_budget (exampleLib [ethicsAction])
    { testBill with Title := longTitle } (bytes "https://chicago.legistar.com")
    (bytes "O") (bytes "2010") (bytes "11") _ [ethicsAction]
    testBill_canonical rfl (by decide)

/-- C3: on a bill with a canonical identifier whose candidate body exceeds the
budget, a returned tweet has as body the headline cut to its first
`len(headline) - excess` bytes and trimmed, then the ellipsis (three dots
with a clause, two without), then the clause and the period. -/
theorem C3_truncated_body (L : Lib) (b : Bill)
    (billURL Ls Y N s : List Nat) (actions : List LegistarAction)
    (hcanon : Canonical b.BillID Ls Y N)
    (hact : L.jsonUnmarshal b.Data = some actions)
    (hover : (headline (Ls ++ Y ++ bytes "-" ++ N) b.Title ++ clause L actions
        ++ bytes ".").length + ((bytes " See more at  #" ++ b.BillID).length + 23) > 280)
    (hret : CreateTweet L b billURL = Except.ok s) :
    s = TrimSpace ((headline (Ls ++ Y ++ bytes "-" ++ N) b.Title).take
          ((headline (Ls ++ Y ++ bytes "-" ++ N) b.Title).length
            - (((bytes " See more at  #" ++ b.BillID).length + 23)
                + (headline (Ls ++ Y ++ bytes "-" ++ N) b.Title ++ clause L actions
                    ++ bytes ".").length + 3 - 280)))
        ++ (if clause L actions = [] then bytes ".." else bytes "...")
        ++ clause L actions ++ bytes "."
        ++ (bytes " See more at " ++ billURL ++ bytes " #" ++ b.BillID) := by
  have hid := GetCleanBillID_canonical b hcanon
  rw [CreateTweet_eq L b billURL _ actions hid hact] at hret
  rw [overhead_eq] at hover ⊢
  rw [if_neg (by omega)] at hret
  split at hret
  · cases hret
  · rename_i hneg
    have hcut : (headline (Ls ++ Y ++ bytes "-" ++ N) b.Title).length
        - (baseOverhead b.BillID
            + (headline (Ls ++ Y ++ bytes "-" ++ N) b.Title ++ clause L actions
                ++ bytes ".").length + 3 - 280)
        = 276 - baseOverhead b.BillID - (clause L actions).length := by
      simp only [List.length_append, len_dot] at hover ⊢
      omega
    rw [hcut]
    exact (Except.ok.inj hret).symm

theorem C3_truncated_body_witness :
    bytes "O2010-11: Certification of city funding requirement for Laborers' and Retirement Board Employees Annuity and Benefit Fund of Chicago for tax year 2020, payment year 2021... See more at https://chicago.legistar.com #O201011"
      = TrimSpace ((bytes "O2010-11: " ++ (longTitle ++ List.replicate 66 0x20)).take (235 - (45 + 236 + 3 - 280)))
        ++ bytes ".." ++ [] ++ bytes "."
        ++ (bytes " See more at " ++ bytes "https://chicago.legistar.com" ++ bytes " #"
          ++ bytes "O201011") :=
  C3_truncated_body (exampleLib [])
    { testBill with Title := longTitle ++ List.replicate 66 0x20 }
    (bytes "https://chicago.legistar.com")
    (bytes "O") (bytes "2010") (bytes "11") _ []
    testBill_canonical rfl (by decide) (by decide)

theorem CreateTweet_suffix (L : Lib) (b : Bill)
    (billURL s : List Nat) (actions : List LegistarAction)
    (hact : L.jsonUnmarshal b.Data = some actions)
    (hret : CreateTweet L b billURL = Except.ok s) :
    ∃ front, s = front ++ (clause L actions ++ bytes ". See more at " ++ billURL
      ++ bytes " #" ++ b.BillID) := by
  cases hid : GetCleanBillID b with
  | error e => simp [CreateTweet, hid] at hret
  | ok cid =>
    rw [CreateTweet_eq L b billURL cid actions hid hact] at hret
    split at hret
    · refine ⟨headline cid b.Title, ?_⟩
      rw [← (Except.ok.inj hret), ← lit_dot_see]
      simp [trailer]
    · split at hret
      · cases hret
      · refine ⟨TrimSpace ((headline cid b.Title).take
          (276 - baseOverhead b.BillID - (clause L actions).length))
          ++ ellipsisFor (clause L actions), ?_⟩
        rw [← (Except.ok.inj hret), ← lit_dot_see]
        simp [trailer]

/-- C4: a returned tweet, truncated or not, ends with the complete clause of
the first action, the period, the link and the hashtag. -/
theorem C4_clause_and_trailer_preserved (L : Lib) (b : Bill)
    (billURL s : List Nat) (actions : List LegistarAction)
    (hact : L.jsonUnmarshal b.Data = some actions)
    (hret : CreateTweet L b billURL = Except.ok s) :
    ∃ front, s = front ++ (clause L actions ++ bytes ". See more at " ++ billURL
      ++ bytes " #" ++ b.BillID) :=
  CreateTweet_suffix L b billURL s actions hact hret

theorem C4_clause_and_trailer_preserved_witness :
    ∃ front, bytes "O2010-11: Certification of city funding requirement for Laborers' and Retirement Board Employees Annuity and Benefit Fund of Chicago for tax year 2020, pay... was recommended to pass by the Committee on Ethics and Government Oversight. See more at https://chicago.legistar.com #O201011"
      = front ++ (bytes " was recommended to pass by the Committee on Ethics and Government Oversight"
          ++ bytes ". See more at " ++ bytes "https://chicago.legistar.com"
          ++ bytes " #" ++ bytes "O201011") :=
  C4_clause_and_trailer_preserved (exampleLib [ethicsAction])
    { testBill with Title := longTitle } (bytes "https://chicago.legistar.com") _
    [ethicsAction] rfl (by decide)

/-- C7: the most recent action is positional: the outcome of `CreateTweet` on
a history `a :: rest` is the outcome on the one-element history holding `a`
with any other date; no later action and no date is looked at. -/
theorem C7_most_recent_is_positional (L : Lib) (b : Bill) (billURL data : List Nat)
    (a : LegistarAction) (rest : List LegistarAction) (date : Int)
    (hact : L.jsonUnmarshal b.Data = some (a :: rest))
    (hone : L.jsonUnmarshal data = some [{ a with Date := date }]) :
    CreateTweet L b billURL = CreateTweet L { b with Data := data } billURL := by
  simp [CreateTweet, GetCleanBillID, GetActions, hact, hone, firstAction, actionText]

theorem C7_most_recent_is_positional_witness :
    CreateTweet testLib { testBill with Data := passedReferredData }
        (bytes "https://chicago.legistar.com")
      = Except.ok (bytes "O2010-11: Testing bill passed. See more at https://chicago.legistar.com #O201011")
    ∧ CreateTweet testLib { testBill with Data := passedReferredData }
        (bytes "https://chicago.legistar.com")
      = CreateTweet testLib { testBill with Data := passedData }
        (bytes "https://chicago.legistar.com") :=
  ⟨by decide,
   C7_most_recent_is_positional testLib { testBill with Data := passedReferredData }
    (bytes "https://chicago.legistar.com") passedData passedAction [referredAction] 0
    (by decide) (by decide)⟩

theorem actionText_eq_specClause (L : Lib) (a : LegistarAction) :
    actionText L a.Action a = specClause L a.Action a.Actor a.Committee := by
  by_cases h1 : a.Action = bytes "Introduced"
  · unfold actionText specClause; rw [h1]; rfl
  by_cases h2 : a.Action = bytes "Direct Introduction"
  · unfold actionText specClause; rw [h2]; rfl
  by_cases h3 : a.Action = bytes "Placed on File"
  · unfold actionText specClause; rw [h3]; rfl
  by_cases h4 : a.Action = bytes "Referred"
  · unfold actionText specClause; rw [h4]; rfl
  by_cases h5 : a.Action = bytes "Re-Referred"
  · unfold actionText specClause; rw [h5]; rfl
  by_cases h6 : a.Action = bytes "Recommended for Passage"
  · unfold actionText specClause; rw [h6]; rfl
  by_cases h7 : a.Action = bytes "Recommended Do Not Pass"
  · unfold actionText specClause; rw [h7]; rfl
  by_cases h8 : a.Action = bytes "Recommended for Re-referral"
  · unfold actionText specClause; rw [h8]; rfl
  by_cases h9 : a.Action = bytes "Passed"
  · unfold actionText specClause; rw [h9]; rfl
  by_cases h10 : a.Action = bytes "Passed as Substitute"
  · unfold actionText specClause; rw [h10]; rfl
  by_cases h11 : a.Action = bytes "Failed to Pass"
  · unfold actionText specClause; rw [h11]; rfl
  by_cases h12 : a.Action = bytes "Introduced (Agreed Calendar)"
  · unfold actionText specClause; rw [h12]; rfl
  by_cases h13 : a.Action = bytes "Adopted"
  · unfold actionText specClause; rw [h13]; rfl
  by_cases h14 : a.Action = bytes "Approved"
  · unfold actionText specClause; rw [h14]; rfl
  by_cases h15 : a.Action = bytes "Repealed"
  · unfold actionText specClause; rw [h15]; rfl
  by_cases h16 : a.Action = bytes "Vetoed"
  · unfold actionText specClause; rw [h16]; rfl
  by_cases h17 : a.Action = bytes "Tabled"
  · unfold actionText specClause; rw [h17]; rfl
  by_cases h18 : a.Action = bytes "Withdrawn"
  · unfold actionText specClause; rw [h18]; rfl
  by_cases h19 : a.Action = bytes ""
  · unfold actionText specClause; rw [h19]; rfl
  simp [actionText, specClause, clauseTable, h1, h2, h3, h4, h5, h6, h7, h8, h9, h10, h11,
    h12, h13, h14, h15, h16, h17, h18, h19]

theorem CreateTweet_ok_shape (L : Lib) (b : Bill)
    (billURL s : List Nat) (actions : List LegistarAction)
    (hact : L.jsonUnmarshal b.Data = some actions)
    (hret : CreateTweet L b billURL = Except.ok s) :
    ∃ cid, GetCleanBillID b = Except.ok cid ∧
      (s = headline cid b.Title ++ (clause L actions ++ bytes ". See more at " ++ billURL
            ++ bytes " #" ++ b.BillID)
        ∨ ∃ n, s = TrimSpace ((headline cid b.Title).take n) ++ ellipsisFor (clause L actions)
            ++ (clause L actions ++ bytes ". See more at " ++ billURL
              ++ bytes " #" ++ b.BillID)) := by
  cases hid : GetCleanBillID b with
  | error e => simp [CreateTweet, hid] at hret
  | ok cid =>
    refine ⟨cid, rfl, ?_⟩
    rw [CreateTweet_eq L b billURL cid actions hid hact] at hret
    split at hret
    · left
      rw [← (Except.ok.inj hret), ← lit_dot_see]
      simp [trailer]
    · split at hret
      · cases hret
      · right
        refine ⟨276 - baseOverhead b.BillID - (clause L actions).length, ?_⟩
        rw [← (Except.ok.inj hret), ← lit_dot_see]
        simp [trailer]

theorem CreateTweet_empty_label (L : Lib) (b : Bill) (billURL data : List Nat)
    (a : LegistarAction) (rest : List LegistarAction)
    (hact : L.jsonUnmarshal b.Data = some (a :: rest)) (hlabel : a.Action = [])
    (hnone : L.jsonUnmarshal data = some []) :
    CreateTweet L b billURL = CreateTweet L { b with Data := data } billURL := by
  have h1 : clause L (a :: rest) = clause L [] := by
    simp only [clause, firstAction, hlabel]
    rfl
  cases hid : GetCleanBillID b with
  | error e => simp [CreateTweet, GetCleanBillID, hid] at *; simp [hid]
  | ok cid =>
    have hid2 : GetCleanBillID { b with Data := data } = Except.ok cid := hid
    rw [CreateTweet_eq L b billURL cid (a :: rest) hid hact,
      CreateTweet_eq L { b with Data := data } billURL cid [] hid2 hnone, h1]

/-- C6: the clause that `CreateTweet` puts between the headline (whole, or cut
and followed by the ellipsis) and the period is the clause of the
specification's table for the first action: exact, case-sensitive labels,
`" was "` and the lower-cased label for Approved, Repealed, Vetoed, Tabled and
Withdrawn, no clause for the empty label, and a space and the lower-cased
label for any other label.  With an empty label the outcome is that of an
empty history, whatever the actor and the committee. -/
theorem C6_clause_follows_table (L : Lib) (b : Bill) (billURL : List Nat)
    (a : LegistarAction) (rest : List LegistarAction)
    (hact : L.jsonUnmarshal b.Data = some (a :: rest)) :
    (∀ s, CreateTweet L b billURL = Except.ok s →
      ∃ cid, GetCleanBillID b = Except.ok cid ∧
        (s = headline cid b.Title ++ (specClause L a.Action a.Actor a.Committee
              ++ bytes ". See more at " ++ billURL ++ bytes " #" ++ b.BillID)
          ∨ ∃ n, s = TrimSpace ((headline cid b.Title).take n)
              ++ ellipsisFor (specClause L a.Action a.Actor a.Committee)
              ++ (specClause L a.Action a.Actor a.Committee
                ++ bytes ". See more at " ++ billURL ++ bytes " #" ++ b.BillID)))
    ∧ (a.Action = [] → ∀ data, L.jsonUnmarshal data = some [] →
        CreateTweet L b billURL = CreateTweet L { b with Data := data } billURL) := by
  constructor
  · intro s hret
    have h := CreateTweet_ok_shape L b billURL s (a :: rest) hact hret
    have hc : clause L (a :: rest) = specClause L a.Action a.Actor a.Committee :=
      actionText_eq_specClause L a
    rw [hc] at h
    exact h
  · intro hlabel data hnone
    exact CreateTweet_empty_label L b billURL data a rest hact hlabel hnone

theorem C6_clause_follows_table_witness :
    specClause (exampleLib [committeeReferral]) (bytes "Referred") [] (bytes "Test Committee")
        = bytes " was referred to the Test Committee"
    ∧ specClause (exampleLib [committeeReferral]) (bytes "referred") [] (bytes "Test Committee")
        = bytes " referred"
    ∧ ∃ cid, GetCleanBillID testBill = Except.ok cid ∧
        (bytes "O2010-11: Testing bill was referred to the Test Committee. See more at https://chicago.legistar.com #O201011"
          = headline cid testBill.Title
            ++ (specClause (exampleLib [committeeReferral]) (bytes "Referred") []
                (bytes "Test Committee")
              ++ bytes ". See more at " ++ bytes "https://chicago.legistar.com" ++ bytes " #"
              ++ testBill.BillID)
        ∨ ∃ n, bytes "O2010-11: Testing bill was referred to the Test Committee. See more at https://chicago.legistar.com #O201011"
          = TrimSpace ((headline cid testBill.Title).take n)
            ++ ellipsisFor (specClause (exampleLib [committeeReferral]) (bytes "Referred") []
                (bytes "Test Committee"))
            ++ (specClause (exampleLib [committeeReferral]) (bytes "Referred") []
                (bytes "Test Committee")
              ++ bytes ". See more at " ++ bytes "https://chicago.legistar.com" ++ bytes " #"
              ++ testBill.BillID)) :=
  ⟨by decide, by decide,
   (C6_clause_follows_table (exampleLib [committeeReferral]) testBill
      (bytes "https://chicago.legistar.com") committeeReferral [] rfl).1 _ (by decide)⟩

/-! ## `strings.TrimSpace` keeps what lies before a non-space ASCII byte -/

theorem firstInfo_lo {b sz lo hi : Nat} (h : firstInfo b = some (sz, lo, hi)) :
    0x80 ≤ lo := by
  unfold firstInfo at h
  split_ifs at h <;> simp at h <;> omega

theorem getD_ge_of_lt4 (a b c d : Nat) (r : List Nat) (k : Nat)
    (ha : 0x80 ≤ a) (hb : 0x80 ≤ b) (hc : 0x80 ≤ c) (hd : 0x80 ≤ d) (hk : k < 4) :
    0x80 ≤ (a :: b :: c :: d :: r).getD k 0 := by
  match k, hk with
  | 0, _ => simpa using ha
  | 1, _ => simpa using hb
  | 2, _ => simpa using hc
  | 3, _ => simpa using hd

/-- A rune decoded with a width of two or more lies within the string and
consists of non-ASCII bytes only. -/
theorem DecodeRuneInString_wide (l : List Nat) (r sz : Nat)
    (h : DecodeRuneInString l = (r, sz)) :
    sz ≤ 1 ∨ (sz ≤ l.length ∧ ∀ k, k < sz → 0x80 ≤ l.getD k 0) := by
  cases l with
  | nil =>
    simp [DecodeRuneInString] at h
    omega
  | cons s0 rest =>
    rw [DecodeRuneInString] at h
    split at h
    · simp at h; omega
    · rename_i h0
      have h0' : 0x80 ≤ s0 := by omega
      split at h
      · simp at h; omega
      · rename_i sz' lo hi hf
        have hlo := firstInfo_lo hf
        split at h
        · simp at h; omega
        · rename_i hlen
          split at h
          · simp at h; omega
          · rename_i s1 r1
            split at h
            · simp at h; omega
            · rename_i h2
              have h1' : 0x80 ≤ s1 := by omega
              split at h
              · rename_i hsz2
                simp at h
                right
                obtain ⟨_, rfl⟩ := h
                refine ⟨by simp, ?_⟩
                intro k hk
                match k, hk with
                | 0, _ => simpa using h0'
                | 1, _ => simpa using h1'
              · rename_i hsz2
                split at h
                · simp at h; omega
                · rename_i s2 r2
                  split at h
                  · simp at h; omega
                  · rename_i h4
                    have h2' : 0x80 ≤ s2 := by
                      simp [isCont] at h4; omega
                    split at h
                    · rename_i hsz3
                      simp at h
                      right
                      obtain ⟨_, rfl⟩ := h
                      refine ⟨by simp, ?_⟩
                      intro k hk
                      match k, hk with
                      | 0, _ => simpa using h0'
                      | 1, _ => simpa using h1'
                      | 2, _ => simpa using h2'
                    · rename_i hsz3
                      split at h
                      · simp at h; omega
                      · rename_i s3 r3
                        split at h
                        · simp at h; omega
                        · rename_i h6
                          simp at h
                          right
                          obtain ⟨_, rfl⟩ := h
                          have h3' : 0x80 ≤ s3 := by
                            simp [isCont] at h6; omega
                          refine ⟨by simp, ?_⟩
                          intro k hk
                          exact getD_ge_of_lt4 s0 s1 s2 s3 r3 k h0' h1' h2' h3' hk

theorem DecodeLastRuneInString_ascii (u : List Nat) (hu : u ≠ [])
    (hlast : u.getD (u.length - 1) 0 < 0x80) :
    DecodeLastRuneInString u = (u.getD (u.length - 1) 0, 1) := by
  have hl : u.length ≠ 0 := by
    cases u with
    | nil => exact absurd rfl hu
    | cons _ _ => simp
  unfold DecodeLastRuneInString
  simp only []
  rw [if_neg hl, if_pos hlast]

theorem DecodeLastRuneInString_wide (u : List Nat) (r size : Nat)
    (h : DecodeLastRuneInString u = (r, size)) :
    size ≤ 1 ∨ (size ≤ u.length ∧
      ∀ k, u.length - size ≤ k → k < u.length → 0x80 ≤ u.getD k 0) := by
  unfold DecodeLastRuneInString at h
  simp only [] at h
  split at h
  · simp at h; omega
  · split at h
    · simp at h; omega
    · generalize lastRuneStart u = start at h
      cases hdec : DecodeRuneInString (List.drop start u) with
      | mk r' sz =>
        rw [hdec] at h
        simp only [] at h
        split at h
        · simp at h; omega
        · rename_i hsum
          simp at h
          obtain ⟨_, rfl⟩ := h
          rcases DecodeRuneInString_wide _ _ _ hdec with hw | ⟨hw1, hw2⟩
          · left; exact hw
          · right
            simp only [ne_eq, not_not] at hsum
            simp only [List.length_drop] at hw1
            refine ⟨by omega, ?_⟩
            intro k hk1 hk2
            have := hw2 (k - start) (by omega)
            have hidx : start + (k - start) = k := by omega
            simpa [List.getD_eq_getElem?_getD, List.getElem?_drop, hidx] using this

theorem IsSpace_ascii {c : Nat} (hc : c < 0x80) : IsSpace c = asciiSpace c := by
  have h1 : c ≤ 0xFF := by omega
  have h2 : (c == 0x85) = false := by simp; omega
  have h3 : (c == 0xA0) = false := by simp; omega
  simp [IsSpace, asciiSpace, h1, h2, h3]

theorem getD_take {t : List Nat} {i k : Nat} (hk : k < i) :
    (t.take i).getD k 0 = t.getD k 0 := by
  simp [List.getD_eq_getElem?_getD, List.getElem?_take, hk]

theorem trimRightLoop_ge (t : List Nat) (m c : Nat)
    (htc : t.getD m 0 = c) (hc : c < 0x80) (hcs : asciiSpace c = false) :
    ∀ fuel i, m + 1 ≤ i → i ≤ t.length → m + 1 ≤ trimRightLoop t fuel i := by
  intro fuel
  induction fuel with
  | zero => intro i h1 _; simpa [trimRightLoop] using h1
  | succ fuel ih =>
    intro i h1 h2
    have hi0 : i ≠ 0 := by omega
    have hlen : (t.take i).length = i := by simp [h2]
    rw [trimRightLoop]
    rw [if_neg hi0]
    cases hdec : DecodeLastRuneInString (t.take i) with
    | mk r size =>
      simp only []
      by_cases hi : i = m + 1
      · have hne : t.take i ≠ [] := by
          intro h0; rw [h0] at hlen; simp at hlen; omega
        have hlast : (t.take i).getD ((t.take i).length - 1) 0 = c := by
          rw [hlen, getD_take (by omega)]
          have : i - 1 = m := by omega
          rw [this, htc]
        have := DecodeLastRuneInString_ascii (t.take i) hne (by rw [hlast]; exact hc)
        rw [hlast, hdec] at this
        simp only [Prod.mk.injEq] at this
        obtain ⟨rfl, rfl⟩ := this
        rw [IsSpace_ascii hc, hcs]
        have hj : i - 1 = m := by omega
        simp only [Bool.false_eq_true, if_false, hj, htc]
        rw [if_neg (by omega)]
      · have hsz : m + 1 ≤ i - size := by
          rcases DecodeLastRuneInString_wide _ _ _ hdec with hw | ⟨hw1, hw2⟩
          · omega
          · rw [hlen] at hw1 hw2
            by_contra hcon
            have := hw2 m (by omega) (by omega)
            rw [getD_take (by omega), htc] at this
            omega
        split
        · exact ih (i - size) hsz (by omega)
        · split <;> omega

theorem trimSpaceStop_shape (c : Nat) (y : List Nat) (hc : c < 0x80)
    (hcs : asciiSpace c = false) :
    ∀ x : List Nat, ∃ x2,
      trimSpaceStop (x ++ c :: y) = Sum.inl (x2 ++ c :: y)
        ∨ trimSpaceStop (x ++ c :: y) = Sum.inr (x2 ++ c :: y) := by
  intro x
  induction x with
  | nil =>
    refine ⟨[], Or.inl ?_⟩
    have : ¬ (0x80 ≤ c) := by omega
    simp [trimSpaceStop, this, hcs]
  | cons d x ih =>
    by_cases hd : 0x80 ≤ d
    · refine ⟨d :: x, Or.inr ?_⟩
      simp [trimSpaceStop, hd]
    · by_cases hds : asciiSpace d = true
      · obtain ⟨x2, h⟩ := ih
        refine ⟨x2, ?_⟩
        simpa [trimSpaceStop, hd, hds] using h
      · refine ⟨d :: x, Or.inl ?_⟩
        simp [trimSpaceStop, hd, hds]

theorem getD_append_mid (p : List Nat) (c : Nat) (q : List Nat) :
    (p ++ c :: q).getD p.length 0 = c := by
  induction p with
  | nil => simp
  | cons d p ih => simpa using ih

/-- A string that begins with a non-space ASCII byte keeps, under
`strings.TrimSpace`, everything up to any of its non-space ASCII bytes. -/
theorem TrimSpace_keeps (h0 : Nat) (a : List Nat) (c : Nat) (r : List Nat)
    (hh : h0 < 0x80) (hhs : asciiSpace h0 = false)
    (hc : c < 0x80) (hcs : asciiSpace c = false) :
    ∃ r', TrimSpace (h0 :: a ++ c :: r) = h0 :: a ++ c :: r' := by
  have hstart : trimSpaceStart (h0 :: a ++ c :: r) = Sum.inl (h0 :: a ++ c :: r) := by
    have : ¬ (0x80 ≤ h0) := by omega
    simp [trimSpaceStart, this, hhs]
  have hrev : (h0 :: a ++ c :: r).reverse = r.reverse ++ c :: (h0 :: a).reverse := by
    simp
  obtain ⟨x2, hx⟩ := trimSpaceStop_shape c (h0 :: a).reverse hc hcs r.reverse
  have hback : (x2 ++ c :: (h0 :: a).reverse).reverse = h0 :: a ++ c :: x2.reverse := by
    simp
  unfold TrimSpace
  rw [hstart]
  simp only []
  rw [hrev]
  rcases hx with hx | hx
  · rw [hx]
    simp only []
    rw [hback]
    exact ⟨_, rfl⟩
  · rw [hx]
    simp only []
    rw [hback]
    unfold TrimRightSpace
    have hget : (h0 :: a ++ c :: x2.reverse).getD (h0 :: a).length 0 = c :=
      getD_append_mid (h0 :: a) c x2.reverse
    have hlen : (h0 :: a).length + 1 ≤ (h0 :: a ++ c :: x2.reverse).length := by
      simp
    have hk := trimRightLoop_ge (h0 :: a ++ c :: x2.reverse) (h0 :: a).length c hget hc hcs
      (h0 :: a ++ c :: x2.reverse).length (h0 :: a ++ c :: x2.reverse).length hlen (le_refl _)
    generalize trimRightLoop (h0 :: a ++ c :: x2.reverse) (h0 :: a ++ c :: x2.reverse).length
      (h0 :: a ++ c :: x2.reverse).length = k at hk
    refine ⟨x2.reverse.take (k - (h0 :: a).length - 1), ?_⟩
    have hk' : k = (h0 :: a).length + ((k - (h0 :: a).length - 1) + 1) := by omega
    conv_lhs => rw [hk']
    rw [List.take_append, List.take_succ_cons]

/-! ## Letters are ASCII -/

theorem letter_ascii {c : Nat} (h : isLetter c = true) :
    c < 0x80 ∧ asciiSpace c = false := by
  simp [isLetter] at h
  refine ⟨by omega, ?_⟩
  simp [asciiSpace]
  omega

/-! ## Matches of `billRe` -/

theorem billReBody_sound {s rest : List Nat} (h : billReBody s = some rest) :
    ∃ Ls S1 Y S2 N, IsMention Ls S1 Y S2 N ∧ s = Ls ++ S1 ++ Y ++ S2 ++ N ++ rest := by
  unfold billReBody at h
  obtain ⟨Ls, r1, hs1, hLs, hLmin, hLmax, h1⟩ := repeatClass_sound _ _ _ _ _ _ h
  unfold starClass at h1
  obtain ⟨S1, r2, hs2, hS1, _, _, h2⟩ := repeatClass_sound _ _ _ _ _ _ h1
  obtain ⟨Y, r3, hs3, hY, hYmin, hYmax, h3⟩ := repeatClass_sound _ _ _ _ _ _ h2
  obtain ⟨S2, r4, hs4, hS2, _, _, h4⟩ := repeatClass_sound _ _ _ _ _ _ h3
  obtain ⟨N, r5, hs5, hN, hNmin, hNmax, h5⟩ := repeatClass_sound _ _ _ _ _ _ h4
  simp only [Option.some.injEq] at h5
  subst h5
  refine ⟨Ls, S1, Y, S2, N, ⟨hLs, hLmin, hLmax, hS1, hY, by omega, hS2, hN, hNmin, hNmax⟩, ?_⟩
  rw [hs1, hs2, hs3, hs4, hs5]
  simp

theorem billReAt_sound {atStart : Bool} {s m : List Nat} (h : billReAt atStart s = some m) :
    ∃ sp Ls S1 Y S2 N, IsMention Ls S1 Y S2 N ∧ (sp = [] ∨ sp = [0x20]) ∧
      m = sp ++ (Ls ++ S1 ++ Y ++ S2 ++ N) := by
  unfold billReAt at h
  split at h
  · rename_i rest hb
    have hb' : billReBody s = some rest := by
      cases atStart <;> simp_all
    obtain ⟨Ls, S1, Y, S2, N, hm, hs⟩ := billReBody_sound hb'
    refine ⟨[], Ls, S1, Y, S2, N, hm, Or.inl rfl, ?_⟩
    simp only [Option.some.injEq] at h
    rw [← h, hs, consumed_append]
    simp
  · split at h
    · rename_i cs _
      cases hb : billReBody cs with
      | none => simp [hb] at h
      | some rest =>
        obtain ⟨Ls, S1, Y, S2, N, hm, hs⟩ := billReBody_sound hb
        refine ⟨[0x20], Ls, S1, Y, S2, N, hm, Or.inr rfl, ?_⟩
        rw [hb] at h
        simp only [Option.map_some', Option.some.injEq] at h
        rw [← h, hs]
        have : (32 :: (Ls ++ S1 ++ Y ++ S2 ++ N ++ rest))
            = ([0x20] ++ (Ls ++ S1 ++ Y ++ S2 ++ N)) ++ rest := by simp
        rw [this, consumed_append]
    · simp at h

theorem billReFind_sound : ∀ (s : List Nat) (atStart : Bool) (m : List Nat),
    billReFind atStart s = some m →
    ∃ sp Ls S1 Y S2 N, IsMention Ls S1 Y S2 N ∧ (sp = [] ∨ sp = [0x20]) ∧
      m = sp ++ (Ls ++ S1 ++ Y ++ S2 ++ N) := by
  intro s
  induction s with
  | nil =>
    intro atStart m h
    exact billReAt_sound (by simpa [billReFind] using h)
  | cons c cs ih =>
    intro atStart m h
    rw [billReFind] at h
    split at h
    · rename_i m' hm
      simp only [Option.some.injEq] at h
      subst h
      exact billReAt_sound hm
    · exact ih false m h

/-! ## The steps of `ParseBillID` on a match -/

theorem digit_ascii {c : Nat} (h : isDigit c = true) :
    c < 0x80 ∧ asciiSpace c = false ∧ isSpacer c = false ∧ asciiUpper c = c := by
  simp [isDigit] at h
  refine ⟨by omega, ?_, ?_, ?_⟩
  · simp [asciiSpace]; omega
  · simp [isSpacer, isReSpace]; omega
  · simp [asciiUpper]; omega

theorem letter_not_spacer {c : Nat} (h : isLetter c = true) : isSpacer c = false := by
  simp [isLetter] at h
  simp [isSpacer, isReSpace]
  omega

theorem trimSpaceStart_spaces (h0 : Nat) (t : List Nat) (hh : h0 < 0x80)
    (hhs : asciiSpace h0 = false) :
    ∀ sp : List Nat, (∀ c ∈ sp, c < 0x80 ∧ asciiSpace c = true) →
      trimSpaceStart (sp ++ h0 :: t) = Sum.inl (h0 :: t) := by
  intro sp
  induction sp with
  | nil =>
    intro _
    have : ¬ (0x80 ≤ h0) := by omega
    simp [trimSpaceStart, this, hhs]
  | cons d sp ih =>
    intro hsp
    have hd := hsp d (by simp)
    have : ¬ (0x80 ≤ d) := by omega
    simp only [List.cons_append, trimSpaceStart, this, hd.2, if_false, if_true]
    exact ih (fun c hc => hsp c (by simp [hc]))

/-- On a string made of ASCII spaces followed by a core that begins and ends
with non-space ASCII bytes, `strings.TrimSpace` returns the core. -/
theorem TrimSpace_trim (sp : List Nat) (h0 : Nat) (q : List Nat) (z : Nat)
    (hsp : ∀ c ∈ sp, c < 0x80 ∧ asciiSpace c = true)
    (hh : h0 < 0x80) (hhs : asciiSpace h0 = false)
    (hz : z < 0x80) (hzs : asciiSpace z = false) :
    TrimSpace (sp ++ h0 :: (q ++ [z])) = h0 :: (q ++ [z]) := by
  unfold TrimSpace
  rw [trimSpaceStart_spaces h0 (q ++ [z]) hh hhs sp hsp]
  simp only []
  have hrev : (h0 :: (q ++ [z])).reverse = z :: (q.reverse ++ [h0]) := by simp
  rw [hrev]
  have hnz : ¬ (0x80 ≤ z) := by omega
  have hstop : trimSpaceStop (z :: (q.reverse ++ [h0])) = Sum.inl (z :: (q.reverse ++ [h0])) := by
    simp [trimSpaceStop, hnz, hzs]
  rw [hstop]
  simp

theorem spacerReplaceAll_nil : ∀ (x : List Nat) (inRun : Bool),
    spacerReplaceAll [] inRun x = x.filter (fun c => !isSpacer c) := by
  intro x
  induction x with
  | nil => intro _; simp [spacerReplaceAll]
  | cons c cs ih =>
    intro inRun
    by_cases hc : isSpacer c = true
    · cases inRun <;> simp [spacerReplaceAll, hc, ih]
    · simp [spacerReplaceAll, hc, ih]

theorem filter_keep {p : Nat → Bool} {x : List Nat} (h : ∀ c ∈ x, p c = true) :
    x.filter p = x := List.filter_eq_self.mpr h

theorem filter_drop {p : Nat → Bool} {x : List Nat} (h : ∀ c ∈ x, p c = false) :
    x.filter p = [] := by
  rw [List.filter_eq_nil_iff]
  intro c hc
  simp [h c hc]

theorem despace_mention {Ls S1 Y S2 N : List Nat} (hm : IsMention Ls S1 Y S2 N) :
    spacerReplaceAll [] false (Ls ++ S1 ++ Y ++ S2 ++ N) = Ls ++ Y ++ N := by
  rw [spacerReplaceAll_nil]
  simp only [List.filter_append]
  rw [filter_keep (x := Ls) (fun c hc => by simp [letter_not_spacer (hm.letters c hc)]),
    filter_drop (x := S1) (fun c hc => by simp [hm.sep1 c hc]),
    filter_keep (x := Y) (fun c hc => by simp [(digit_ascii (hm.year c hc)).2.2.1]),
    filter_drop (x := S2) (fun c hc => by simp [hm.sep2 c hc]),
    filter_keep (x := N) (fun c hc => by simp [(digit_ascii (hm.seq c hc)).2.2.1])]
  simp

theorem map_fix {f : Nat → Nat} : ∀ {x : List Nat}, (∀ c ∈ x, f c = c) → x.map f = x := by
  intro x
  induction x with
  | nil => intro _; rfl
  | cons c cs ih =>
    intro h
    simp only [List.map_cons, h c (by simp), ih (fun d hd => h d (by simp [hd]))]

theorem ToUpper_mention (L : Lib) {Ls S1 Y S2 N : List Nat} (hm : IsMention Ls S1 Y S2 N) :
    ToUpper L (Ls ++ Y ++ N) = Ls.map asciiUpper ++ Y ++ N := by
  have hall : (Ls ++ Y ++ N).all (fun c => decide (c < 0x80)) = true := by
    simp only [List.all_eq_true, List.mem_append, decide_eq_true_eq]
    rintro c ((hc | hc) | hc)
    · exact (letter_ascii (hm.letters c hc)).1
    · exact (digit_ascii (hm.year c hc)).1
    · exact (digit_ascii (hm.seq c hc)).1
  unfold ToUpper
  rw [if_pos hall]
  simp only [List.map_append]
  rw [map_fix (x := Y) (fun c hc => (digit_ascii (hm.year c hc)).2.2.2),
    map_fix (x := N) (fun c hc => (digit_ascii (hm.seq c hc)).2.2.2)]

theorem ParseBillID_of_match (L : Lib) (text sp : List Nat) {Ls S1 Y S2 N : List Nat}
    (hm : IsMention Ls S1 Y S2 N) (hsp : sp = [] ∨ sp = [0x20])
    (hfind : billReFind true text = some (sp ++ (Ls ++ S1 ++ Y ++ S2 ++ N))) :
    ParseBillID L text
      = Replace1 (bytes "OR") (bytes "Or") (Ls.map asciiUpper ++ Y ++ N) := by
  obtain ⟨l0, Ls', hLs⟩ : ∃ l0 Ls', Ls = l0 :: Ls' := by
    cases hL : Ls with
    | nil => have := hm.lettersMin; simp [hL] at this
    | cons l0 Ls' => exact ⟨l0, Ls', rfl⟩
  obtain ⟨N', z, hN⟩ : ∃ N' z, N = N' ++ [z] := by
    rcases List.eq_nil_or_concat N with h | ⟨N', z, h⟩
    · have := hm.seqMin; simp [h] at this
    · exact ⟨N', z, by simpa using h⟩
  have hl0 := letter_ascii (hm.letters l0 (by simp [hLs]))
  have hz := digit_ascii (hm.seq z (by simp [hN]))
  have hcore : Ls ++ S1 ++ Y ++ S2 ++ N = l0 :: ((Ls' ++ S1 ++ Y ++ S2 ++ N') ++ [z]) := by
    simp [hLs, hN]
  have hspaces : ∀ c ∈ sp, c < 0x80 ∧ asciiSpace c = true := by
    rcases hsp with h | h <;> subst h <;> simp [asciiSpace]
  have htrim : TrimSpace (sp ++ (Ls ++ S1 ++ Y ++ S2 ++ N)) = Ls ++ S1 ++ Y ++ S2 ++ N := by
    rw [hcore]
    exact TrimSpace_trim sp l0 _ z hspaces hl0.1 hl0.2 hz.1 hz.2.1
  simp only [ParseBillID, billReFindString, hfind, Option.getD_some]
  rw [htrim, despace_mention hm, ToUpper_mention L hm]

theorem ParseBillID_no_match (L : Lib) (text : List Nat)
    (hfind : billReFind true text = none) : ParseBillID L text = [] := by
  simp only [ParseBillID, billReFindString, hfind, Option.getD_none]
  rfl

/-- Every result of `ParseBillID` is empty or comes from a mention: its
letters upper-cased, the year and the sequence digits, with the first `OR`
rewritten. -/
theorem ParseBillID_shape (L : Lib) (text : List Nat) :
    ParseBillID L text = [] ∨
    ∃ Ls S1 Y S2 N, IsMention Ls S1 Y S2 N ∧
      ParseBillID L text
        = Replace1 (bytes "OR") (bytes "Or") (Ls.map asciiUpper ++ Y ++ N) := by
  cases hfind : billReFind true text with
  | none => exact Or.inl (ParseBillID_no_match L text hfind)
  | some m =>
    obtain ⟨sp, Ls, S1, Y, S2, N, hm, hsp, rfl⟩ := billReFind_sound text true m hfind
    exact Or.inr ⟨Ls, S1, Y, S2, N, hm, ParseBillID_of_match L text sp hm hsp hfind⟩

/-! ## Claims on `ParseBillID` -/

theorem head_digit_not_spacer {x y : List Nat} (hx : ∀ c ∈ x, isDigit c = true) :
    ∀ c, (x ++ y).head? = some c → x ≠ [] → isSpacer c = false := by
  intro c hc hne
  cases x with
  | nil => exact absurd rfl hne
  | cons d x =>
    simp at hc
    subst hc
    exact (digit_ascii (hx _ (by simp))).2.2.1

theorem billReBody_complete {Ls S1 Y S2 N : List Nat} (hm : IsMention Ls S1 Y S2 N) :
    billReBody (Ls ++ (S1 ++ (Y ++ (S2 ++ N)))) = some [] := by
  have hYne : Y ≠ [] := by
    intro h; have := hm.yearLen; simp [h] at this
  have hNne : N ≠ [] := by
    intro h; have := hm.seqMin; simp [h] at this
  have h4 : repeatClass isDigit (fun rest => some rest) 1 5 N = some [] := by
    have := repeatClass_greedy isDigit (fun rest => some rest) [] [] rfl N 1 5 hm.seq
      (Or.inr (by simp)) hm.seqMin hm.seqMax
    simpa using this
  have h3 : starClass isSpacer (repeatClass isDigit (fun rest => some rest) 1 5) (S2 ++ N)
      = some [] := by
    unfold starClass
    refine repeatClass_greedy isSpacer _ [] N h4 S2 0 _ hm.sep2 (Or.inr ?_) (Nat.zero_le _)
      (by simp)
    intro c hc
    have := head_digit_not_spacer (y := []) hm.seq c (by simpa using hc) hNne
    exact this
  have h2 : repeatClass isDigit
      (starClass isSpacer (repeatClass isDigit (fun rest => some rest) 1 5)) 4 4
      (Y ++ (S2 ++ N)) = some [] :=
    repeatClass_greedy isDigit _ [] (S2 ++ N) h3 Y 4 4 hm.year (Or.inl hm.yearLen)
      (by rw [hm.yearLen]) (by rw [hm.yearLen])
  have h1 : starClass isSpacer (repeatClass isDigit
      (starClass isSpacer (repeatClass isDigit (fun rest => some rest) 1 5)) 4 4)
      (S1 ++ (Y ++ (S2 ++ N))) = some [] := by
    unfold starClass
    refine repeatClass_greedy isSpacer _ [] (Y ++ (S2 ++ N)) h2 S1 0 _ hm.sep1 (Or.inr ?_)
      (Nat.zero_le _) (by simp)
    intro c hc
    exact head_digit_not_spacer hm.year c hc hYne
  unfold billReBody
  refine repeatClass_greedy isLetter _ [] (S1 ++ (Y ++ (S2 ++ N))) h1 Ls 1 4 hm.letters
    (Or.inr ?_) hm.lettersMin hm.lettersMax
  intro c hc
  cases S1 with
  | nil =>
    cases Y with
    | nil => exact absurd rfl hYne
    | cons y Y' =>
      simp at hc
      subst hc
      exact digit_not_letter (hm.year _ (by simp))
  | cons s S1' =>
    simp at hc
    subst hc
    have hs := hm.sep1 s (by simp)
    cases hl : isLetter s with
    | false => rfl
    | true => rw [letter_not_spacer hl] at hs; cases hs

theorem billReFind_complete {Ls S1 Y S2 N : List Nat} (hm : IsMention Ls S1 Y S2 N) :
    billReFind true (Ls ++ S1 ++ Y ++ S2 ++ N) = some ([] ++ (Ls ++ S1 ++ Y ++ S2 ++ N)) := by
  have hb := billReBody_complete hm
  have hassoc : Ls ++ S1 ++ Y ++ S2 ++ N = Ls ++ (S1 ++ (Y ++ (S2 ++ N))) := by simp
  rw [hassoc]
  have hat : billReAt true (Ls ++ (S1 ++ (Y ++ (S2 ++ N))))
      = some (Ls ++ (S1 ++ (Y ++ (S2 ++ N)))) := by
    simp [billReAt, hb, consumed]
  cases hcs : Ls ++ (S1 ++ (Y ++ (S2 ++ N))) with
  | nil =>
    rw [hcs] at hat
    simpa [billReFind] using hat
  | cons c cs =>
    rw [hcs] at hat
    simp [billReFind, hat]

theorem Replace1_OR (x : List Nat) :
    Replace1 (bytes "OR") (bytes "Or") x = rewriteFirstOR x := by
  have hOR : bytes "OR" = [0x4F, 0x52] := by decide
  have hOr : bytes "Or" = [0x4F, 0x72] := by decide
  rw [hOR, hOr]
  induction x with
  | nil => simp [Replace1, rewriteFirstOR]
  | cons c cs ih =>
    cases cs with
    | nil => simp [Replace1, rewriteFirstOR, List.isPrefixOf]
    | cons d rest =>
      by_cases h : c = 0x4F ∧ d = 0x52
      · obtain ⟨rfl, rfl⟩ := h
        simp [Replace1, rewriteFirstOR, List.isPrefixOf]
      · have hp : List.isPrefixOf [0x4F, 0x52] (c :: d :: rest) = false := by
          simp only [List.isPrefixOf, Bool.and_true]
          simp
          intro h1 h2
          exact h ⟨h1.symm, h2.symm⟩
        rw [Replace1, hp]
        simp only [Bool.false_eq_true, if_false]
        rw [ih, rewriteFirstOR, if_neg h]

/-- C8: a well-formed mention (one to four letters, a 4-digit year, one to
five sequence digits, with any runs of spaces and hyphens in between) parses
to the upper-cased letters, the year and the sequence digits, with only the
first occurrence of `OR` rewritten to `Or`. -/
theorem C8_ParseBillID_of_wellformed_mention (L : Lib) (Ls s1 Y s2 N : List Nat)
    (hLs : ∀ c ∈ Ls, isLetter c = true) (hLmin : 1 ≤ Ls.length) (hLmax : Ls.length ≤ 4)
    (hY : ∀ c ∈ Y, isDigit c = true) (hYlen : Y.length = 4)
    (hN : ∀ c ∈ N, isDigit c = true) (hNmin : 1 ≤ N.length) (hNmax : N.length ≤ 5)
    (hs1 : ∀ c ∈ s1, c = 0x20 ∨ c = 0x2D) (hs2 : ∀ c ∈ s2, c = 0x20 ∨ c = 0x2D) :
    ParseBillID L (Ls ++ s1 ++ Y ++ s2 ++ N)
      = rewriteFirstOR (Ls.map asciiUpper ++ Y ++ N) := by
  have hsep : ∀ s : List Nat, (∀ c ∈ s, c = 0x20 ∨ c = 0x2D) → ∀ c ∈ s, isSpacer c = true := by
    intro s hs c hc
    rcases hs c hc with h | h <;> subst h <;> decide
  have hm : IsMention Ls s1 Y s2 N :=
    ⟨hLs, hLmin, hLmax, hsep s1 hs1, hY, hYlen, hsep s2 hs2, hN, hNmin, hNmax⟩
  rw [ParseBillID_of_match L _ [] hm (Or.inl rfl) (billReFind_complete hm), Replace1_OR]

theorem C8_ParseBillID_of_wellformed_mention_witness :
    ParseBillID (exampleLib []) (bytes "o 2015 1111") = bytes "O20151111"
    ∧ ParseBillID (exampleLib []) (bytes "O-2015-12") = bytes "O201512"
    ∧ ParseBillID (exampleLib []) (bytes "oror - 2015 - 7") = bytes "OrOR20157" :=
  ⟨C8_ParseBillID_of_wellformed_mention (exampleLib []) (bytes "o") (bytes " ") (bytes "2015")
      (bytes " ") (bytes "1111") (by decide) (by decide) (by decide) (by decide) (by decide)
      (by decide) (by decide) (by decide) (by decide) (by decide),
   C8_ParseBillID_of_wellformed_mention (exampleLib []) (bytes "O") (bytes "-") (bytes "2015")
      (bytes "-") (bytes "12") (by decide) (by decide) (by decide) (by decide) (by decide)
      (by decide) (by decide) (by decide) (by decide) (by decide),
   C8_ParseBillID_of_wellformed_mention (exampleLib []) (bytes "oror") (bytes " - ")
      (bytes "2015") (bytes " - ") (bytes "7") (by decide) (by decide) (by decide) (by decide)
      (by decide) (by decide) (by decide) (by decide) (by decide) (by decide)⟩

theorem upper_of_letter {c : Nat} (h : isLetter c = true) :
    isUpper (asciiUpper c) = true := by
  simp [isLetter] at h
  simp only [isUpper, asciiUpper]
  split <;> simp <;> omega

theorem upper_facts {c : Nat} (h : isUpper c = true) :
    c < 0x80 ∧ c ≠ 0x72 ∧ asciiUpper c = c ∧ IsSpace c = false ∧ isSpacer c = false := by
  simp [isUpper] at h
  have hlt : c < 0x80 := by omega
  refine ⟨hlt, by omega, ?_, ?_, ?_⟩
  · simp [asciiUpper]; omega
  · rw [IsSpace_ascii hlt]; simp [asciiSpace]; omega
  · simp [isSpacer, isReSpace]; omega

theorem digit_facts {c : Nat} (h : isDigit c = true) :
    c < 0x80 ∧ c ≠ 0x72 ∧ asciiUpper c = c ∧ IsSpace c = false ∧ isSpacer c = false
      ∧ isUpper c = false := by
  have hd := digit_ascii h
  simp [isDigit] at h
  refine ⟨hd.1, by omega, hd.2.2.2, ?_, hd.2.2.1, ?_⟩
  · rw [IsSpace_ascii hd.1]; exact hd.2.1
  · simp [isUpper]; omega

theorem rewriteFirstOR_head (d : Nat) (rest : List Nat) :
    ∃ X, rewriteFirstOR (d :: rest) = d :: X := by
  cases rest with
  | nil => exact ⟨[], rfl⟩
  | cons e rest =>
    by_cases h : d = 0x4F ∧ e = 0x52
    · obtain ⟨rfl, rfl⟩ := h
      exact ⟨0x72 :: rest, by simp [rewriteFirstOR]⟩
    · exact ⟨rewriteFirstOR (e :: rest), by rw [rewriteFirstOR, if_neg h]⟩

/-- Reading `Or` back as `OR` undoes the Orders exception on a string without
the letter `r`. -/
theorem read_back : ∀ u : List Nat, (∀ c ∈ u, c ≠ 0x72) →
    Replace1 (bytes "Or") (bytes "OR") (rewriteFirstOR u) = u := by
  have hOr : bytes "Or" = [0x4F, 0x72] := by decide
  have hOR : bytes "OR" = [0x4F, 0x52] := by decide
  rw [hOr, hOR]
  intro u
  induction u with
  | nil => intro _; simp [Replace1, rewriteFirstOR]
  | cons c cs ih =>
    intro hu
    cases cs with
    | nil => simp [Replace1, rewriteFirstOR, List.isPrefixOf]
    | cons d rest =>
      by_cases h : c = 0x4F ∧ d = 0x52
      · obtain ⟨rfl, rfl⟩ := h
        simp [Replace1, rewriteFirstOR, List.isPrefixOf]
      · rw [rewriteFirstOR, if_neg h]
        obtain ⟨X, hX⟩ := rewriteFirstOR_head d rest
        have hd : d ≠ 0x72 := hu d (by simp)
        have hp : List.isPrefixOf [0x4F, 0x72] (c :: rewriteFirstOR (d :: rest)) = false := by
          rw [hX]
          simp only [List.isPrefixOf, Bool.and_true]
          simp
          intro _ h2
          exact absurd h2.symm hd
        rw [Replace1, hp]
        simp only [Bool.false_eq_true, if_false]
        rw [ih (fun e he => hu e (by simp [he]))]

theorem mention_upper_bytes {Ls S1 Y S2 N : List Nat} (hm : IsMention Ls S1 Y S2 N) :
    ∀ c ∈ Ls.map asciiUpper ++ Y ++ N, isUpper c = true ∨ isDigit c = true := by
  intro c hc
  simp only [List.mem_append, List.mem_map] at hc
  rcases hc with (⟨a, ha, rfl⟩ | hc) | hc
  · exact Or.inl (upper_of_letter (hm.letters a ha))
  · exact Or.inr (hm.year c hc)
  · exact Or.inr (hm.seq c hc)

theorem matchesStorageRe_mention {Ls S1 Y S2 N : List Nat} (hm : IsMention Ls S1 Y S2 N) :
    matchesStorageRe (Ls.map asciiUpper ++ Y ++ N) = true := by
  have hYne : Y ≠ [] := by
    intro h; have := hm.yearLen; simp [h] at this
  have hdig : ∀ c ∈ Y ++ N, isDigit c = true := by
    intro c hc
    rcases List.mem_append.mp hc with h | h
    · exact hm.year c h
    · exact hm.seq c h
  have h2 : repeatClass isDigit (fun r2 => if r2 = [] then some () else none)
      4 (Y ++ N).length (Y ++ N) = some () := by
    have := repeatClass_greedy isDigit (fun r2 => if r2 = [] then some () else none) () []
      rfl (Y ++ N) 4 (Y ++ N).length hdig (Or.inl rfl)
      (by simp [hm.yearLen]) (le_refl _)
    simpa using this
  have h1 := repeatClass_greedy isUpper
    (fun r1 => repeatClass isDigit (fun r2 => if r2 = [] then some () else none)
      4 r1.length r1) () (Y ++ N) h2 (Ls.map asciiUpper) 1 4
    (by
      intro c hc
      obtain ⟨a, ha, rfl⟩ := List.mem_map.mp hc
      exact upper_of_letter (hm.letters a ha))
    (Or.inr (by
      intro c hc
      cases Y with
      | nil => exact absurd rfl hYne
      | cons y Y' =>
        simp at hc
        subst hc
        exact (digit_facts (hm.year _ (by simp))).2.2.2.2.2))
    (by simpa using hm.lettersMin) (by simpa using hm.lettersMax)
  unfold matchesStorageRe
  rw [List.append_assoc, h1]
  rfl

/-- C9: the result of `ParseBillID` is empty or, with the `Or` of the Orders
exception read as `OR`, matches `^[A-Z]{1,4}\d{4,}$`. -/
theorem C9_ParseBillID_storage_pattern (L : Lib) (t : List Nat) :
    ParseBillID L t = [] ∨
    matchesStorageRe (Replace1 (bytes "Or") (bytes "OR") (ParseBillID L t)) = true := by
  rcases ParseBillID_shape L t with h | ⟨Ls, S1, Y, S2, N, hm, h⟩
  · exact Or.inl h
  · right
    rw [h, Replace1_OR, read_back _ (fun c hc => by
      rcases mention_upper_bytes hm c hc with hu | hd
      · exact (upper_facts hu).2.1
      · exact (digit_facts hd).2.1)]
    exact matchesStorageRe_mention hm

theorem rewriteFirstOR_bytes : ∀ (u : List Nat) (c : Nat),
    c ∈ rewriteFirstOR u → c ∈ u ∨ c = 0x72 := by
  intro u
  induction u with
  | nil => intro c hc; simp [rewriteFirstOR] at hc
  | cons a cs ih =>
    intro c hc
    cases cs with
    | nil => left; simpa [rewriteFirstOR] using hc
    | cons d rest =>
      by_cases h : a = 0x4F ∧ d = 0x52
      · rw [rewriteFirstOR, if_pos h] at hc
        simp only [List.mem_cons] at hc ⊢
        rcases hc with h1 | h1 | h1
        · left; left; rw [h1, h.1]
        · right; exact h1
        · left; right; right; exact h1
      · rw [rewriteFirstOR, if_neg h] at hc
        rcases List.mem_cons.mp hc with h1 | h1
        · left; simp [h1]
        · rcases ih c h1 with h2 | h2
          · left; exact List.mem_cons_of_mem _ h2
          · right; exact h2

theorem map_upper_rewriteFirstOR : ∀ u : List Nat, (∀ c ∈ u, asciiUpper c = c) →
    (rewriteFirstOR u).map asciiUpper = u := by
  intro u
  induction u with
  | nil => intro _; simp [rewriteFirstOR]
  | cons a cs ih =>
    intro hu
    cases cs with
    | nil => simpa [rewriteFirstOR] using hu
    | cons d rest =>
      by_cases h : a = 0x4F ∧ d = 0x52
      · rw [rewriteFirstOR, if_pos h]
        have hrest : rest.map asciiUpper = rest :=
          map_fix (fun c hc => hu c (by simp [hc]))
        have h1 : asciiUpper 0x4F = 0x4F := by decide
        have h2 : asciiUpper 0x72 = 0x52 := by decide
        simp only [List.map_cons, h1, h2, hrest, h.1, h.2]
      · rw [rewriteFirstOR, if_neg h]
        simp only [List.map_cons, hu a (by simp)]
        rw [ih (fun c hc => hu c (by simp [hc]))]

theorem C10_not_uppercase_counterexample :
    ParseBillID (exampleLib []) (bytes "or 2015 1") = bytes "Or20151"
    ∧ ToUpper (exampleLib []) (ParseBillID (exampleLib []) (bytes "or 2015 1"))
      ≠ ParseBillID (exampleLib []) (bytes "or 2015 1") := by
  constructor <;> decide

/-- C10 (amended): the identifier that `ParseBillID` returns is ASCII, holds
no whitespace character and no hyphen, and its upper-casing is the identifier
with the `Or` of the Orders exception read as `OR`: it is uppercase apart
from the single `r` that the exception writes. -/
theorem C10_storage_form_invariant (L : Lib) (t : List Nat) :
    (∀ c ∈ ParseBillID L t, c < 0x80 ∧ IsSpace c = false ∧ isSpacer c = false)
    ∧ ToUpper L (ParseBillID L t)
        = Replace1 (bytes "Or") (bytes "OR") (ParseBillID L t) := by
  rcases ParseBillID_shape L t with h | ⟨Ls, S1, Y, S2, N, hm, h⟩
  · rw [h]
    exact ⟨by simp, rfl⟩
  · rw [h, Replace1_OR]
    have hu := mention_upper_bytes hm
    have hbytes : ∀ c ∈ rewriteFirstOR (Ls.map asciiUpper ++ Y ++ N),
        c < 0x80 ∧ IsSpace c = false ∧ isSpacer c = false := by
      intro c hc
      rcases rewriteFirstOR_bytes _ c hc with h1 | h1
      · rcases hu c h1 with h2 | h2
        · exact ⟨(upper_facts h2).1, (upper_facts h2).2.2.2.1, (upper_facts h2).2.2.2.2⟩
        · exact ⟨(digit_facts h2).1, (digit_facts h2).2.2.2.1, (digit_facts h2).2.2.2.2.1⟩
      · subst h1
        decide
    refine ⟨hbytes, ?_⟩
    have hall : (rewriteFirstOR (Ls.map asciiUpper ++ Y ++ N)).all
        (fun c => decide (c < 0x80)) = true := by
      simp only [List.all_eq_true, decide_eq_true_eq]
      exact fun c hc => (hbytes c hc).1
    rw [read_back _ (fun c hc => by
      rcases hu c hc with h2 | h2
      · exact (upper_facts h2).2.1
      · exact (digit_facts h2).2.1)]
    unfold ToUpper
    rw [if_pos hall]
    exact map_upper_rewriteFirstOR _ (fun c hc => by
      rcases hu c hc with h2 | h2
      · exact (upper_facts h2).2.2.1
      · exact (digit_facts h2).2.2.1)

/-! ## Failure and success of `CreateTweet` -/

theorem headline_length_ge (cid title : List Nat) : cid.length ≤ (headline cid title).length := by
  unfold headline
  split <;> simp

theorem canonical_display_length {id Ls Y N : List Nat} (h : Canonical id Ls Y N) :
    7 ≤ (Ls ++ Y ++ bytes "-" ++ N).length := by
  have h1 : 1 ≤ Ls.length := by
    cases hL : Ls with
    | nil => exact absurd hL h.nonempty
    | cons _ _ => simp
  have h2 : 1 ≤ N.length := by
    cases hN : N with
    | nil => exact absurd hN h.seqNonempty
    | cons _ _ => simp
  have h3 : (bytes "-").length = 1 := by decide
  simp only [List.length_append, h.yearLen, h3]
  omega

/-- With a canonical identifier and a parsed history, `CreateTweet` returns
when the clause and the overhead leave room for the slice bound. -/
theorem CreateTweet_returns (L : Lib) (b : Bill) (billURL Ls Y N : List Nat)
    (actions : List LegistarAction)
    (hcanon : Canonical b.BillID Ls Y N)
    (hact : L.jsonUnmarshal b.Data = some actions)
    (hroom : (clause L actions).length + baseOverhead b.BillID ≤ 276) :
    ∃ s, CreateTweet L b billURL = Except.ok s := by
  rw [CreateTweet_eq L b billURL _ actions (GetCleanBillID_canonical b hcanon) hact]
  split
  · exact ⟨_, rfl⟩
  · rw [if_neg (by omega)]
    exact ⟨_, rfl⟩

/-- With a canonical identifier and a parsed history, `CreateTweet` panics on
the slice when the clause and the overhead exceed 276. -/
theorem CreateTweet_fails (L : Lib) (b : Bill) (billURL Ls Y N : List Nat)
    (actions : List LegistarAction)
    (hcanon : Canonical b.BillID Ls Y N)
    (hact : L.jsonUnmarshal b.Data = some actions)
    (hover : 276 < (clause L actions).length + baseOverhead b.BillID) :
    CreateTweet L b billURL = Except.error Fault.sliceOutOfRange := by
  rw [CreateTweet_eq L b billURL _ actions (GetCleanBillID_canonical b hcanon) hact]
  have h1 := headline_length_ge (Ls ++ Y ++ bytes "-" ++ N) b.Title
  have h2 := canonical_display_length hcanon
  have hl : (headline (Ls ++ Y ++ bytes "-" ++ N) b.Title ++ clause L actions
      ++ bytes ".").length
      = (headline (Ls ++ Y ++ bytes "-" ++ N) b.Title).length + (clause L actions).length
        + 1 := by
    simp [len_dot]; omega
  rw [if_neg (by rw [hl]; omega), if_pos (by omega)]

/-- C13: on a BillID made of a non-empty run of letters, four digits and one
or more digits, the pattern of `GetCleanBillID` captures exactly these three
parts and the method returns letters, year, a hyphen and the remaining
digits. -/
theorem C13_GetCleanBillID_display_form (b : Bill) (Ls Y N : List Nat)
    (hLs : ∀ c ∈ Ls, isLetter c = true) (hne : Ls ≠ [])
    (hY : ∀ c ∈ Y, isDigit c = true) (hYlen : Y.length = 4)
    (hN : ∀ c ∈ N, isDigit c = true) (hNne : N ≠ [])
    (hid : b.BillID = Ls ++ Y ++ N) :
    cleanReFindSubmatch b.BillID = some (Ls, Y, N) ∧
    GetCleanBillID b = Except.ok (Ls ++ Y ++ bytes "-" ++ N) := by
  have hcanon : Canonical b.BillID Ls Y N := ⟨hid, hLs, hne, hY, hYlen, hN, hNne⟩
  exact ⟨cleanReFindSubmatch_canonical hcanon, GetCleanBillID_canonical b hcanon⟩

theorem C13_GetCleanBillID_display_form_witness :
    GetCleanBillID { testBill with BillID := bytes "O20151111" }
        = Except.ok (bytes "O2015-1111")
    ∧ GetCleanBillID { testBill with BillID := bytes "FL20101" }
        = Except.ok (bytes "FL2010-1") :=
  ⟨(C13_GetCleanBillID_display_form { testBill with BillID := bytes "O20151111" }
      (bytes "O") (bytes "2015") (bytes "1111") (by decide) (by decide) (by decide)
      (by decide) (by decide) (by decide) (by decide)).2,
   (C13_GetCleanBillID_display_form { testBill with BillID := bytes "FL20101" }
      (bytes "FL") (bytes "2010") (bytes "1") (by decide) (by decide) (by decide)
      (by decide) (by decide) (by decide) (by decide)).2⟩

theorem C14_empty_identifier_counterexample :
    (exampleLib []).jsonUnmarshal ({ testBill with BillID := [] } : Bill).Data = some []
    ∧ CreateTweet (exampleLib []) { testBill with BillID := [] }
        (bytes "https://chicago.legistar.com")
      = Except.error Fault.indexOutOfRange := by
  constructor <;> decide

/-- C14 (amended): for a bill whose data parses and whose BillID has the
canonical shape, with any title, actor, committee and link, empty ones
included, `CreateTweet` returns a string whenever the clause and the overhead
together do not exceed 276. -/
theorem C14_CreateTweet_returns_with_room (L : Lib) (b : Bill) (billURL Ls Y N : List Nat)
    (actions : List LegistarAction)
    (hcanon : Canonical b.BillID Ls Y N)
    (hact : L.jsonUnmarshal b.Data = some actions)
    (hroom : (clause L actions).length + ((bytes " See more at  #" ++ b.BillID).length + 23)
      ≤ 276) :
    ∃ s, CreateTweet L b billURL = Except.ok s :=
  CreateTweet_returns L b billURL Ls Y N actions hcanon hact hroom

theorem C14_CreateTweet_returns_with_room_witness :
    ∃ s, CreateTweet (exampleLib [LegistarAction.zero]) { testBill with Title := [] } []
      = Except.ok s :=
  C14_CreateTweet_returns_with_room (exampleLib [LegistarAction.zero])
    { testBill with Title := [] } [] (bytes "O") (bytes "2010") (bytes "11")
    [LegistarAction.zero] testBill_canonical rfl (by decide)

/-- C18: with a canonical BillID and a parsed history, the slice bound
`len(headline) - excess` is `276 - baseOverhead - len(clause)`, whatever the
title, and `CreateTweet` fails on the slice exactly when the clause and the
overhead together exceed 276; otherwise it returns. -/
theorem C18_slice_failure_decided_by_clause (L : Lib) (b : Bill)
    (billURL Ls Y N : List Nat) (actions : List LegistarAction)
    (hcanon : Canonical b.BillID Ls Y N)
    (hact : L.jsonUnmarshal b.Data = some actions) :
    ((headline (Ls ++ Y ++ bytes "-" ++ N) b.Title).length : Int)
        - (((((bytes " See more at  #" ++ b.BillID).length + 23 : Nat) : Int)
            + ((headline (Ls ++ Y ++ bytes "-" ++ N) b.Title ++ clause L actions
                ++ bytes ".").length : Int) + 3) - 280)
      = 276 - (((bytes " See more at  #" ++ b.BillID).length + 23 : Nat) : Int)
          - ((clause L actions).length : Int)
    ∧ (CreateTweet L b billURL = Except.error Fault.sliceOutOfRange ↔
        (clause L actions).length + ((bytes " See more at  #" ++ b.BillID).length + 23) > 276)
    ∧ (¬ ((clause L actions).length + ((bytes " See more at  #" ++ b.BillID).length + 23)
          > 276) → ∃ s, CreateTweet L b billURL = Except.ok s) := by
  refine ⟨?_, ?_, ?_⟩
  · simp only [List.length_append, len_dot]
    push_cast
    omega
  · constructor
    · intro hfail
      by_contra hle
      obtain ⟨s, hs⟩ := CreateTweet_returns L b billURL Ls Y N actions hcanon hact
        (by simp only [baseOverhead]; omega)
      rw [hs] at hfail
      cases hfail
    · intro hover
      exact CreateTweet_fails L b billURL Ls Y N actions hcanon hact
        (by simp only [baseOverhead]; omega)
  · intro hle
    exact CreateTweet_returns L b billURL Ls Y N actions hcanon hact
      (by simp only [baseOverhead]; omega)

theorem C18_slice_failure_decided_by_clause_witness :
    CreateTweet (exampleLib [{ jointIntroduction with
        Actor := jointIntroduction.Actor ++ bytes ", in session" }]) testBill []
      = Except.error Fault.sliceOutOfRange :=
  (C18_slice_failure_decided_by_clause
    (exampleLib [{ jointIntroduction with
        Actor := jointIntroduction.Actor ++ bytes ", in session" }]) testBill []
    (bytes "O") (bytes "2010") (bytes "11")
    [{ jointIntroduction with Actor := jointIntroduction.Actor ++ bytes ", in session" }]
    testBill_canonical rfl).2.1.mpr (by decide)

/-! ## Round trip and idempotence of `ParseBillID` -/

theorem rewriteFirstOR_no_O : ∀ x : List Nat, (∀ c ∈ x, c ≠ 0x4F) → rewriteFirstOR x = x := by
  intro x
  induction x with
  | nil => intro _; rfl
  | cons c cs ih =>
    intro h
    cases cs with
    | nil => rfl
    | cons d rest =>
      have hc : c ≠ 0x4F := h c (by simp)
      rw [rewriteFirstOR, if_neg (fun hh => hc hh.1), ih (fun e he => h e (by simp [he]))]

theorem rewriteFirstOR_neg {c d : Nat} (rest : List Nat) (h : ¬ (c = 0x4F ∧ d = 0x52)) :
    rewriteFirstOR (c :: d :: rest) = c :: rewriteFirstOR (d :: rest) := by
  rw [rewriteFirstOR, if_neg h]

theorem rewriteFirstOR_pos {c d : Nat} (rest : List Nat) (h : c = 0x4F ∧ d = 0x52) :
    rewriteFirstOR (c :: d :: rest) = 0x4F :: 0x72 :: rest := by
  rw [rewriteFirstOR, if_pos h]

theorem rewriteFirstOR_append_digits (D : List Nat) (hD : ∀ c ∈ D, isDigit c = true) :
    ∀ U : List Nat, rewriteFirstOR (U ++ D) = rewriteFirstOR U ++ D := by
  have hDO : ∀ c ∈ D, c ≠ 0x4F := fun c hc => by
    have := hD c hc
    simp [isDigit] at this
    omega
  intro U
  induction U with
  | nil => simpa [rewriteFirstOR] using rewriteFirstOR_no_O D hDO
  | cons c cs ih =>
    cases cs with
    | nil =>
      cases D with
      | nil => simp
      | cons d D' =>
        have hd : d ≠ 0x52 := by
          have := hD d (by simp)
          simp [isDigit] at this
          omega
        have hrest := rewriteFirstOR_no_O (d :: D') hDO
        show rewriteFirstOR (c :: d :: D') = rewriteFirstOR [c] ++ d :: D'
        rw [rewriteFirstOR_neg D' (fun hh => hd hh.2), hrest]
        rfl
    | cons d rest =>
      by_cases h : c = 0x4F ∧ d = 0x52
      · show rewriteFirstOR (c :: d :: (rest ++ D)) = rewriteFirstOR (c :: d :: rest) ++ D
        rw [rewriteFirstOR_pos _ h, rewriteFirstOR_pos _ h]
        rfl
      · show rewriteFirstOR (c :: d :: (rest ++ D)) = rewriteFirstOR (c :: d :: rest) ++ D
        rw [rewriteFirstOR_neg _ h, rewriteFirstOR_neg _ h]
        have := ih
        simp only [List.cons_append] at this
        rw [this]
        rfl

theorem rewriteFirstOR_length : ∀ x : List Nat, (rewriteFirstOR x).length = x.length := by
  intro x
  induction x with
  | nil => rfl
  | cons c cs ih =>
    cases cs with
    | nil => rfl
    | cons d rest =>
      by_cases h : c = 0x4F ∧ d = 0x52
      · rw [rewriteFirstOR, if_pos h]; simp
      · rw [rewriteFirstOR, if_neg h]; simp only [List.length_cons, ih]

/-- The identifier of a mention is the rewritten letters, the year and the
sequence digits, and these form a mention again with any separators. -/
theorem mention_rewritten {Ls S1 Y S2 N : List Nat} (hm : IsMention Ls S1 Y S2 N)
    (T1 T2 : List Nat) (hT1 : ∀ c ∈ T1, isSpacer c = true) (hT2 : ∀ c ∈ T2, isSpacer c = true) :
    Replace1 (bytes "OR") (bytes "Or") (Ls.map asciiUpper ++ Y ++ N)
        = rewriteFirstOR (Ls.map asciiUpper) ++ Y ++ N
    ∧ IsMention (rewriteFirstOR (Ls.map asciiUpper)) T1 Y T2 N
    ∧ (rewriteFirstOR (Ls.map asciiUpper)).map asciiUpper = Ls.map asciiUpper := by
  have hup : ∀ c ∈ Ls.map asciiUpper, isUpper c = true := by
    intro c hc
    obtain ⟨a, ha, rfl⟩ := List.mem_map.mp hc
    exact upper_of_letter (hm.letters a ha)
  refine ⟨?_, ?_, ?_⟩
  · rw [Replace1_OR, List.append_assoc, rewriteFirstOR_append_digits (Y ++ N) (by
      intro c hc
      rcases List.mem_append.mp hc with h | h
      · exact hm.year c h
      · exact hm.seq c h), List.append_assoc]
  · refine ⟨?_, ?_, ?_, hT1, hm.year, hm.yearLen, hT2, hm.seq, hm.seqMin, hm.seqMax⟩
    · intro c hc
      rcases rewriteFirstOR_bytes _ c hc with h | h
      · have := hup c h
        simp [isUpper] at this
        simp [isLetter]
        omega
      · subst h; decide
    · rw [rewriteFirstOR_length]; simpa using hm.lettersMin
    · rw [rewriteFirstOR_length]; simpa using hm.lettersMax
  · exact map_upper_rewriteFirstOR _ (fun c hc => (upper_facts (hup c hc)).2.2.1)

/-- C20: `ParseBillID` is idempotent. -/
theorem C20_ParseBillID_idempotent (L : Lib) (t : List Nat) :
    ParseBillID L (ParseBillID L t) = ParseBillID L t := by
  rcases ParseBillID_shape L t with h | ⟨Ls, S1, Y, S2, N, hm, h⟩
  · rw [h]; rfl
  · obtain ⟨hform, hm', hmap⟩ := mention_rewritten hm [] [] (by simp) (by simp)
    rw [h, hform]
    have hfind := billReFind_complete hm'
    simp only [List.append_nil, List.nil_append] at hfind
    have hparse := ParseBillID_of_match L (rewriteFirstOR (Ls.map asciiUpper) ++ Y ++ N) []
      hm' (Or.inl rfl) (by simpa using hfind)
    rw [hparse, hmap, hform]

/-- C19: a non-empty result of `ParseBillID`, taken as BillID, has a display
form (the pattern of `GetCleanBillID` matches), and parsing the display form
gives the identifier back. -/
theorem C19_display_form_round_trip (L : Lib) (b : Bill) (t : List Nat)
    (hne : ParseBillID L t ≠ []) :
    ∃ cid, GetCleanBillID { b with BillID := ParseBillID L t } = Except.ok cid ∧
      ParseBillID L cid = ParseBillID L t := by
  rcases ParseBillID_shape L t with h | ⟨Ls, S1, Y, S2, N, hm, h⟩
  · exact absurd h hne
  · have hdash : ∀ c ∈ bytes "-", isSpacer c = true := by decide
    obtain ⟨hform, hm', hmap⟩ := mention_rewritten hm [] (bytes "-") (by simp) hdash
    have hNne : N ≠ [] := by
      intro h0; have := hm.seqMin; simp [h0] at this
    have hLne : rewriteFirstOR (Ls.map asciiUpper) ≠ [] := by
      intro h0; have := hm'.lettersMin; simp [h0] at this
    have hcanon : Canonical ({ b with BillID := ParseBillID L t } : Bill).BillID
        (rewriteFirstOR (Ls.map asciiUpper)) Y N :=
      ⟨by rw [h, hform], hm'.letters, hLne, hm.year, hm.yearLen, hm.seq, hNne⟩
    refine ⟨_, GetCleanBillID_canonical _ hcanon, ?_⟩
    have hfind := billReFind_complete hm'
    simp only [List.append_nil, List.nil_append] at hfind
    have hparse := ParseBillID_of_match L
      (rewriteFirstOR (Ls.map asciiUpper) ++ Y ++ bytes "-" ++ N) [] hm' (Or.inl rfl)
      (by simpa using hfind)
    rw [hparse, hmap, h]

theorem C19_display_form_round_trip_witness :
    ∃ cid, GetCleanBillID
        { testBill with BillID := ParseBillID (exampleLib []) (bytes "see or 2015 123456") }
        = Except.ok cid ∧
      ParseBillID (exampleLib []) cid = ParseBillID (exampleLib []) (bytes "see or 2015 123456") :=
  C19_display_form_round_trip (exampleLib []) testBill (bytes "see or 2015 123456") (by decide)

/-! ## Where a match of `billRe` lies in the text -/

theorem billReAt_prefix {atStart : Bool} {s m : List Nat} (h : billReAt atStart s = some m) :
    ∃ post, s = m ++ post := by
  unfold billReAt at h
  split at h
  · rename_i rest hb
    have hb' : billReBody s = some rest := by
      cases atStart <;> simp_all
    obtain ⟨Ls, S1, Y, S2, N, _, hs⟩ := billReBody_sound hb'
    simp only [Option.some.injEq] at h
    refine ⟨rest, ?_⟩
    rw [← h]
    conv_rhs => rw [hs, consumed_append]
    exact hs
  · split at h
    · rename_i cs _
      cases hb : billReBody cs with
      | none => simp [hb] at h
      | some rest =>
        obtain ⟨Ls, S1, Y, S2, N, _, hs⟩ := billReBody_sound hb
        rw [hb] at h
        simp only [Option.map_some', Option.some.injEq] at h
        refine ⟨rest, ?_⟩
        rw [← h, hs]
        have : (32 :: (Ls ++ S1 ++ Y ++ S2 ++ N ++ rest))
            = ([0x20] ++ (Ls ++ S1 ++ Y ++ S2 ++ N)) ++ rest := by simp
        rw [this, consumed_append]
    · simp at h

theorem billReFind_infix : ∀ (s : List Nat) (atStart : Bool) (m : List Nat),
    billReFind atStart s = some m → ∃ pre post, s = pre ++ m ++ post := by
  intro s
  induction s with
  | nil =>
    intro atStart m h
    obtain ⟨post, hp⟩ := billReAt_prefix (s := []) (by simpa [billReFind] using h)
    exact ⟨[], post, by simpa using hp⟩
  | cons c cs ih =>
    intro atStart m h
    rw [billReFind] at h
    split at h
    · rename_i m' hm
      simp only [Option.some.injEq] at h
      subst h
      obtain ⟨post, hp⟩ := billReAt_prefix hm
      exact ⟨[], post, by simpa using hp⟩
    · obtain ⟨pre, post, hp⟩ := ih false m h
      exact ⟨c :: pre, post, by simp [hp]⟩

theorem countP_digits {x : List Nat} (h : ∀ c ∈ x, isDigit c = true) :
    x.countP isDigit = x.length :=
  List.countP_eq_length.mpr h

/-- C11: a non-empty result of `ParseBillID` needs a letter and five digits
in the text; a text with a year and no sequence number, and a text with a
digit where the letters should be, both give the empty string. -/
theorem C11_no_match_is_empty (L : Lib) (t : List Nat) (hne : ParseBillID L t ≠ []) :
    (∃ c ∈ t, isLetter c = true) ∧ 5 ≤ t.countP isDigit
    ∧ ParseBillID L (bytes "o 2015") = []
    ∧ ParseBillID L (bytes "@chibillbot 02019-5305") = [] := by
  have key : ∃ pre sp Ls S1 Y S2 N post, IsMention Ls S1 Y S2 N ∧
      t = pre ++ (sp ++ (Ls ++ S1 ++ Y ++ S2 ++ N)) ++ post := by
    cases hfind : billReFind true t with
    | none => exact absurd (ParseBillID_no_match L t hfind) hne
    | some m =>
      obtain ⟨sp, Ls, S1, Y, S2, N, hm, _, rfl⟩ := billReFind_sound t true m hfind
      obtain ⟨pre, post, ht⟩ := billReFind_infix t true _ hfind
      exact ⟨pre, sp, Ls, S1, Y, S2, N, post, hm, ht⟩
  obtain ⟨pre, sp, Ls, S1, Y, S2, N, post, hm, ht⟩ := key
  refine ⟨?_, ?_, ParseBillID_no_match L _ (by decide), ParseBillID_no_match L _ (by decide)⟩
  · obtain ⟨l0, Ls', hLs⟩ : ∃ l0 Ls', Ls = l0 :: Ls' := by
      cases hL : Ls with
      | nil => have := hm.lettersMin; simp [hL] at this
      | cons l0 Ls' => exact ⟨l0, Ls', rfl⟩
    refine ⟨l0, ?_, hm.letters l0 (by simp [hLs])⟩
    rw [ht, hLs]
    simp
  · rw [ht]
    simp only [List.countP_append, countP_digits hm.year, countP_digits hm.seq, hm.yearLen]
    have := hm.seqMin
    omega

theorem C11_no_match_is_empty_witness :
    (∃ c ∈ bytes "@chicagoledger O2018-7001 test", isLetter c = true)
    ∧ 5 ≤ (bytes "@chicagoledger O2018-7001 test").countP isDigit :=
  ⟨(C11_no_match_is_empty (exampleLib []) (bytes "@chicagoledger O2018-7001 test")
      (by decide)).1,
   (C11_no_match_is_empty (exampleLib []) (bytes "@chicagoledger O2018-7001 test")
      (by decide)).2.1⟩

theorem takeWhile_first_digit (A : List Nat) (y : Nat) (B : List Nat)
    (hA : ∀ c ∈ A, isDigit c = false) (hy : isDigit y = true) :
    (A ++ y :: B).takeWhile (fun c => !isDigit c) = A := by
  induction A with
  | nil => simp [List.takeWhile, hy]
  | cons a A ih =>
    have ha : isDigit a = false := hA a (by simp)
    have := ih (fun c hc => hA c (by simp [hc]))
    simp [List.takeWhile_cons, ha, this]

theorem letter_not_digit {c : Nat} (h : isLetter c = true) : isDigit c = false := by
  cases hd : isDigit c with
  | false => rfl
  | true => rw [digit_not_letter hd] at h; cases h

theorem spacer_not_digit {c : Nat} (h : isSpacer c = true) : isDigit c = false := by
  cases hd : isDigit c with
  | false => rfl
  | true => rw [(digit_ascii hd).2.2.1] at h; cases h

/-- No match of the body of `billRe` starts in a digit-free text that is
followed by a space and a mention: the bytes in front of the first digit
would have to be letters followed by separators. -/
theorem billReBody_none_before (X Ls S1 Y tail : List Nat)
    (hX : ∀ c ∈ X, isDigit c = false)
    (hLs : ∀ c ∈ Ls, isLetter c = true) (hLne : Ls ≠ [])
    (hS1 : ∀ c ∈ S1, isSpacer c = true)
    (hY : ∀ c ∈ Y, isDigit c = true) (hYne : Y ≠ []) :
    billReBody (X ++ 0x20 :: (Ls ++ (S1 ++ (Y ++ tail)))) = none := by
  cases hb : billReBody (X ++ 0x20 :: (Ls ++ (S1 ++ (Y ++ tail)))) with
  | none => rfl
  | some rest =>
    exfalso
    obtain ⟨Ls', S1', Y', S2', N', hm, hs⟩ := billReBody_sound hb
    obtain ⟨y, Y1, hYc⟩ : ∃ y Y1, Y = y :: Y1 := by
      cases hY0 : Y with
      | nil => exact absurd hY0 hYne
      | cons y Y1 => exact ⟨y, Y1, rfl⟩
    obtain ⟨y', Y1', hYc'⟩ : ∃ y' Y1', Y' = y' :: Y1' := by
      cases hY0 : Y' with
      | nil => have := hm.yearLen; simp [hY0] at this
      | cons y' Y1' => exact ⟨y', Y1', rfl⟩
    obtain ⟨l, Ls1, hLc⟩ : ∃ l Ls1, Ls = l :: Ls1 := by
      cases hL0 : Ls with
      | nil => exact absurd hL0 hLne
      | cons l Ls1 => exact ⟨l, Ls1, rfl⟩
    have h1 : X ++ 0x20 :: (Ls ++ (S1 ++ (Y ++ tail)))
        = (X ++ 0x20 :: (Ls ++ S1)) ++ y :: (Y1 ++ tail) := by
      simp [hYc]
    have h2 : Ls' ++ S1' ++ Y' ++ S2' ++ N' ++ rest
        = (Ls' ++ S1') ++ y' :: (Y1' ++ S2' ++ N' ++ rest) := by
      simp [hYc']
    have hA : ∀ c ∈ X ++ 0x20 :: (Ls ++ S1), isDigit c = false := by
      intro c hc
      simp only [List.mem_append, List.mem_cons] at hc
      rcases hc with h | h | h | h
      · exact hX c h
      · subst h; decide
      · exact letter_not_digit (hLs c h)
      · exact spacer_not_digit (hS1 c h)
    have hA' : ∀ c ∈ Ls' ++ S1', isDigit c = false := by
      intro c hc
      rcases List.mem_append.mp hc with h | h
      · exact letter_not_digit (hm.letters c h)
      · exact spacer_not_digit (hm.sep1 c h)
    have ht1 := takeWhile_first_digit _ y (Y1 ++ tail) hA (hY y (by simp [hYc]))
    have ht2 := takeWhile_first_digit _ y' (Y1' ++ S2' ++ N' ++ rest) hA'
      (hm.year y' (by simp [hYc']))
    rw [← h1, hs, h2, ht2] at ht1
    -- letters followed by separators cannot hold a space followed by a letter
    have heq : Ls' ++ S1' = (X ++ [0x20]) ++ (l :: (Ls1 ++ S1)) := by
      rw [ht1, hLc]; simp
    rcases List.append_eq_append_iff.mp heq with ⟨a', ha1, ha2⟩ | ⟨c', hc1, hc2⟩
    · -- the letter `l` lies in the separators
      have hl : l ∈ S1' := by rw [ha2]; simp
      have hsp := hm.sep1 l hl
      rw [letter_not_spacer (hLs l (by simp [hLc]))] at hsp
      cases hsp
    · -- the space lies in the letters
      have hmem : (0x20 : Nat) ∈ Ls' := by rw [hc1]; simp
      have := hm.letters _ hmem
      revert this
      decide

/-! ## Mentions inside a longer text -/

theorem billReBody_complete_rest {Ls S1 Y S2 N : List Nat} (hm : IsMention Ls S1 Y S2 N)
    (q : List Nat) (hq : ∀ c, q.head? = some c → isDigit c = false) :
    billReBody (Ls ++ (S1 ++ (Y ++ (S2 ++ (N ++ q))))) = some q := by
  have hYne : Y ≠ [] := by
    intro h; have := hm.yearLen; simp [h] at this
  have hNne : N ≠ [] := by
    intro h; have := hm.seqMin; simp [h] at this
  have h4 : repeatClass isDigit (fun rest => some rest) 1 5 (N ++ q) = some q :=
    repeatClass_greedy isDigit (fun rest => some rest) q q rfl N 1 5 hm.seq
      (Or.inr hq) hm.seqMin hm.seqMax
  have h3 : starClass isSpacer (repeatClass isDigit (fun rest => some rest) 1 5)
      (S2 ++ (N ++ q)) = some q := by
    unfold starClass
    refine repeatClass_greedy isSpacer _ q (N ++ q) h4 S2 0 _ hm.sep2 (Or.inr ?_)
      (Nat.zero_le _) (by simp)
    intro c hc
    exact head_digit_not_spacer hm.seq c hc hNne
  have h2 : repeatClass isDigit
      (starClass isSpacer (repeatClass isDigit (fun rest => some rest) 1 5)) 4 4
      (Y ++ (S2 ++ (N ++ q))) = some q :=
    repeatClass_greedy isDigit _ q (S2 ++ (N ++ q)) h3 Y 4 4 hm.year (Or.inl hm.yearLen)
      (by rw [hm.yearLen]) (by rw [hm.yearLen])
  have h1 : starClass isSpacer (repeatClass isDigit
      (starClass isSpacer (repeatClass isDigit (fun rest => some rest) 1 5)) 4 4)
      (S1 ++ (Y ++ (S2 ++ (N ++ q)))) = some q := by
    unfold starClass
    refine repeatClass_greedy isSpacer _ q (Y ++ (S2 ++ (N ++ q))) h2 S1 0 _ hm.sep1
      (Or.inr ?_) (Nat.zero_le _) (by simp)
    intro c hc
    exact head_digit_not_spacer hm.year c hc hYne
  unfold billReBody
  refine repeatClass_greedy isLetter _ q (S1 ++ (Y ++ (S2 ++ (N ++ q)))) h1 Ls 1 4
    hm.letters (Or.inr ?_) hm.lettersMin hm.lettersMax
  intro c hc
  cases S1 with
  | nil =>
    cases Y with
    | nil => exact absurd rfl hYne
    | cons y Y' =>
      simp at hc
      subst hc
      exact digit_not_letter (hm.year _ (by simp))
  | cons s S1' =>
    simp at hc
    subst hc
    have hs := hm.sep1 s (by simp)
    cases hl : isLetter s with
    | false => rfl
    | true => rw [letter_not_spacer hl] at hs; cases hs

/-- The leftmost match of `billRe` in a digit-free text followed by a space,
a mention and a rest that does not go on with a digit is the space and the
mention. -/
theorem billReFind_embedded {Ls S1 Y S2 N : List Nat} (hm : IsMention Ls S1 Y S2 N)
    (q : List Nat) (hq : ∀ c, q.head? = some c → isDigit c = false) :
    ∀ (p : List Nat) (atStart : Bool), (∀ c ∈ p, isDigit c = false) →
      billReFind atStart (p ++ 0x20 :: (Ls ++ (S1 ++ (Y ++ (S2 ++ (N ++ q))))))
        = some ([0x20] ++ (Ls ++ S1 ++ Y ++ S2 ++ N)) := by
  have hLne : Ls ≠ [] := by
    intro h; have := hm.lettersMin; simp [h] at this
  have hYne : Y ≠ [] := by
    intro h; have := hm.yearLen; simp [h] at this
  have hnone : ∀ X : List Nat, (∀ c ∈ X, isDigit c = false) →
      billReBody (X ++ 0x20 :: (Ls ++ (S1 ++ (Y ++ (S2 ++ (N ++ q)))))) = none :=
    fun X hX => billReBody_none_before X Ls S1 Y _ hX hm.letters hLne hm.sep1 hm.year hYne
  have hbody := billReBody_complete_rest hm q hq
  intro p
  induction p with
  | nil =>
    intro atStart _
    have h0 := hnone [] (by simp)
    simp only [List.nil_append] at h0 ⊢
    have hat : billReAt atStart (0x20 :: (Ls ++ (S1 ++ (Y ++ (S2 ++ (N ++ q))))))
        = some ([0x20] ++ (Ls ++ S1 ++ Y ++ S2 ++ N)) := by
      have hcons : consumed (0x20 :: (Ls ++ (S1 ++ (Y ++ (S2 ++ (N ++ q)))))) q
          = [0x20] ++ (Ls ++ S1 ++ Y ++ S2 ++ N) := by
        have : (0x20 :: (Ls ++ (S1 ++ (Y ++ (S2 ++ (N ++ q))))))
            = ([0x20] ++ (Ls ++ S1 ++ Y ++ S2 ++ N)) ++ q := by simp
        rw [this, consumed_append]
      unfold billReAt
      rw [h0]
      cases atStart <;> simp [hbody, hcons]
    rw [billReFind, hat]
  | cons c p ih =>
    intro atStart hp
    have hp' : ∀ d ∈ p, isDigit d = false := fun d hd => hp d (by simp [hd])
    have h1 := hnone (c :: p) hp
    have h2 := hnone p hp'
    have hat : billReAt atStart (c :: p ++ 0x20 :: (Ls ++ (S1 ++ (Y ++ (S2 ++ (N ++ q))))))
        = none := by
      unfold billReAt
      rw [h1]
      by_cases hc : c = 0x20
      · subst hc
        cases atStart <;> simp [h2]
      · cases atStart <;> simp [hc]
    simp only [List.cons_append] at hat ⊢
    rw [billReFind, hat]
    exact ih false hp'

/-- C12: a well-formed mention is found after any digit-free text and a
space, and before any rest that is empty or does not start with a digit:
the result is that of the mention alone. -/
theorem C12_embedded_mention_found (L : Lib) (p Ls s1 Y s2 N q : List Nat)
    (hp : ∀ c ∈ p, isDigit c = false)
    (hLs : ∀ c ∈ Ls, isLetter c = true) (hLmin : 1 ≤ Ls.length) (hLmax : Ls.length ≤ 4)
    (hY : ∀ c ∈ Y, isDigit c = true) (hYlen : Y.length = 4)
    (hN : ∀ c ∈ N, isDigit c = true) (hNmin : 1 ≤ N.length) (hNmax : N.length ≤ 5)
    (hs1 : ∀ c ∈ s1, c = 0x20 ∨ c = 0x2D) (hs2 : ∀ c ∈ s2, c = 0x20 ∨ c = 0x2D)
    (hq : q = [] ∨ ∃ c q', q = c :: q' ∧ isDigit c = false) :
    ParseBillID L (p ++ bytes " " ++ (Ls ++ s1 ++ Y ++ s2 ++ N) ++ q)
      = ParseBillID L (Ls ++ s1 ++ Y ++ s2 ++ N) := by
  have hsep : ∀ s : List Nat, (∀ c ∈ s, c = 0x20 ∨ c = 0x2D) → ∀ c ∈ s, isSpacer c = true := by
    intro s hs c hc
    rcases hs c hc with h | h <;> subst h <;> decide
  have hm : IsMention Ls s1 Y s2 N :=
    ⟨hLs, hLmin, hLmax, hsep s1 hs1, hY, hYlen, hsep s2 hs2, hN, hNmin, hNmax⟩
  have hq' : ∀ c, q.head? = some c → isDigit c = false := by
    intro c hc
    rcases hq with h | ⟨d, q', h, hd⟩
    · subst h; simp at hc
    · subst h; simp at hc; subst hc; exact hd
  have hsp : bytes " " = [0x20] := by decide
  have htext : p ++ bytes " " ++ (Ls ++ s1 ++ Y ++ s2 ++ N) ++ q
      = p ++ 0x20 :: (Ls ++ (s1 ++ (Y ++ (s2 ++ (N ++ q))))) := by
    rw [hsp]; simp
  have hfind := billReFind_embedded hm q hq' p true hp
  rw [htext, ParseBillID_of_match L _ [0x20] hm (Or.inr rfl) hfind,
    ParseBillID_of_match L _ [] hm (Or.inl rfl) (billReFind_complete hm)]

theorem C12_embedded_mention_found_witness :
    ParseBillID (exampleLib []) (bytes "@chicagoledger O2018-7001 test") = bytes "O20187001"
    ∧ ParseBillID (exampleLib []) (bytes "@chibillbot test O2019-5305") = bytes "O20195305" :=
  ⟨(C12_embedded_mention_found (exampleLib []) (bytes "@chicagoledger") (bytes "O") []
      (bytes "2018") (bytes "-") (bytes "7001") (bytes " test") (by decide) (by decide)
      (by decide) (by decide) (by decide) (by decide) (by decide) (by decide) (by decide)
      (by decide) (by decide) (Or.inr ⟨0x20, bytes "test", by decide, by decide⟩)).trans
      (by decide),
   (C12_embedded_mention_found (exampleLib []) (bytes "@chibillbot test") (bytes "O") []
      (bytes "2019") (bytes "-") (bytes "5305") [] (by decide) (by decide)
      (by decide) (by decide) (by decide) (by decide) (by decide) (by decide) (by decide)
      (by decide) (by decide) (Or.inl rfl)).trans (by decide)⟩

/-! ## Claims on `SetNextRun` -/

/-- What `SetNextRun` clamps: the hour of the result shown in the zone, plus
the zone offset in hours, lies between 9 and 17. -/
theorem SetNextRun_clamped (zone : Int → Int) (timeNow : Int) (randHours randMinutes : Nat)
    (b : Bill) (hr : randHours < 4) (hm : randMinutes < 60)
    (hoff : zone (timeNow + Hour * 12) = -18000 ∨ zone (timeNow + Hour * 12) = -14400) :
    ∃ n, (SetNextRun zone timeNow randHours randMinutes b).NextRun = some n ∧
      9 ≤ hourOfDay (zone (timeNow + Hour * 12)) n
            + (zone (timeNow + Hour * 12)).tdiv 3600 ∧
      hourOfDay (zone (timeNow + Hour * 12)) n
            + (zone (timeNow + Hour * 12)).tdiv 3600 ≤ 17 := by
  refine ⟨_, rfl, ?_⟩
  have h5 : Int.tdiv (-18000) 3600 = -5 := by decide
  have h4 : Int.tdiv (-14400) 3600 = -4 := by decide
  rcases hoff with h | h
  · rw [h, h5]
    simp only [hourOfDay, Hour, Minute, Second]
    split_ifs <;> omega
  · rw [h, h4]
    simp only [hourOfDay, Hour, Minute, Second]
    split_ifs <;> omega

/-- C16: for every call instant and every jitter draw, with the Eastern
offset (-5 or -4 hours) the same at the shifted instant and at the result,
the stored `NextRun` has an Eastern hour-of-day from 9 to 22. -/
theorem C16_next_run_between_9AM_and_10PM (zone : Int → Int) (timeNow : Int)
    (randHours randMinutes : Nat) (b : Bill)
    (hr : randHours < 4) (hm : randMinutes < 60)
    (hoff : zone (timeNow + Hour * 12) = -18000 ∨ zone (timeNow + Hour * 12) = -14400) :
    ∃ n, (SetNextRun zone timeNow randHours randMinutes b).NextRun = some n ∧
      (zone n = zone (timeNow + Hour * 12) →
        9 ≤ hourOfDay (zone n) n ∧ hourOfDay (zone n) n ≤ 22) := by
  obtain ⟨n, hn, h1, h2⟩ := SetNextRun_clamped zone timeNow randHours randMinutes b hr hm hoff
  refine ⟨n, hn, ?_⟩
  intro hsame
  rw [hsame]
  have h5 : Int.tdiv (-18000) 3600 = -5 := by decide
  have h4 : Int.tdiv (-14400) 3600 = -4 := by decide
  rcases hoff with h | h
  · rw [h, h5] at h1 h2
    rw [h]
    omega
  · rw [h, h4] at h1 h2
    rw [h]
    omega

theorem C16_next_run_between_9AM_and_10PM_witness :
    ∃ n, (SetNextRun easternStandard 1768439100000000000 3 59 testBill).NextRun = some n ∧
      (easternStandard n = easternStandard (1768439100000000000 + Hour * 12) →
        9 ≤ hourOfDay (easternStandard n) n ∧ hourOfDay (easternStandard n) n ≤ 22) :=
  C16_next_run_between_9AM_and_10PM easternStandard 1768439100000000000 3 59 testBill
    (by decide) (by decide) (Or.inl rfl)

/-- C15 (counterexample): called on 15 January 2026 at 13:00 UTC (08:00
Eastern Standard Time), `SetNextRun` finds the shifted hour 20, takes
`localHour` to be 20 - 5 = 15, adjusts nothing and stores the next day's
20:00 Eastern, an hour-of-day outside 9..17. -/
theorem C15_evening_run_outside_9_to_17 :
    (SetNextRun easternStandard 1768482000000000000 0 0 testBill).NextRun
      = some 1768611600000000000
    ∧ hourOfDay (easternStandard 1768611600000000000) 1768611600000000000 = 20
    ∧ ¬ (9 ≤ hourOfDay (easternStandard 1768611600000000000) 1768611600000000000
          ∧ hourOfDay (easternStandard 1768611600000000000) 1768611600000000000 ≤ 17) := by
  refine ⟨by decide, by decide, by decide⟩

/-- C15 (amended): for every call instant and every jitter draw, with the
Eastern offset (-5 or -4 hours) the same at the shifted instant and at the
result, the Eastern hour-of-day of the stored `NextRun` plus the offset in
hours lies between 9 and 17: the hour-of-day itself is from 14 to 22 in
standard time and from 13 to 21 in daylight time. -/
theorem C15_offset_hour_between_9_and_17 (zone : Int → Int) (timeNow : Int)
    (randHours randMinutes : Nat) (b : Bill)
    (hr : randHours < 4) (hm : randMinutes < 60)
    (hoff : zone (timeNow + Hour * 12) = -18000 ∨ zone (timeNow + Hour * 12) = -14400) :
    ∃ n, (SetNextRun zone timeNow randHours randMinutes b).NextRun = some n ∧
      (zone n = zone (timeNow + Hour * 12) →
        (9 ≤ hourOfDay (zone n) n + (zone n).tdiv 3600
          ∧ hourOfDay (zone n) n + (zone n).tdiv 3600 ≤ 17)
        ∧ (zone n = -18000 → 14 ≤ hourOfDay (zone n) n ∧ hourOfDay (zone n) n ≤ 22)
        ∧ (zone n = -14400 → 13 ≤ hourOfDay (zone n) n ∧ hourOfDay (zone n) n ≤ 21)) := by
  obtain ⟨n, hn, h1, h2⟩ := SetNextRun_clamped zone timeNow randHours randMinutes b hr hm hoff
  refine ⟨n, hn, ?_⟩
  intro hsame
  rw [← hsame] at h1 h2
  have h5 : Int.tdiv (-18000) 3600 = -5 := by decide
  have h4 : Int.tdiv (-14400) 3600 = -4 := by decide
  refine ⟨⟨h1, h2⟩, ?_, ?_⟩
  · intro h
    rw [h, h5] at h1 h2
    rw [h]
    omega
  · intro h
    rw [h, h4] at h1 h2
    rw [h]
    omega

theorem C15_offset_hour_between_9_and_17_witness :
    ∃ n, (SetNextRun easternStandard 1768482000000000000 2 30 testBill).NextRun = some n ∧
      (easternStandard n = easternStandard (1768482000000000000 + Hour * 12) →
        (9 ≤ hourOfDay (easternStandard n) n + (easternStandard n).tdiv 3600
          ∧ hourOfDay (easternStandard n) n + (easternStandard n).tdiv 3600 ≤ 17)
        ∧ (easternStandard n = -18000 →
            14 ≤ hourOfDay (easternStandard n) n ∧ hourOfDay (easternStandard n) n ≤ 22)
        ∧ (easternStandard n = -14400 →
            13 ≤ hourOfDay (easternStandard n) n ∧ hourOfDay (easternStandard n) n ≤ 21)) :=
  C15_offset_hour_between_9_and_17 easternStandard 1768482000000000000 2 30 testBill
    (by decide) (by decide) (Or.inl rfl)

/-! ## The identifier prefix under truncation -/

theorem firstInfo_range {b sz lo hi : Nat} (h : firstInfo b = some (sz, lo, hi)) :
    0xC2 ≤ b ∧ b ≤ 0xF4 ∧ 0x80 ≤ lo ∧ hi ≤ 0xBF ∧ 2 ≤ sz ∧ sz ≤ 4 := by
  unfold firstInfo at h
  split_ifs at h <;> simp at h <;> omega

theorem RuneStart_lead {b : Nat} (h1 : 0xC2 ≤ b) (h2 : b ≤ 0xF4) : RuneStart b = true := by
  have : b / 64 = 3 := by omega
  simp [RuneStart, this]

theorem RuneStart_cont {b : Nat} (h1 : 0x80 ≤ b) (h2 : b ≤ 0xBF) : RuneStart b = false := by
  have : b / 64 = 2 := by omega
  simp [RuneStart, this]

theorem RuneStart_ascii {b : Nat} (h : b < 0x80) : RuneStart b = true := by
  have : b / 64 = 0 ∨ b / 64 = 1 := by omega
  rcases this with h | h <;> simp [RuneStart, h]

/-- A rune decoded with a width of two or more: a leading byte followed by
continuation bytes; what follows them does not change the result. -/
theorem DecodeRuneInString_valid (l : List Nat) (r m : Nat)
    (h : DecodeRuneInString l = (r, m)) (hm : 2 ≤ m) :
    ∃ s0 cs tail, l = s0 :: cs ++ tail ∧ cs.length + 1 = m ∧ RuneStart s0 = true ∧
      (∀ c ∈ cs, RuneStart c = false) ∧ (∀ c ∈ s0 :: cs, 0x80 ≤ c) ∧
      ∀ y, DecodeRuneInString (s0 :: cs ++ y) = (r, m) := by
  cases l with
  | nil =>
    simp [DecodeRuneInString] at h
    omega
  | cons s0 rest =>
    rw [DecodeRuneInString] at h
    split at h
    · simp at h; omega
    · rename_i h0
      have h0' : 0x80 ≤ s0 := by omega
      split at h
      · simp at h; omega
      · rename_i sz' lo hi hf
        obtain ⟨f1, f2, f3, f4, f5, f6⟩ := firstInfo_range hf
        have hs0 := RuneStart_lead f1 f2
        split at h
        · simp at h; omega
        · rename_i hlen
          split at h
          · simp at h; omega
          · rename_i s1 r1
            split at h
            · simp at h; omega
            · rename_i h2
              have h1' : 0x80 ≤ s1 := by omega
              have hs1 := RuneStart_cont (b := s1) (by omega) (by omega)
              split at h
              · rename_i hsz2
                simp only [Prod.mk.injEq] at h
                obtain ⟨hr, hm2⟩ := h
                refine ⟨s0, [s1], r1, by simp, by simp [← hm2], hs0, by simpa using hs1,
                  by simp; omega, ?_⟩
                intro y
                show DecodeRuneInString (s0 :: s1 :: y) = _
                rw [DecodeRuneInString, if_neg h0]
                simp only [hf]
                rw [if_neg (by simp; omega)]
                rw [if_neg h2, if_pos hsz2, hr, hm2]
              · rename_i hsz2
                split at h
                · simp at h; omega
                · rename_i s2 r2
                  split at h
                  · simp at h; omega
                  · rename_i h4
                    have h2c : 0x80 ≤ s2 ∧ s2 ≤ 0xBF := by
                      simp [isCont] at h4; omega
                    have hs2 := RuneStart_cont h2c.1 h2c.2
                    split at h
                    · rename_i hsz3
                      simp only [Prod.mk.injEq] at h
                      obtain ⟨hr, hm2⟩ := h
                      refine ⟨s0, [s1, s2], r2, by simp, by simp [← hm2], hs0, ?_, ?_, ?_⟩
                      · intro c hc
                        simp at hc
                        rcases hc with rfl | rfl
                        · exact hs1
                        · exact hs2
                      · intro c hc
                        simp at hc
                        rcases hc with rfl | rfl | rfl <;> omega
                      · intro y
                        show DecodeRuneInString (s0 :: s1 :: s2 :: y) = _
                        rw [DecodeRuneInString, if_neg h0]
                        simp only [hf]
                        rw [if_neg (by simp; omega)]
                        rw [if_neg h2, if_neg hsz2]
                        rw [if_neg h4, if_pos hsz3, hr, hm2]
                    · rename_i hsz3
                      split at h
                      · simp at h; omega
                      · rename_i s3 r3
                        split at h
                        · simp at h; omega
                        · rename_i h6
                          simp only [Prod.mk.injEq] at h
                          obtain ⟨hr, hm2⟩ := h
                          have h3c : 0x80 ≤ s3 ∧ s3 ≤ 0xBF := by
                            simp [isCont] at h6; omega
                          have hs3 := RuneStart_cont h3c.1 h3c.2
                          refine ⟨s0, [s1, s2, s3], r3, by simp, by simp [← hm2], hs0, ?_, ?_, ?_⟩
                          · intro c hc
                            simp at hc
                            rcases hc with rfl | rfl | rfl
                            · exact hs1
                            · exact hs2
                            · exact hs3
                          · intro c hc
                            simp at hc
                            rcases hc with rfl | rfl | rfl | rfl <;> omega
                          · intro y
                            show DecodeRuneInString (s0 :: s1 :: s2 :: s3 :: y) = _
                            rw [DecodeRuneInString, if_neg h0]
                            simp only [hf]
                            rw [if_neg (by simp; omega)]
                            rw [if_neg h2, if_neg hsz2]
                            rw [if_neg h4, if_neg hsz3]
                            rw [if_neg h6, hr, hm2]

theorem DecodeRuneInString_single {c : Nat} (h : 0x80 ≤ c) :
    DecodeRuneInString [c] = (RuneError, 1) := by
  rw [DecodeRuneInString, if_neg (by omega)]
  cases hf : firstInfo c with
  | none => rfl
  | some t =>
    obtain ⟨sz, lo, hi⟩ := t
    obtain ⟨f1, f2, f3, f4, f5, f6⟩ := firstInfo_range hf
    simp only []
    rw [if_pos (by simp; omega)]

theorem DecodeRuneInString_size_pos (l : List Nat) (hl : l ≠ []) :
    1 ≤ (DecodeRuneInString l).2 := by
  cases l with
  | nil => exact absurd rfl hl
  | cons s0 rest =>
    rw [DecodeRuneInString]
    repeat' split
    all_goals simp

theorem scanBack_le (s : List Nat) (lim : Nat) :
    ∀ fuel start, scanBack s lim fuel start ≤ (start : Int) := by
  intro fuel
  induction fuel with
  | zero => intro start; simp [scanBack]
  | succ fuel ih =>
    intro start
    rw [scanBack]
    split
    · exact le_refl _
    · split
      · exact le_refl _
      · split
        · omega
        · have := ih (start - 1)
          omega

theorem lastRuneStart_lt (s : List Nat) (hs : s ≠ []) : lastRuneStart s < s.length := by
  have hl : 0 < s.length := List.length_pos.mpr hs
  unfold lastRuneStart
  simp only []
  by_cases h1 : s.length - 1 = 0
  · rw [if_pos h1]
    simpa using hl
  · rw [if_neg h1]
    have := scanBack_le s (s.length - 4) 4 (s.length - 2)
    split
    · exact hl
    · omega

/-- The last rune of a string that ends in a non-ASCII byte: either the
replacement rune of width one, or a complete rune of two or more bytes that
ends the string. -/
theorem DecodeLastRuneInString_cases (s : List Nat) (r m : Nat) (hs : s ≠ [])
    (hlast : 0x80 ≤ s.getD (s.length - 1) 0)
    (h : DecodeLastRuneInString s = (r, m)) :
    (r = RuneError ∧ m = 1) ∨
      (2 ≤ m ∧ ∃ R0 R, s = R0 ++ R ∧ R.length = m ∧ DecodeRuneInString R = (r, m)) := by
  have hl : 0 < s.length := List.length_pos.mpr hs
  have hst := lastRuneStart_lt s hs
  unfold DecodeLastRuneInString at h
  simp only [] at h
  rw [if_neg (by omega), if_neg (by omega)] at h
  generalize lastRuneStart s = start at h hst
  cases hdec : DecodeRuneInString (List.drop start s) with
  | mk r' sz =>
    rw [hdec] at h
    simp only [] at h
    split at h
    · left
      simp only [Prod.mk.injEq] at h
      exact ⟨h.1.symm, h.2.symm⟩
    · rename_i hsum
      simp only [ne_eq, not_not] at hsum
      simp only [Prod.mk.injEq] at h
      obtain ⟨rfl, rfl⟩ := h
      by_cases h2 : 2 ≤ sz
      · right
        refine ⟨h2, s.take start, s.drop start, (List.take_append_drop _ _).symm, ?_, hdec⟩
        simp only [List.length_drop]
        omega
      · left
        have hne : List.drop start s ≠ [] := by
          intro h0
          have := congrArg List.length h0
          simp only [List.length_drop, List.length_nil] at this
          omega
        have hpos := DecodeRuneInString_size_pos _ hne
        rw [hdec] at hpos
        simp only [] at hpos
        have hsz : sz = 1 := by omega
        have hstart : start = s.length - 1 := by omega
        have hdrop : List.drop start s = [s.getD (s.length - 1) 0] := by
          rw [hstart]
          have hlen : (List.drop (s.length - 1) s).length = 1 := by
            simp only [List.length_drop]; omega
          match hd : List.drop (s.length - 1) s, hlen with
          | [x], _ =>
            have : s.getD (s.length - 1) 0 = x := by
              have h1 : (List.drop (s.length - 1) s).getD 0 0 = x := by rw [hd]; rfl
              simpa [List.getD_eq_getElem?_getD, List.getElem?_drop] using h1
            rw [this]
        rw [hdrop, DecodeRuneInString_single hlast] at hdec
        simp only [Prod.mk.injEq] at hdec
        exact ⟨hdec.1.symm, hsz⟩

theorem DecodeRuneInString_size_le (l : List Nat) : (DecodeRuneInString l).2 ≤ 4 := by
  cases l with
  | nil => simp [DecodeRuneInString]
  | cons s0 rest =>
    rw [DecodeRuneInString]
    repeat' split
    all_goals simp

theorem getD_append_add (p t : List Nat) (k : Nat) :
    (p ++ t).getD (p.length + k) 0 = t.getD k 0 := by
  simp [List.getD_eq_getElem?_getD, List.getElem?_append_right]

theorem scanBack_found (s : List Nat) (lim fuel i : Nat)
    (h : RuneStart (s.getD i 0) = true) (hl : lim ≤ i) :
    scanBack s lim (fuel + 1) i = (i : Int) := by
  rw [scanBack, if_neg (by omega), if_pos h]

theorem scanBack_skip (s : List Nat) (lim fuel i : Nat)
    (h : RuneStart (s.getD (i + 1) 0) = false) (hl : lim ≤ i + 1) :
    scanBack s lim (fuel + 1) (i + 1) = scanBack s lim fuel i := by
  rw [scanBack, if_neg (by omega), if_neg (by rw [h]; exact Bool.false_ne_true),
    if_neg (by omega)]
  simp

theorem lastRuneStart_complete (R0 : List Nat) (s0 : Nat) (cs : List Nat)
    (h1 : 1 ≤ cs.length) (h3 : cs.length ≤ 3) (hs0 : RuneStart s0 = true)
    (hcs : ∀ c ∈ cs, RuneStart c = false) :
    lastRuneStart (R0 ++ s0 :: cs) = R0.length := by
  have hg0 : RuneStart ((R0 ++ s0 :: cs).getD R0.length 0) = true := by
    have := getD_append_add R0 (s0 :: cs) 0
    rw [Nat.add_zero] at this
    rw [this]; exact hs0
  have hne : ¬ ((R0 ++ s0 :: cs).length - 1 = 0) := by
    simp only [List.length_append, List.length_cons]; omega
  have key : scanBack (R0 ++ s0 :: cs) ((R0 ++ s0 :: cs).length - 4) 4
      ((R0 ++ s0 :: cs).length - 2) = (R0.length : Int) := by
    match cs, h1, h3, hcs, hg0 with
    | [c1], _, _, hcs, hg0 =>
      have e1 : (R0 ++ [s0, c1]).length - 2 = R0.length := by simp
      rw [e1]
      exact scanBack_found _ _ 3 R0.length hg0
        (by simp only [List.length_append, List.length_cons, List.length_nil]; omega)
    | [c1, c2], _, _, hcs, hg0 =>
      have e1 : (R0 ++ [s0, c1, c2]).length - 2 = R0.length + 1 := by simp
      have g1 : (R0 ++ [s0, c1, c2]).getD (R0.length + 1) 0 = c1 := by
        rw [getD_append_add]; rfl
      rw [e1, scanBack_skip _ _ 3 R0.length (by rw [g1]; exact hcs c1 (by simp))
        (by simp only [List.length_append, List.length_cons, List.length_nil]; omega)]
      exact scanBack_found _ _ 2 R0.length hg0
        (by simp only [List.length_append, List.length_cons, List.length_nil]; omega)
    | [c1, c2, c3], _, _, hcs, hg0 =>
      have e1 : (R0 ++ [s0, c1, c2, c3]).length - 2 = R0.length + 1 + 1 := by simp
      have g1 : (R0 ++ [s0, c1, c2, c3]).getD (R0.length + 1) 0 = c1 := by
        rw [getD_append_add]; rfl
      have g2 : (R0 ++ [s0, c1, c2, c3]).getD (R0.length + 1 + 1) 0 = c2 := by
        rw [Nat.add_assoc, getD_append_add]; rfl
      rw [e1, scanBack_skip _ _ 3 (R0.length + 1) (by rw [g2]; exact hcs c2 (by simp))
        (by simp only [List.length_append, List.length_cons, List.length_nil]; omega),
        scanBack_skip _ _ 2 R0.length (by rw [g1]; exact hcs c1 (by simp))
        (by simp only [List.length_append, List.length_cons, List.length_nil]; omega)]
      exact scanBack_found _ _ 1 R0.length hg0
        (by simp only [List.length_append, List.length_cons, List.length_nil]; omega)
  unfold lastRuneStart
  simp only []
  rw [if_neg hne, key]
  simp

/-- A string that ends with a complete rune of two or more bytes has that
rune as its last rune. -/
theorem DecodeLastRuneInString_complete (R0 R : List Nat) (r : Nat)
    (h2 : 2 ≤ R.length) (hdec : DecodeRuneInString R = (r, R.length)) :
    DecodeLastRuneInString (R0 ++ R) = (r, R.length) := by
  obtain ⟨s0, cs, tail, hR, hm, hs0, hcs, hge, _⟩ := DecodeRuneInString_valid R r R.length hdec h2
  have htail : tail = [] := by
    have := congrArg List.length hR
    simp only [List.length_append, List.length_cons] at this
    apply List.eq_nil_of_length_eq_zero
    omega
  subst htail
  rw [List.append_nil] at hR
  have h4 := DecodeRuneInString_size_le R
  rw [hdec] at h4
  simp only [] at h4
  have hstart := lastRuneStart_complete R0 s0 cs (by omega) (by omega) hs0 hcs
  have hlen : (R0 ++ R).length = R0.length + R.length := by simp
  have hlast : 0x80 ≤ (R0 ++ R).getD ((R0 ++ R).length - 1) 0 := by
    have e1 : (R0 ++ R).length - 1 = R0.length + (R.length - 1) := by rw [hlen]; omega
    rw [e1, getD_append_add]
    have hmem : R.getD (R.length - 1) 0 ∈ R := by
      rw [List.getD_eq_getElem?_getD, List.getElem?_eq_getElem (by omega)]
      simp
    rw [hR] at hmem ⊢
    exact hge _ hmem
  unfold DecodeLastRuneInString
  simp only []
  rw [← hR] at hstart
  rw [if_neg (by rw [hlen]; omega), if_neg (by omega), hstart,
    List.drop_left, hdec]
  simp only []
  rw [if_neg (by rw [hlen]; simp)]

/-- No complete rune of two or more bytes begins inside a string that ends
on a rune boundary and runs on into what follows. -/
theorem no_rune_across (a v x R0 R : List Nat) (r : Nat) (ha : EndsOnRune a)
    (hv : v ≠ []) (hx : x ≠ []) (hax : a = R0 ++ x) (hR : R = x ++ v)
    (h2 : 2 ≤ R.length) (hdec : DecodeRuneInString R = (r, R.length)) : False := by
  obtain ⟨s0, cs, tail, hshape, hm, hs0, hcs, hge, _⟩ :=
    DecodeRuneInString_valid R r R.length hdec h2
  have htail : tail = [] := by
    have := congrArg List.length hshape
    simp only [List.length_append, List.length_cons] at this
    apply List.eq_nil_of_length_eq_zero
    omega
  subst htail
  rw [List.append_nil] at hshape
  obtain ⟨x0, x', hx0⟩ : ∃ x0 x', x = x0 :: x' := by
    cases x with
    | nil => exact absurd rfl hx
    | cons x0 x' => exact ⟨x0, x', rfl⟩
  subst hx0
  rw [hR] at hshape
  simp only [List.cons_append, List.cons.injEq] at hshape
  obtain ⟨rfl, hcs'⟩ := hshape
  rcases ha with ha | ⟨a0, c, ha, hc⟩ | ⟨a0, Q, q, ha, hQ2, hQ⟩
  · rw [ha] at hax
    simp at hax
  · -- the last byte of `a` is ASCII and lies in the rune
    have hmem : c ∈ x0 :: x' := by
      have h1 : c ∈ (R0 ++ x0 :: x').reverse := by
        rw [← hax, ha]; simp
      have h2 : (R0 ++ x0 :: x').reverse = (x0 :: x').reverse ++ R0.reverse := by simp
      have h3 : (a0 ++ [c]).reverse = c :: a0.reverse := by simp
      have h4 : (x0 :: x').reverse ≠ [] := by simp
      rw [ha] at hax
      have h5 := congrArg List.reverse hax
      rw [h3, h2] at h5
      cases hrev : (x0 :: x').reverse with
      | nil => exact absurd hrev h4
      | cons d ds =>
        rw [hrev] at h5
        simp only [List.cons_append, List.cons.injEq] at h5
        have : c ∈ (x0 :: x').reverse := by rw [hrev, h5.1]; simp
        exact List.mem_reverse.mp this
    have hge' : 0x80 ≤ c := by
      apply hge
      rw [← hcs']
      simp only [List.mem_cons, List.mem_append] at hmem ⊢
      rcases hmem with h | h
      · exact Or.inl h
      · exact Or.inr (Or.inl h)
    omega
  · obtain ⟨t0, ts, tail2, hshape2, hm2, ht0, hts, hge2, hstable⟩ :=
      DecodeRuneInString_valid Q q Q.length hQ hQ2
    have htail2 : tail2 = [] := by
      have := congrArg List.length hshape2
      simp only [List.length_append, List.length_cons] at this
      apply List.eq_nil_of_length_eq_zero
      omega
    subst htail2
    rw [List.append_nil] at hshape2
    rw [ha, hshape2] at hax
    have same : x0 :: x' = t0 :: ts → False := by
      intro hsame
      have hst := hstable v
      rw [← hsame] at hst
      have hR' : R = x0 :: x' ++ v := hR
      rw [← hR', hdec] at hst
      simp only [Prod.mk.injEq] at hst
      have hl := congrArg List.length hR'
      have hl2 := congrArg List.length hsame
      have hl3 := congrArg List.length hshape2
      simp only [List.length_append, List.length_cons] at hl hl2 hl3
      have : v.length = 0 := by omega
      exact hv (List.eq_nil_of_length_eq_zero this)
    rcases List.append_eq_append_iff.mp hax with ⟨y, _, hy⟩ | ⟨y, _, hy⟩
    · -- `t0 :: ts = y ++ x0 :: x'`
      cases y with
      | nil => exact same (by simpa using hy.symm)
      | cons y0 ys =>
        simp only [List.cons_append, List.cons.injEq] at hy
        have hmem : x0 ∈ ts := by rw [hy.2]; simp
        have := hts x0 hmem
        rw [hs0] at this
        cases this
    · -- `x0 :: x' = y ++ t0 :: ts`
      cases y with
      | nil => exact same (by simpa using hy)
      | cons y0 ys =>
        simp only [List.cons_append, List.cons.injEq] at hy
        have hmem : t0 ∈ cs := by rw [← hcs', hy.2]; simp
        have := hcs t0 hmem
        rw [ht0] at this
        cases this

/-- The last rune of a string is not changed by text before it that ends on
a rune boundary. -/
theorem DecodeLastRuneInString_append (a v : List Nat) (ha : EndsOnRune a) (hv : v ≠ []) :
    DecodeLastRuneInString (a ++ v) = DecodeLastRuneInString v := by
  have hvl : 0 < v.length := List.length_pos.mpr hv
  have hne : a ++ v ≠ [] := by simp [hv]
  have hlast : (a ++ v).getD ((a ++ v).length - 1) 0 = v.getD (v.length - 1) 0 := by
    have e1 : (a ++ v).length - 1 = a.length + (v.length - 1) := by
      simp only [List.length_append]; omega
    rw [e1, getD_append_add]
  by_cases hl : v.getD (v.length - 1) 0 < 0x80
  · rw [DecodeLastRuneInString_ascii v hv hl,
      DecodeLastRuneInString_ascii (a ++ v) hne (by rw [hlast]; exact hl), hlast]
  · cases hdv : DecodeLastRuneInString v with
    | mk r m =>
      rcases DecodeLastRuneInString_cases v r m hv (by omega) hdv with ⟨rfl, rfl⟩ |
          ⟨h2, R0, R, hsplit, hlen, hdec⟩
      · cases hda : DecodeLastRuneInString (a ++ v) with
        | mk r' m' =>
          rcases DecodeLastRuneInString_cases (a ++ v) r' m' hne (by rw [hlast]; omega) hda
            with ⟨rfl, rfl⟩ | ⟨h2, R0, R, hsplit, hlen, hdec⟩
          · rfl
          · exfalso
            rw [← hlen] at hdec h2
            rcases List.append_eq_append_iff.mp hsplit with ⟨x, _, hx⟩ | ⟨x, hx1, hx2⟩
            · -- the rune lies inside `v`
              have := DecodeLastRuneInString_complete x R r' h2 hdec
              rw [← hx, hdv] at this
              simp only [Prod.mk.injEq] at this
              omega
            · by_cases hxe : x = []
              · rw [hxe, List.nil_append] at hx2
                have hRv : R.length = v.length := by rw [hx2]
                have := DecodeLastRuneInString_complete [] R r' h2 hdec
                rw [List.nil_append, hx2, hdv] at this
                simp only [Prod.mk.injEq] at this
                omega
              · exact no_rune_across a v x R0 R r' ha hv hxe hx1 hx2 h2 hdec
      · rw [← hlen] at hdec h2 ⊢
        have := DecodeLastRuneInString_complete (a ++ R0) R r h2 hdec
        rw [List.append_assoc, ← hsplit] at this
        exact this

theorem DecodeLastRuneInString_size (u : List Nat) (hu : u ≠ []) :
    1 ≤ (DecodeLastRuneInString u).2 ∧ (DecodeLastRuneInString u).2 ≤ u.length := by
  have hl : 0 < u.length := List.length_pos.mpr hu
  by_cases hlast : u.getD (u.length - 1) 0 < 0x80
  · rw [DecodeLastRuneInString_ascii u hu hlast]
    exact ⟨le_refl _, hl⟩
  · cases hd : DecodeLastRuneInString u with
    | mk r m =>
      rcases DecodeLastRuneInString_cases u r m hu (by omega) hd with ⟨_, rfl⟩ |
          ⟨h2, R0, R, hsplit, hlen, _⟩
      · exact ⟨le_refl _, hl⟩
      · have := congrArg List.length hsplit
        simp only [List.length_append] at this
        simp only []
        omega

theorem trimRightLoop_zero (s : List Nat) : ∀ fuel, trimRightLoop s fuel 0 = 0 := by
  intro fuel
  cases fuel with
  | zero => rfl
  | succ f => rw [trimRightLoop, if_pos rfl]

theorem IsSpace_RuneError : IsSpace RuneError = false := by decide

theorem trimRightLoop_fuel (s : List Nat) :
    ∀ f f' i, i ≤ f → i ≤ f' → trimRightLoop s f i = trimRightLoop s f' i := by
  intro f
  induction f with
  | zero =>
    intro f' i h1 _
    have : i = 0 := by omega
    subst this
    rw [trimRightLoop_zero, trimRightLoop_zero]
  | succ f ih =>
    intro f' i h1 h2
    cases f' with
    | zero =>
      have : i = 0 := by omega
      subst this
      rw [trimRightLoop_zero, trimRightLoop_zero]
    | succ f' =>
      rw [trimRightLoop, trimRightLoop]
      by_cases hi : i = 0
      · rw [if_pos hi, if_pos hi]
      · rw [if_neg hi, if_neg hi]
        cases hdec : DecodeLastRuneInString (s.take i) with
        | mk r size =>
          simp only []
          by_cases hsp : IsSpace r = true
          · rw [if_pos hsp, if_pos hsp]
            have hne : s.take i ≠ [] := by
              intro h0
              rw [h0] at hdec
              simp only [DecodeLastRuneInString, List.length_nil, if_true, Prod.mk.injEq] at hdec
              rw [← hdec.1, IsSpace_RuneError] at hsp
              cases hsp
            have hsz := (DecodeLastRuneInString_size _ hne).1
            rw [hdec] at hsz
            simp only [] at hsz
            exact ih f' (i - size) (by omega) (by omega)
          · rw [if_neg hsp, if_neg hsp]

theorem trimRightLoop_spaces (y sp : List Nat)
    (hsp : ∀ c ∈ sp, c < 0x80 ∧ asciiSpace c = true) (f : Nat) :
    ∀ k, k ≤ sp.length →
      trimRightLoop (y ++ sp) (f + k) (y.length + k) = trimRightLoop (y ++ sp) f y.length := by
  intro k
  induction k with
  | zero => intro _; rfl
  | succ k ih =>
    intro hk
    have hlen : ((y ++ sp).take (y.length + (k + 1))).length = y.length + (k + 1) := by
      simp only [List.length_take, List.length_append]; omega
    have hne : (y ++ sp).take (y.length + (k + 1)) ≠ [] := by
      intro h0; rw [h0] at hlen; simp at hlen; omega
    have hget : ((y ++ sp).take (y.length + (k + 1))).getD
        (((y ++ sp).take (y.length + (k + 1))).length - 1) 0 = sp.getD k 0 := by
      rw [hlen, getD_take (by omega)]
      have : y.length + (k + 1) - 1 = y.length + k := by omega
      rw [this, getD_append_add]
    have hmem : sp.getD k 0 ∈ sp := by
      rw [List.getD_eq_getElem?_getD, List.getElem?_eq_getElem (by omega)]
      simp
    obtain ⟨hc1, hc2⟩ := hsp _ hmem
    have hdec := DecodeLastRuneInString_ascii _ hne (by rw [hget]; exact hc1)
    rw [hget] at hdec
    have e1 : f + (k + 1) = (f + k) + 1 := by omega
    rw [e1, trimRightLoop, if_neg (by omega), hdec]
    simp only []
    rw [IsSpace_ascii hc1, hc2, if_pos rfl]
    have e2 : y.length + (k + 1) - 1 = y.length + k := by omega
    rw [e2]
    exact ih (by omega)

/-- Trimming on the right stops inside `v` also when `v` stands after a
text that ends on a rune boundary. -/
theorem trimRightLoop_append_ge (a v x : List Nat) (ha : EndsOnRune a) :
    ∀ f i, 1 ≤ i → i ≤ v.length → 0 < trimRightLoop (v ++ x) f i →
      a.length + 1 ≤ trimRightLoop (a ++ v) f (a.length + i) := by
  intro f
  induction f with
  | zero =>
    intro i h1 _ _
    simp only [trimRightLoop]
    omega
  | succ f ih =>
    intro i h1 h2 hpos
    rw [trimRightLoop, if_neg (by omega)] at hpos
    rw [trimRightLoop, if_neg (by omega)]
    have ht1 : (v ++ x).take i = v.take i := by
      rw [List.take_append_of_le_length h2]
    have ht2 : (a ++ v).take (a.length + i) = a ++ v.take i := by
      rw [List.take_append]
    have hlen : (v.take i).length = i := by simp [h2]
    have hne : v.take i ≠ [] := by
      intro h0; rw [h0] at hlen; simp at hlen; omega
    rw [ht1] at hpos
    rw [ht2, DecodeLastRuneInString_append a _ ha hne]
    have hsz := DecodeLastRuneInString_size _ hne
    cases hdec : DecodeLastRuneInString (v.take i) with
    | mk r size =>
      rw [hdec] at hpos hsz
      simp only [] at hpos hsz ⊢
      rw [hlen] at hsz
      by_cases hsp : IsSpace r = true
      · rw [if_pos hsp] at hpos
        rw [if_pos hsp]
        have hi : 1 ≤ i - size := by
          by_contra hcon
          have : i - size = 0 := by omega
          rw [this, trimRightLoop_zero] at hpos
          omega
        have e1 : a.length + i - size = a.length + (i - size) := by omega
        rw [e1]
        exact ih (i - size) hi (by omega) hpos
      · rw [if_neg hsp]
        have e1 : a.length + i - size = a.length + (i - size) := by omega
        rw [e1]
        split
        · have hne2 : List.drop (a.length + (i - size)) (a ++ v) ≠ [] := by
            intro h0
            have := congrArg List.length h0
            simp only [List.length_drop, List.length_append, List.length_nil] at this
            omega
          have := DecodeRuneInString_size_pos _ hne2
          omega
        · omega

theorem ascii_space_split (l : List Nat) :
    ∃ sp rest, l = sp ++ rest ∧ (∀ c ∈ sp, c < 0x80 ∧ asciiSpace c = true) ∧
      (rest = [] ∨ ∃ c r, rest = c :: r ∧ ¬ (c < 0x80 ∧ asciiSpace c = true)) := by
  induction l with
  | nil => exact ⟨[], [], rfl, by simp, Or.inl rfl⟩
  | cons d l ih =>
    by_cases hd : d < 0x80 ∧ asciiSpace d = true
    · obtain ⟨sp, rest, h1, h2, h3⟩ := ih
      refine ⟨d :: sp, rest, by simp [h1], ?_, h3⟩
      intro c hc
      simp only [List.mem_cons] at hc
      rcases hc with rfl | hc
      · exact hd
      · exact h2 c hc
    · exact ⟨[], d :: l, rfl, by simp, Or.inr ⟨d, l, rfl, hd⟩⟩

theorem trimSpaceStart_skip (sp rest : List Nat)
    (hsp : ∀ c ∈ sp, c < 0x80 ∧ asciiSpace c = true) :
    trimSpaceStart (sp ++ rest) = trimSpaceStart rest := by
  induction sp with
  | nil => rfl
  | cons d sp ih =>
    have hd := hsp d (by simp)
    have : ¬ (0x80 ≤ d) := by omega
    simp only [List.cons_append, trimSpaceStart, this, if_false, hd.2, if_true]
    exact ih (fun c hc => hsp c (by simp [hc]))

theorem trimSpaceStop_skip (sp rest : List Nat)
    (hsp : ∀ c ∈ sp, c < 0x80 ∧ asciiSpace c = true) :
    trimSpaceStop (sp ++ rest) = trimSpaceStop rest := by
  induction sp with
  | nil => rfl
  | cons d sp ih =>
    have hd := hsp d (by simp)
    have : ¬ (0x80 ≤ d) := by omega
    simp only [List.cons_append, trimSpaceStop, this, if_false, hd.2, if_true]
    exact ih (fun c hc => hsp c (by simp [hc]))

theorem DecodeRuneInString_one (c : Nat) (cs : List Nat) (r : Nat)
    (h : DecodeRuneInString (c :: cs) = (r, 1)) : r = RuneError ∨ (c < 0x80 ∧ r = c) := by
  rw [DecodeRuneInString] at h
  split at h
  · rename_i hc
    simp only [Prod.mk.injEq] at h
    exact Or.inr ⟨hc, h.1.symm⟩
  · left
    revert h
    repeat' split
    all_goals
      intro h
      simp only [Prod.mk.injEq] at h
      first
        | exact h.1.symm
        | (exfalso; omega)

theorem trimLeftLoop_split :
    ∀ (fuel : Nat) (s B : List Nat), EndsOnRune B →
      ∃ w, s = w ++ trimLeftLoop fuel s ∧ EndsOnRune (B ++ w) := by
  intro fuel
  induction fuel with
  | zero =>
    intro s B hB
    exact ⟨[], by simp [trimLeftLoop], by simpa using hB⟩
  | succ fuel ih =>
    intro s B hB
    cases s with
    | nil => exact ⟨[], by simp [trimLeftLoop], by simpa using hB⟩
    | cons c cs =>
      rw [trimLeftLoop]
      cases hdec : DecodeRuneInString (c :: cs) with
      | mk r size =>
        simp only []
        by_cases hsp : IsSpace r = true
        · rw [if_pos hsp]
          have hr : r ≠ RuneError := by
            intro h0
            rw [h0, IsSpace_RuneError] at hsp
            cases hsp
          have hpos := DecodeRuneInString_size_pos (c :: cs) (by simp)
          rw [hdec] at hpos
          simp only [] at hpos
          by_cases h2 : 2 ≤ size
          · obtain ⟨s0, ds, tail, hshape, hm, _, _, _, hstable⟩ :=
              DecodeRuneInString_valid _ r size hdec h2
            have hR : DecodeRuneInString (s0 :: ds) = (r, (s0 :: ds).length) := by
              have := hstable []
              rw [List.append_nil] at this
              rw [this]
              simp [hm]
            have hdrop : List.drop size (c :: cs) = tail := by
              rw [hshape]
              have : size = (s0 :: ds).length := by simp [hm]
              rw [this, List.drop_left]
            rw [hdrop]
            have hB' : EndsOnRune (B ++ s0 :: ds) :=
              Or.inr (Or.inr ⟨B, s0 :: ds, r, rfl, by simp only [List.length_cons]; omega, hR⟩)
            obtain ⟨w, hw1, hw2⟩ := ih tail (B ++ s0 :: ds) hB'
            refine ⟨s0 :: ds ++ w, ?_, ?_⟩
            · rw [hshape, List.append_assoc, ← hw1]
            · rw [← List.append_assoc]
              exact hw2
          · have h1 : size = 1 := by omega
            subst h1
            rcases DecodeRuneInString_one c cs r hdec with h | ⟨hc, _⟩
            · exact absurd h hr
            · have hB' : EndsOnRune (B ++ [c]) := Or.inr (Or.inl ⟨B, c, rfl, hc⟩)
              obtain ⟨w, hw1, hw2⟩ := ih cs (B ++ [c]) hB'
              refine ⟨c :: w, ?_, ?_⟩
              · simp only [List.drop_succ_cons, List.drop_zero, List.cons_append]
                rw [← hw1]
              · have : B ++ c :: w = B ++ [c] ++ w := by simp
                rw [this]
                exact hw2
        · rw [if_neg hsp]
          exact ⟨[], rfl, by simpa using hB⟩

theorem EndsOnRune_ascii (sp : List Nat) (h : ∀ c ∈ sp, c < 0x80) : EndsOnRune sp := by
  rcases List.eq_nil_or_concat sp with h0 | ⟨l, c, h1⟩
  · exact Or.inl h0
  · rw [List.concat_eq_append] at h1
    refine Or.inr (Or.inl ⟨l, c, h1, h c ?_⟩)
    rw [h1]; simp

theorem take_ne_nil {l : List Nat} {n : Nat} (h : l.take n ≠ []) : 0 < n ∧ l ≠ [] := by
  constructor
  · by_contra h0
    have : n = 0 := by omega
    rw [this] at h
    exact h rfl
  · intro h0
    rw [h0] at h
    exact h (by simp)

/-- A string that `strings.TrimSpace` does not empty is not emptied by
`strings.TrimRightFunc` with `unicode.IsSpace` either. -/
theorem TrimRightSpace_of_TrimSpace (K : List Nat) (h : TrimSpace K ≠ []) :
    TrimRightSpace K ≠ [] := by
  obtain ⟨sp, rest, hK, hsp, hrest⟩ := ascii_space_split K
  have hstart : trimSpaceStart K = trimSpaceStart rest := by
    rw [hK]; exact trimSpaceStart_skip sp rest hsp
  have hgoal : ∀ n, 1 ≤ n → K ≠ [] → K.take n ≠ [] := by
    intro n hn hne h0
    have := congrArg List.length h0
    have hl : 0 < K.length := List.length_pos.mpr hne
    simp only [List.length_take, List.length_nil] at this
    omega
  rcases hrest with hr | ⟨c, r, hr, hc⟩
  · exfalso
    apply h
    unfold TrimSpace
    rw [hstart, hr]
    rfl
  · have hKne : K ≠ [] := by rw [hK, hr]; simp
    by_cases hc80 : 0x80 ≤ c
    · have hst : trimSpaceStart rest = Sum.inr rest := by
        rw [hr]; simp [trimSpaceStart, hc80]
      unfold TrimSpace at h
      rw [hstart, hst] at h
      simp only [] at h
      obtain ⟨w, hw1, hw2⟩ := trimLeftLoop_split rest.length rest sp
        (EndsOnRune_ascii sp (fun c hc => (hsp c hc).1))
      change rest = w ++ TrimLeftSpace rest at hw1
      generalize TrimLeftSpace rest = u at h hw1
      unfold TrimRightSpace at h
      obtain ⟨hn, hu⟩ := take_ne_nil h
      have hul : 1 ≤ u.length := List.length_pos.mpr hu
      have hpos : 0 < trimRightLoop (u ++ []) K.length u.length := by
        rw [List.append_nil, trimRightLoop_fuel u K.length u.length u.length
          (by rw [hK, hw1]; simp only [List.length_append]; omega) (le_refl _)]
        exact hn
      have hge := trimRightLoop_append_ge (sp ++ w) u [] hw2 K.length u.length hul
        (le_refl _) hpos
      have hKeq : K = (sp ++ w) ++ u := by rw [hK, hw1]; simp
      have hlen : K.length = (sp ++ w).length + u.length := by
        rw [hKeq]; simp only [List.length_append]
      rw [← hKeq, ← hlen] at hge
      unfold TrimRightSpace
      exact hgoal _ (by omega) hKne
    · have hcs : asciiSpace c = false := by
        by_contra hcon
        exact hc ⟨by omega, by simpa using hcon⟩
      have hget : K.getD sp.length 0 = c := by
        rw [hK, hr]; exact getD_append_mid sp c r
      have hlen : sp.length + 1 ≤ K.length := by
        rw [hK, hr]; simp
      have hge := trimRightLoop_ge K sp.length c hget (by omega) hcs K.length K.length hlen
        (le_refl _)
      unfold TrimRightSpace
      exact hgoal _ (by omega) hKne

/-- A string of ASCII bytes that begins with a non-space byte is kept whole
by `strings.TrimSpace` when a text follows that is not all white space. -/
theorem TrimSpace_keeps_before (h0 : Nat) (a K : List Nat) (hh : h0 < 0x80)
    (hhs : asciiSpace h0 = false) (ha : ∀ c ∈ a, c < 0x80)
    (hK : TrimRightSpace K ≠ []) :
    ∃ r', TrimSpace (h0 :: a ++ K) = h0 :: a ++ r' := by
  by_cases hα : ∃ c ∈ K, c < 0x80 ∧ asciiSpace c = false
  · obtain ⟨c, hmem, hc, hcs⟩ := hα
    obtain ⟨pre, post, hsplit⟩ := List.append_of_mem hmem
    obtain ⟨r', hr⟩ := TrimSpace_keeps h0 (a ++ pre) c post hh hhs hc hcs
    refine ⟨pre ++ c :: r', ?_⟩
    rw [hsplit]
    have e1 : h0 :: a ++ (pre ++ c :: post) = h0 :: (a ++ pre) ++ c :: post := by simp
    rw [e1, hr]
    simp
  · have hβ : ∀ c ∈ K, 0x80 ≤ c ∨ asciiSpace c = true := by
      intro c hc
      by_contra hcon
      apply hα
      refine ⟨c, hc, ?_, ?_⟩
      · by_contra h1
        exact hcon (Or.inl (by omega))
      · by_contra h1
        exact hcon (Or.inr (by simpa using h1))
    obtain ⟨hn, hKne⟩ := take_ne_nil hK
    obtain ⟨sp, rest, hrev, hsp, hrest⟩ := ascii_space_split K.reverse
    have hKeq : K = rest.reverse ++ sp.reverse := by
      have := congrArg List.reverse hrev
      simpa using this
    have hsp' : ∀ c ∈ sp.reverse, c < 0x80 ∧ asciiSpace c = true := by
      intro c hc
      exact hsp c (List.mem_reverse.mp hc)
    rcases hrest with hr | ⟨c, r, hr, hc⟩
    · -- the text is all ASCII spaces
      exfalso
      rw [hr] at hKeq
      simp only [List.reverse_nil, List.nil_append] at hKeq
      have := trimRightLoop_spaces [] sp.reverse hsp' 0 sp.reverse.length (le_refl _)
      simp only [List.nil_append, List.length_nil, Nat.zero_add] at this
      rw [← hKeq, trimRightLoop_zero] at this
      omega
    · have hcK : c ∈ K := by
        rw [hKeq, hr]; simp
      have hc80 : 0x80 ≤ c := by
        rcases hβ c hcK with h | h
        · exact h
        · by_contra h1
          exact hc ⟨by omega, h⟩
      have hstart : trimSpaceStart (h0 :: a ++ K) = Sum.inl (h0 :: a ++ K) := by
        have : ¬ (0x80 ≤ h0) := by omega
        simp [trimSpaceStart, this, hhs]
      have hrevAll : (h0 :: a ++ K).reverse = sp ++ (c :: r ++ (h0 :: a).reverse) := by
        rw [List.reverse_append, hrev, hr]
        simp
      have hstop : trimSpaceStop (h0 :: a ++ K).reverse
          = Sum.inr (c :: r ++ (h0 :: a).reverse) := by
        rw [hrevAll, trimSpaceStop_skip sp _ hsp]
        simp [trimSpaceStop, hc80]
      have hback : (c :: r ++ (h0 :: a).reverse).reverse = (h0 :: a) ++ rest.reverse := by
        rw [hr]; simp
      unfold TrimSpace
      rw [hstart]
      simp only []
      rw [hstop]
      simp only []
      rw [hback]
      unfold TrimRightSpace
      have hP : EndsOnRune (h0 :: a) := EndsOnRune_ascii (h0 :: a) (by
        intro d hd
        simp only [List.mem_cons] at hd
        rcases hd with rfl | hd
        · exact hh
        · exact ha d hd)
      have hrl : 1 ≤ rest.reverse.length := by
        rw [hr]; simp
      have hpos : 0 < trimRightLoop (rest.reverse ++ sp.reverse)
          ((h0 :: a) ++ rest.reverse).length rest.reverse.length := by
        have h1 := trimRightLoop_spaces rest.reverse sp.reverse hsp' rest.reverse.length
          sp.reverse.length (le_refl _)
        have h2 : K.length = rest.reverse.length + sp.reverse.length := by
          rw [hKeq]; simp only [List.length_append]
        rw [← hKeq, ← h2] at h1
        rw [h1] at hn
        rw [← hKeq, trimRightLoop_fuel _ ((h0 :: a) ++ rest.reverse).length rest.reverse.length
          rest.reverse.length (by simp only [List.length_append]; omega) (le_refl _)]
        exact hn
      have hge := trimRightLoop_append_ge (h0 :: a) rest.reverse sp.reverse hP
        ((h0 :: a) ++ rest.reverse).length rest.reverse.length hrl (le_refl _) hpos
      have hlen : ((h0 :: a) ++ rest.reverse).length
          = (h0 :: a).length + rest.reverse.length := by
        simp only [List.length_append]
      rw [← hlen] at hge
      generalize trimRightLoop ((h0 :: a) ++ rest.reverse) ((h0 :: a) ++ rest.reverse).length
        ((h0 :: a) ++ rest.reverse).length = k at hge
      refine ⟨rest.reverse.take (k - (h0 :: a).length), ?_⟩
      have hk : k = (h0 :: a).length + (k - (h0 :: a).length) := by omega
      conv_lhs => rw [hk]
      rw [List.take_append]

/-- A string of ASCII bytes that begins with a non-space byte is kept whole
by `strings.TrimSpace` when the text that follows is not emptied by
`strings.TrimSpace`. -/
theorem TrimSpace_keeps_front (h0 : Nat) (a K : List Nat) (hh : h0 < 0x80)
    (hhs : asciiSpace h0 = false) (ha : ∀ c ∈ a, c < 0x80) (hK : TrimSpace K ≠ []) :
    ∃ r', TrimSpace (h0 :: a ++ K) = h0 :: a ++ r' :=
  TrimSpace_keeps_before h0 a K hh hhs ha (TrimRightSpace_of_TrimSpace K hK)

/-- C5 (counterexample): the test bill (canonical identifier, title
`Testing bill`) with an introduction by a joint meeting whose name is long:
`CreateTweet` truncates and returns, the cut leaves nothing of the title and
takes the identifier prefix down to its first letter.  And on the test bill
with a title of spaces the cut keeps spaces only, and the trimming takes the
space that ends the prefix. -/
theorem C5_prefix_lost_counterexample :
    Canonical testBill.BillID (bytes "O") (bytes "2010") (bytes "11")
    ∧ testBill.Title ≠ []
    ∧ GetCleanBillID testBill = Except.ok (bytes "O2010-11")
    ∧ GetActions jsonLib { testBill with Data := jointIntroductionData }
        = Except.ok [jointIntroduction]
    ∧ (headline (bytes "O2010-11") testBill.Title
        ++ clause jsonLib [jointIntroduction] ++ bytes ".").length
        + ((bytes " See more at  #" ++ testBill.BillID).length + 23) > 280
    ∧ CreateTweet jsonLib { testBill with Data := jointIntroductionData }
        (bytes "https://chicago.legistar.com")
      = Except.ok (bytes "O... was introduced in Joint Meeting of the Committee on Finance, Diversity, Equity and Inclusion, the Committee on Development, Planning and Sustainability, the Committee on Health, Human Services and the Arts and Committee on Safety. See more at https://chicago.legistar.com #O201011")
    ∧ (bytes "O2010-11: ").isPrefixOf (bytes "O... was introduced in Joint Meeting of the Committee on Finance, Diversity, Equity and Inclusion, the Committee on Development, Planning and Sustainability, the Committee on Health, Human Services and the Arts and Committee on Safety. See more at https://chicago.legistar.com #O201011") = false
    ∧ CreateTweet jsonLib { testBill with Title := blankTitle }
        (bytes "https://chicago.legistar.com")
      = Except.ok (bytes "O2010-11:... See more at https://chicago.legistar.com #O201011")
    ∧ (bytes "O2010-11: ").isPrefixOf
        (bytes "O2010-11:... See more at https://chicago.legistar.com #O201011") = false :=
  ⟨testBill_canonical, by decide, by decide, by decide, by decide, by decide, by decide,
    by decide, by decide⟩

/-- C5 (amended): when `CreateTweet` truncates and returns on a bill with a
canonical identifier, and the part of the title that the cut keeps (its first
`len(Title) - excess` bytes) is not empty or all white space, that is
`strings.TrimSpace` does not empty it, the result still begins with the full
prefix `GetCleanBillID() + ": "`. -/
theorem C5_prefix_kept_when_kept_title_not_blank (L : Lib) (b : Bill)
    (billURL Ls Y N s : List Nat) (actions : List LegistarAction)
    (hcanon : Canonical b.BillID Ls Y N)
    (hact : L.jsonUnmarshal b.Data = some actions)
    (hover : (headline (Ls ++ Y ++ bytes "-" ++ N) b.Title ++ clause L actions
        ++ bytes ".").length + ((bytes " See more at  #" ++ b.BillID).length + 23) > 280)
    (hret : CreateTweet L b billURL = Except.ok s)
    (hkept : TrimSpace (b.Title.take (b.Title.length
        - (((bytes " See more at  #" ++ b.BillID).length + 23)
            + (headline (Ls ++ Y ++ bytes "-" ++ N) b.Title ++ clause L actions
                ++ bytes ".").length + 3 - 280))) ≠ []) :
    GetCleanBillID b = Except.ok (Ls ++ Y ++ bytes "-" ++ N) ∧
    ∃ rest, s = (Ls ++ Y ++ bytes "-" ++ N) ++ bytes ": " ++ rest := by
  have hid := GetCleanBillID_canonical b hcanon
  refine ⟨hid, ?_⟩
  rw [CreateTweet_eq L b billURL _ actions hid hact] at hret
  rw [overhead_eq] at hover hkept
  rw [if_neg (by omega)] at hret
  have htitle : b.Title ≠ [] := by
    intro h0
    rw [h0] at hkept
    exact hkept (by simp [TrimSpace, trimSpaceStart, trimSpaceStop])
  have hhead : headline (Ls ++ Y ++ bytes "-" ++ N) b.Title
      = (Ls ++ Y ++ bytes "-" ++ N ++ bytes ": ") ++ b.Title := by
    simp [headline, htitle]
  split at hret
  · cases hret
  · rename_i hneg
    have hs := (Except.ok.inj hret).symm
    obtain ⟨l0, Ls', hLs⟩ : ∃ l0 Ls', Ls = l0 :: Ls' := by
      cases hL : Ls with
      | nil => exact absurd hL hcanon.nonempty
      | cons l0 Ls' => exact ⟨l0, Ls', rfl⟩
    have hl0 := letter_ascii (hcanon.letters l0 (by simp [hLs]))
    generalize hkdef : b.Title.length
        - (baseOverhead b.BillID
            + (headline (Ls ++ Y ++ bytes "-" ++ N) b.Title ++ clause L actions
                ++ bytes ".").length + 3 - 280) = k at hkept
    have hpos : 0 < k := by
      by_contra h0
      have h0' : k = 0 := by omega
      rw [h0'] at hkept
      exact hkept (by simp [TrimSpace, trimSpaceStart, trimSpaceStop])
    have hcut : 276 - baseOverhead b.BillID - (clause L actions).length
        = (Ls ++ Y ++ bytes "-" ++ N ++ bytes ": ").length + k := by
      rw [hhead] at hkdef hover
      simp only [List.length_append, len_dot] at hkdef hover ⊢
      omega
    rw [hcut, hhead, List.take_append] at hs
    have hform : Ls ++ Y ++ bytes "-" ++ N ++ bytes ": " ++ b.Title.take k
        = l0 :: (Ls' ++ Y ++ bytes "-" ++ N ++ bytes ": ") ++ b.Title.take k := by
      simp [hLs]
    have hascii : ∀ c ∈ Ls' ++ Y ++ bytes "-" ++ N ++ bytes ": ", c < 0x80 := by
      intro c hc
      simp only [List.mem_append] at hc
      rcases hc with (((hc | hc) | hc) | hc) | hc
      · exact (letter_ascii (hcanon.letters c (by simp [hLs, hc]))).1
      · exact (digit_ascii (hcanon.year c hc)).1
      · have : c = 0x2D := by simpa [bytes, utf8EncodeNat] using hc
        omega
      · exact (digit_ascii (hcanon.seq c hc)).1
      · have : c = 0x3A ∨ c = 0x20 := by simpa [bytes, utf8EncodeNat] using hc
        omega
    rw [hform] at hs
    obtain ⟨r', hr⟩ := TrimSpace_keeps_front l0 (Ls' ++ Y ++ bytes "-" ++ N ++ bytes ": ")
      (b.Title.take k) hl0.1 hl0.2 hascii hkept
    rw [hr] at hs
    refine ⟨r' ++ ellipsisFor (clause L actions) ++ clause L actions ++ bytes "."
      ++ trailer billURL b.BillID, ?_⟩
    rw [hs]
    simp [hLs]

theorem C5_prefix_kept_when_kept_title_not_blank_witness :
    CreateTweet jsonLib { testBill with Data := ethicsData, Title := accentedTitle }
        (bytes "https://chicago.legistar.com")
      = Except.ok (bytes "O2010-11: " ++ accentedTitle.take 145 ++ bytes "... was recommended to pass by the Committee on Ethics and Government Oversight. See more at https://chicago.legistar.com #O201011")
    ∧ ∃ rest, bytes "O2010-11: " ++ accentedTitle.take 145 ++ bytes "... was recommended to pass by the Committee on Ethics and Government Oversight. See more at https://chicago.legistar.com #O201011"
      = (bytes "O" ++ bytes "2010" ++ bytes "-" ++ bytes "11") ++ bytes ": " ++ rest :=
  ⟨by decide,
   (C5_prefix_kept_when_kept_title_not_blank jsonLib
    { testBill with Data := ethicsData, Title := accentedTitle }
    (bytes "https://chicago.legistar.com")
    (bytes "O") (bytes "2010") (bytes "11") _ [ethicsAction]
    testBill_canonical (by decide) (by decide) (by decide) (by decide)).2⟩

/-! ## The grammar over the tokens: every value is parsed -/

theorem parseTokens_cons (t : Token) (ts : List Token) (stack : List Frame) (ex : Expect)
    (res : Option JValue) :
    parseTokens (t :: ts) stack ex res = afterValue (parseStep t stack ex) ts res := by
  rw [parseTokens]
  cases parseStep t stack ex with
  | none => rfl
  | some c =>
    obtain ⟨st, ex', r⟩ := c
    rfl

theorem parseTokens_valueOrEnd (v : JValue) (ts : List Token) (stack : List Frame)
    (res : Option JValue) :
    parseTokens (tokensOf v ++ ts) stack Expect.valueOrEnd res
      = parseTokens (tokensOf v ++ ts) stack Expect.value res := by
  cases v with
  | null => simp only [tokensOf, List.cons_append, parseTokens_cons, parseStep]
  | bool b => cases b <;> simp only [tokensOf, List.cons_append, parseTokens_cons, parseStep]
  | number => simp only [tokensOf, List.cons_append, parseTokens_cons, parseStep]
  | string raw => simp only [tokensOf, List.cons_append, parseTokens_cons, parseStep]
  | array elems =>
    cases elems <;> simp only [tokensOf, List.cons_append, parseTokens_cons, parseStep]
  | object members =>
    cases members with
    | nil => simp only [tokensOf, List.cons_append, parseTokens_cons, parseStep]
    | cons m ms =>
      obtain ⟨k, w⟩ := m
      simp only [tokensOf, List.cons_append, parseTokens_cons, parseStep]

mutual
theorem parse_value : ∀ (v : JValue) (stack : List Frame) (ts : List Token)
    (res : Option JValue), stack.length + depth v ≤ maxNestingDepth →
    parseTokens (tokensOf v ++ ts) stack Expect.value res
      = afterValue (complete v stack) ts res
  | JValue.null, stack, ts, res, _ => by
    simp only [tokensOf, List.cons_append, List.nil_append, parseTokens_cons, parseStep,
      beginValue]
  | JValue.bool true, stack, ts, res, _ => by
    simp only [tokensOf, List.cons_append, List.nil_append, parseTokens_cons, parseStep,
      beginValue]
  | JValue.bool false, stack, ts, res, _ => by
    simp only [tokensOf, List.cons_append, List.nil_append, parseTokens_cons, parseStep,
      beginValue]
  | JValue.number, stack, ts, res, _ => by
    simp only [tokensOf, List.cons_append, List.nil_append, parseTokens_cons, parseStep,
      beginValue]
  | JValue.string raw, stack, ts, res, _ => by
    simp only [tokensOf, List.cons_append, List.nil_append, parseTokens_cons, parseStep,
      beginValue]
  | JValue.array [], stack, ts, res, h => by
    have hd : stack.length < maxNestingDepth := by
      simp only [depth, depthElems] at h; omega
    simp only [tokensOf, List.cons_append, List.nil_append, parseTokens_cons, parseStep,
      beginValue, hd, if_true, afterValue, firstSome, List.reverse_nil]
  | JValue.array (v :: vs), stack, ts, res, h => by
    simp only [depth, depthElems] at h
    have hd : stack.length < maxNestingDepth := by omega
    have h1 : (Frame.arr [] :: stack).length + depth v ≤ maxNestingDepth := by
      simp only [List.length_cons]; omega
    have h2 : stack.length + 1 + depthElems vs ≤ maxNestingDepth := by omega
    have e : tokensOf (JValue.array (v :: vs)) ++ ts
        = Token.lbracket :: (tokensOf v ++ (moreElems vs ++ Token.rbracket :: ts)) := by
      simp only [tokensOf, List.cons_append, List.append_assoc, List.nil_append]
    rw [e, parseTokens_cons]
    generalize hR : afterValue (complete (JValue.array (v :: vs)) stack) ts res = R
    simp only [parseStep, beginValue, hd, if_true, afterValue, firstSome]
    rw [parseTokens_valueOrEnd, parse_value v _ _ _ h1]
    simp only [complete, afterValue, firstSome]
    rw [parse_moreElems vs [v] stack ts res h2, ← hR]
    simp only [List.reverse_cons, List.reverse_nil, List.nil_append, List.singleton_append]
  | JValue.object [], stack, ts, res, h => by
    have hd : stack.length < maxNestingDepth := by
      simp only [depth, depthMembers] at h; omega
    simp only [tokensOf, List.cons_append, List.nil_append, parseTokens_cons, parseStep,
      beginValue, hd, if_true, afterValue, firstSome, List.reverse_nil]
  | JValue.object ((k, v) :: ms), stack, ts, res, h => by
    simp only [depth, depthMembers] at h
    have hd : stack.length < maxNestingDepth := by omega
    have h1 : (Frame.obj [] (some k) :: stack).length + depth v ≤ maxNestingDepth := by
      simp only [List.length_cons]; omega
    have h2 : stack.length + 1 + depthMembers ms ≤ maxNestingDepth := by omega
    have e : tokensOf (JValue.object ((k, v) :: ms)) ++ ts
        = Token.lbrace :: Token.str k :: Token.colon
            :: (tokensOf v ++ (moreMembers ms ++ Token.rbrace :: ts)) := by
      simp only [tokensOf, List.cons_append, List.append_assoc, List.nil_append]
    rw [e, parseTokens_cons]
    generalize hR : afterValue (complete (JValue.object ((k, v) :: ms)) stack) ts res = R
    simp only [parseStep, beginValue, hd, if_true, afterValue, firstSome]
    rw [parseTokens_cons]
    simp only [parseStep, afterValue, firstSome]
    rw [parseTokens_cons]
    simp only [parseStep, afterValue, firstSome]
    rw [parse_value v _ _ _ h1]
    simp only [complete, afterValue, firstSome]
    rw [parse_moreMembers ms [(k, v)] stack ts res h2, ← hR]
    simp only [List.reverse_cons, List.reverse_nil, List.nil_append, List.singleton_append]
theorem parse_moreElems : ∀ (vs : List JValue) (acc : List JValue) (stack : List Frame)
    (ts : List Token) (res : Option JValue),
    stack.length + 1 + depthElems vs ≤ maxNestingDepth →
    parseTokens (moreElems vs ++ Token.rbracket :: ts) (Frame.arr acc :: stack)
        Expect.commaOrEnd res
      = afterValue (complete (JValue.array (acc.reverse ++ vs)) stack) ts res
  | [], acc, stack, ts, res, _ => by
    simp only [moreElems, List.nil_append, parseTokens_cons, parseStep, List.append_nil]
  | v :: vs, acc, stack, ts, res, h => by
    simp only [depthElems] at h
    have h1 : (Frame.arr acc :: stack).length + depth v ≤ maxNestingDepth := by
      simp only [List.length_cons]; omega
    have h2 : stack.length + 1 + depthElems vs ≤ maxNestingDepth := by omega
    have e : moreElems (v :: vs) ++ Token.rbracket :: ts
        = Token.comma :: (tokensOf v ++ (moreElems vs ++ Token.rbracket :: ts)) := by
      simp only [moreElems, List.cons_append, List.append_assoc]
    rw [e, parseTokens_cons]
    generalize hR : afterValue (complete (JValue.array (acc.reverse ++ v :: vs)) stack) ts res = R
    simp only [parseStep, afterValue, firstSome]
    rw [parse_value v _ _ _ h1]
    simp only [complete, afterValue, firstSome]
    rw [parse_moreElems vs (v :: acc) stack ts res h2, ← hR]
    simp only [List.reverse_cons, List.append_assoc, List.singleton_append]
theorem parse_moreMembers : ∀ (ms : List (List Nat × JValue))
    (acc : List (List Nat × JValue)) (stack : List Frame)
    (ts : List Token) (res : Option JValue),
    stack.length + 1 + depthMembers ms ≤ maxNestingDepth →
    parseTokens (moreMembers ms ++ Token.rbrace :: ts) (Frame.obj acc none :: stack)
        Expect.commaOrEnd res
      = afterValue (complete (JValue.object (acc.reverse ++ ms)) stack) ts res
  | [], acc, stack, ts, res, _ => by
    simp only [moreMembers, List.nil_append, parseTokens_cons, parseStep, List.append_nil]
  | (k, v) :: ms, acc, stack, ts, res, h => by
    simp only [depthMembers] at h
    have h1 : (Frame.obj acc (some k) :: stack).length + depth v ≤ maxNestingDepth := by
      simp only [List.length_cons]; omega
    have h2 : stack.length + 1 + depthMembers ms ≤ maxNestingDepth := by omega
    have e : moreMembers ((k, v) :: ms) ++ Token.rbrace :: ts
        = Token.comma :: Token.str k :: Token.colon
            :: (tokensOf v ++ (moreMembers ms ++ Token.rbrace :: ts)) := by
      simp only [moreMembers, List.cons_append, List.append_assoc]
    rw [e, parseTokens_cons]
    generalize hR :
      afterValue (complete (JValue.object (acc.reverse ++ (k, v) :: ms)) stack) ts res = R
    simp only [parseStep, afterValue, firstSome]
    rw [parseTokens_cons]
    simp only [parseStep, afterValue, firstSome]
    rw [parseTokens_cons]
    simp only [parseStep, afterValue, firstSome]
    rw [parse_value v _ _ _ h1]
    simp only [complete, afterValue, firstSome]
    rw [parse_moreMembers ms ((k, v) :: acc) stack ts res h2, ← hR]
    simp only [List.reverse_cons, List.append_assoc, List.singleton_append]
end

/-- The tokens of a value of bounded depth are parsed to that value. -/
theorem parseTokens_tokensOf (v : JValue) (h : depth v ≤ maxNestingDepth) :
    parseTokens (tokensOf v) [] Expect.value none = some v := by
  have := parse_value v [] [] none (by simpa using h)
  rw [List.append_nil] at this
  rw [this]
  simp only [complete, afterValue, firstSome, parseTokens]

/-! ## The grammar over the tokens: what is parsed is a value -/

theorem moreElems_append (xs ys : List JValue) :
    moreElems (xs ++ ys) = moreElems xs ++ moreElems ys := by
  induction xs with
  | nil => simp [moreElems]
  | cons x xs ih => simp [moreElems, ih]

theorem moreMembers_append (xs ys : List (List Nat × JValue)) :
    moreMembers (xs ++ ys) = moreMembers xs ++ moreMembers ys := by
  induction xs with
  | nil => simp [moreMembers]
  | cons x xs ih =>
    obtain ⟨k, v⟩ := x
    simp [moreMembers, ih]

theorem elemTokens_snoc (x : JValue) (xs : List JValue) (v : JValue) :
    elemTokens ((x :: xs) ++ [v]) = elemTokens (x :: xs) ++ Token.comma :: tokensOf v := by
  simp [elemTokens, moreElems_append, moreElems]

theorem memberTokens_snoc (x : List Nat × JValue) (xs : List (List Nat × JValue))
    (k : List Nat) (v : JValue) :
    memberTokens ((x :: xs) ++ [(k, v)])
      = memberTokens (x :: xs) ++ Token.comma :: Token.str k :: Token.colon :: tokensOf v := by
  obtain ⟨k0, v0⟩ := x
  simp [memberTokens, moreMembers_append, moreMembers]

theorem tokensOf_array (vs : List JValue) :
    tokensOf (JValue.array vs) = Token.lbracket :: elemTokens vs ++ [Token.rbracket] := by
  cases vs with
  | nil => simp [tokensOf, elemTokens]
  | cons v vs => simp [tokensOf, elemTokens]

theorem tokensOf_object (ms : List (List Nat × JValue)) :
    tokensOf (JValue.object ms) = Token.lbrace :: memberTokens ms ++ [Token.rbrace] := by
  cases ms with
  | nil => simp [tokensOf, memberTokens]
  | cons m ms =>
    obtain ⟨k, v⟩ := m
    simp [tokensOf, memberTokens]

theorem reverse_cons_ne_nil {α : Type} (x : α) (xs : List α) :
    ∃ y ys, (x :: xs).reverse = y :: ys := by
  cases h : (x :: xs).reverse with
  | nil => simp at h
  | cons y ys => exact ⟨y, ys, rfl⟩

/-- A value completed while every open frame waits for one. -/
theorem Parsed_complete (v : JValue) (stack : List Frame) (res : Option JValue)
    (h : Awaiting stack) (stack' : List Frame) (ex' : Expect) (r : Option JValue)
    (hc : complete v stack = some (stack', ex', r)) :
    Parsed stack' ex' (firstSome r res)
      (awaiting stack ++ tokensOf v) := by
  match stack, h with
  | [], _ =>
    simp only [complete, Option.some.injEq, Prod.mk.injEq] at hc
    obtain ⟨rfl, rfl, rfl⟩ := hc
    simpa [awaiting, firstSome] using Parsed.done v
  | Frame.arr [] :: rest, h =>
    simp only [complete, Option.some.injEq, Prod.mk.injEq] at hc
    obtain ⟨rfl, rfl, rfl⟩ := hc
    have := Parsed.arrEnd v [] rest res h
    simpa [awaiting, elemTokens, moreElems] using this
  | Frame.arr (w :: acc) :: rest, h =>
    simp only [complete, Option.some.injEq, Prod.mk.injEq] at hc
    obtain ⟨rfl, rfl, rfl⟩ := hc
    have := Parsed.arrEnd v (w :: acc) rest res h
    obtain ⟨y, ys, hy⟩ := reverse_cons_ne_nil w acc
    have e : (v :: w :: acc).reverse = (y :: ys) ++ [v] := by
      rw [← hy]; simp
    rw [e, elemTokens_snoc] at this
    simpa [awaiting, hy] using this
  | Frame.obj [] (some k) :: rest, h =>
    simp only [complete, Option.some.injEq, Prod.mk.injEq] at hc
    obtain ⟨rfl, rfl, rfl⟩ := hc
    have := Parsed.objEnd (k, v) [] rest res h
    simpa [awaiting, memberTokens, moreMembers] using this
  | Frame.obj (m :: acc) (some k) :: rest, h =>
    simp only [complete, Option.some.injEq, Prod.mk.injEq] at hc
    obtain ⟨rfl, rfl, rfl⟩ := hc
    have := Parsed.objEnd (k, v) (m :: acc) rest res h
    obtain ⟨y, ys, hy⟩ := reverse_cons_ne_nil m acc
    have e : ((k, v) :: m :: acc).reverse = (y :: ys) ++ [(k, v)] := by
      rw [← hy]; simp
    rw [e, memberTokens_snoc] at this
    simpa [awaiting, hy] using this

theorem Parsed_beginValue (t : Token) (stack : List Frame) (res : Option JValue)
    (h : Awaiting stack) (stack' : List Frame) (ex' : Expect) (r : Option JValue)
    (hb : beginValue t stack = some (stack', ex', r)) :
    Parsed stack' ex' (firstSome r res)
      (awaiting stack ++ [t]) := by
  cases t with
  | str raw => exact Parsed_complete (JValue.string raw) stack res h stack' ex' r hb
  | num => exact Parsed_complete JValue.number stack res h stack' ex' r hb
  | tru => exact Parsed_complete (JValue.bool true) stack res h stack' ex' r hb
  | fls => exact Parsed_complete (JValue.bool false) stack res h stack' ex' r hb
  | nul => exact Parsed_complete JValue.null stack res h stack' ex' r hb
  | lbracket =>
    simp only [beginValue] at hb
    split at hb
    · simp only [Option.some.injEq, Prod.mk.injEq] at hb
      obtain ⟨rfl, rfl, rfl⟩ := hb
      exact Parsed.valueOrEnd stack res h
    · cases hb
  | lbrace =>
    simp only [beginValue] at hb
    split at hb
    · simp only [Option.some.injEq, Prod.mk.injEq] at hb
      obtain ⟨rfl, rfl, rfl⟩ := hb
      exact Parsed.keyOrEnd stack res h
    · cases hb
  | rbracket => simp [beginValue] at hb
  | rbrace => simp [beginValue] at hb
  | comma => simp [beginValue] at hb
  | colon => simp [beginValue] at hb

/-- One step of `parseTokens` keeps the account of the tokens read. -/
theorem Parsed_step (t : Token) (stack : List Frame) (ex : Expect) (res : Option JValue)
    (pre : List Token) (h : Parsed stack ex res pre)
    (stack' : List Frame) (ex' : Expect) (r : Option JValue)
    (hs : parseStep t stack ex = some (stack', ex', r)) :
    Parsed stack' ex' (firstSome r res) (pre ++ [t]) := by
  cases h with
  | value _ _ hw =>
    have : parseStep t stack Expect.value = beginValue t stack := by
      simp only [parseStep]
    rw [this] at hs
    exact Parsed_beginValue t stack res hw stack' ex' r hs
  | valueOrEnd rest _ hw =>
    by_cases ht : t = Token.rbracket
    · subst ht
      simp only [parseStep, List.reverse_nil] at hs
      have := Parsed_complete (JValue.array []) rest res hw stack' ex' r hs
      simpa [tokensOf] using this
    · have hb : parseStep t (Frame.arr [] :: rest) Expect.valueOrEnd
          = beginValue t (Frame.arr [] :: rest) := by
        cases t with
        | rbracket => exact absurd rfl ht
        | _ => simp only [parseStep]
      rw [hb] at hs
      have := Parsed_beginValue t (Frame.arr [] :: rest) res hw stack' ex' r hs
      simpa [awaiting] using this
  | key m acc rest _ hw =>
    cases t with
    | str raw =>
      simp only [parseStep, Option.some.injEq, Prod.mk.injEq] at hs
      obtain ⟨rfl, rfl, rfl⟩ := hs
      have := Parsed.colonNext m acc raw rest res hw
      simpa [firstSome] using this
    | _ => simp [parseStep] at hs
  | keyOrEnd rest _ hw =>
    cases t with
    | str raw =>
      simp only [parseStep, Option.some.injEq, Prod.mk.injEq] at hs
      obtain ⟨rfl, rfl, rfl⟩ := hs
      have := Parsed.colonFirst raw rest res hw
      simpa [firstSome] using this
    | rbrace =>
      simp only [parseStep, List.reverse_nil] at hs
      have := Parsed_complete (JValue.object []) rest res hw stack' ex' r hs
      simpa [tokensOf] using this
    | _ => simp [parseStep] at hs
  | colonFirst k rest _ hw =>
    cases t with
    | colon =>
      simp only [parseStep, Option.some.injEq, Prod.mk.injEq] at hs
      obtain ⟨rfl, rfl, rfl⟩ := hs
      have := Parsed.value (Frame.obj [] (some k) :: rest) res hw
      simpa [firstSome, awaiting] using this
    | _ => simp [parseStep] at hs
  | colonNext m acc k rest _ hw =>
    cases t with
    | colon =>
      simp only [parseStep, Option.some.injEq, Prod.mk.injEq] at hs
      obtain ⟨rfl, rfl, rfl⟩ := hs
      have := Parsed.value (Frame.obj (m :: acc) (some k) :: rest) res hw
      simpa [firstSome, awaiting] using this
    | _ => simp [parseStep] at hs
  | arrEnd v acc rest _ hw =>
    cases t with
    | comma =>
      simp only [parseStep, Option.some.injEq, Prod.mk.injEq] at hs
      obtain ⟨rfl, rfl, rfl⟩ := hs
      have := Parsed.value (Frame.arr (v :: acc) :: rest) res hw
      simpa [firstSome, awaiting] using this
    | rbracket =>
      simp only [parseStep] at hs
      have := Parsed_complete (JValue.array (v :: acc).reverse) rest res hw stack' ex' r hs
      simpa [tokensOf_array] using this
    | _ => simp [parseStep] at hs
  | objEnd m acc rest _ hw =>
    cases t with
    | comma =>
      simp only [parseStep, Option.some.injEq, Prod.mk.injEq] at hs
      obtain ⟨rfl, rfl, rfl⟩ := hs
      have := Parsed.key m acc rest res hw
      simpa [firstSome] using this
    | rbrace =>
      simp only [parseStep] at hs
      have := Parsed_complete (JValue.object (m :: acc).reverse) rest res hw stack' ex' r hs
      simpa [tokensOf_object] using this
    | _ => simp [parseStep] at hs
  | done v => simp [parseStep] at hs

theorem parseTokens_sound :
    ∀ (ts : List Token) (stack : List Frame) (ex : Expect) (res : Option JValue)
      (pre : List Token) (v : JValue), Parsed stack ex res pre →
      parseTokens ts stack ex res = some v → pre ++ ts = tokensOf v := by
  intro ts
  induction ts with
  | nil =>
    intro stack ex res pre v h hp
    cases h with
    | done w =>
      simp only [parseTokens, Option.some.injEq] at hp
      rw [List.append_nil, hp]
    | _ => simp [parseTokens] at hp
  | cons t ts ih =>
    intro stack ex res pre v h hp
    rw [parseTokens_cons] at hp
    cases hs : parseStep t stack ex with
    | none =>
      rw [hs] at hp
      simp [afterValue] at hp
    | some c =>
      obtain ⟨stack', ex', r⟩ := c
      rw [hs] at hp
      simp only [afterValue] at hp
      have := ih stack' ex' (firstSome r res) (pre ++ [t]) v
        (Parsed_step t stack ex res pre h stack' ex' r hs) hp
      simpa using this

/-- The tokens that `parseTokens` accepts are the tokens of the value it
returns. -/
theorem parseTokens_tokens (toks : List Token) (v : JValue)
    (h : parseTokens toks [] Expect.value none = some v) : toks = tokensOf v := by
  have := parseTokens_sound toks [] Expect.value none [] v
    (by simpa [awaiting] using Parsed.value [] none trivial) h
  simpa using this

/-! ## The scanner on strings -/

theorem lex_string_complete (body : List Nat) (h : StringBody body) :
    ∀ (acc s : List Nat), lex (LexState.str StrState.normal acc) (body ++ 0x22 :: s)
      = (lex LexState.start s).map (fun r => Token.str (acc.reverse ++ body) :: r) := by
  induction h with
  | nil =>
    intro acc s
    simp only [List.nil_append, lex, if_true, List.append_nil]
  | cons item rest hi _ ih =>
    intro acc s
    cases hi with
    | plain c h1 h2 h3 =>
      have h4 : ¬ c < 0x20 := by omega
      have e : [c] ++ rest ++ 0x22 :: s = c :: (rest ++ 0x22 :: s) := rfl
      rw [e, lex, if_neg h2, if_neg h3, if_neg h4, ih]
      simp
    | escape e he =>
      have he' : e = 0x62 ∨ e = 0x66 ∨ e = 0x6E ∨ e = 0x72 ∨ e = 0x74 ∨ e = 0x5C ∨ e = 0x2F
          ∨ e = 0x22 := by omega
      have e1 : [0x5C, e] ++ rest ++ 0x22 :: s = 0x5C :: e :: (rest ++ 0x22 :: s) := rfl
      rw [e1, lex, if_neg (by decide), if_pos rfl, lex, if_pos he', ih]
      simp
    | unicode a b c d ha hb hc hd =>
      have e1 : [0x5C, 0x75, a, b, c, d] ++ rest ++ 0x22 :: s
          = 0x5C :: 0x75 :: a :: b :: c :: d :: (rest ++ 0x22 :: s) := rfl
      rw [e1, lex, if_neg (by decide), if_pos rfl, lex, if_neg (by decide), if_pos rfl,
        lex, if_pos ha, if_neg (by decide), lex, if_pos hb, if_neg (by decide),
        lex, if_pos hc, if_neg (by decide), lex, if_pos hd, if_pos (by decide), ih]
      simp

theorem lex_string_sound :
    ∀ (n : Nat) (cs acc : List Nat) (toks : List Token), cs.length ≤ n →
      lex (LexState.str StrState.normal acc) cs = some toks →
      ∃ body rest r, cs = body ++ 0x22 :: rest ∧ StringBody body ∧
        lex LexState.start rest = some r ∧ toks = Token.str (acc.reverse ++ body) :: r := by
  intro n
  induction n with
  | zero =>
    intro cs acc toks hn h
    have : cs = [] := List.eq_nil_of_length_eq_zero (by omega)
    subst this
    simp [lex] at h
  | succ n ih =>
    intro cs acc toks hn h
    cases cs with
    | nil => simp [lex] at h
    | cons c cs =>
      simp only [List.length_cons] at hn
      rw [lex] at h
      by_cases hq : c = 0x22
      · rw [if_pos hq] at h
        obtain ⟨r, hr, rfl⟩ := Option.map_eq_some'.mp h
        exact ⟨[], cs, r, by simp [hq], StringBody.nil, hr, by simp⟩
      · rw [if_neg hq] at h
        by_cases hb : c = 0x5C
        · rw [if_pos hb] at h
          subst hb
          cases cs with
          | nil => simp [lex] at h
          | cons e cs =>
            simp only [List.length_cons] at hn
            rw [lex] at h
            by_cases he : e = 0x62 ∨ e = 0x66 ∨ e = 0x6E ∨ e = 0x72 ∨ e = 0x74 ∨ e = 0x5C
                ∨ e = 0x2F ∨ e = 0x22
            · rw [if_pos he] at h
              obtain ⟨body, rest, r, h1, h2, h3, h4⟩ := ih cs _ toks (by omega) h
              refine ⟨[0x5C, e] ++ body, rest, r, by simp [h1],
                StringBody.cons _ _ (StringItem.escape e (by omega)) h2, h3, ?_⟩
              rw [h4]; simp
            · rw [if_neg he] at h
              by_cases hu : e = 0x75
              · rw [if_pos hu] at h
                subst hu
                match cs, hn, h with
                | [], _, h => simp [lex] at h
                | [a], _, h => simp [lex] at h
                | [a, b], _, h => simp [lex] at h
                | [a, b, c], _, h => simp [lex] at h
                | a :: b :: c :: d :: cs, hn, h =>
                  simp only [List.length_cons] at hn
                  rw [lex] at h
                  by_cases ha : isHex a = true
                  · rw [if_pos ha, if_neg (by decide), lex] at h
                    by_cases hb : isHex b = true
                    · rw [if_pos hb, if_neg (by decide), lex] at h
                      by_cases hc : isHex c = true
                      · rw [if_pos hc, if_neg (by decide), lex] at h
                        by_cases hd : isHex d = true
                        · rw [if_pos hd, if_pos (by decide)] at h
                          obtain ⟨body, rest, r, h1, h2, h3, h4⟩ :=
                            ih cs _ toks (by omega) h
                          refine ⟨[0x5C, 0x75, a, b, c, d] ++ body, rest, r, by simp [h1],
                            StringBody.cons _ _ (StringItem.unicode a b c d ha hb hc hd) h2,
                            h3, ?_⟩
                          rw [h4]; simp
                        · rw [if_neg hd] at h; cases h
                      · rw [if_neg hc] at h; cases h
                    · rw [if_neg hb] at h; cases h
                  · rw [if_neg ha] at h; cases h
              · rw [if_neg hu] at h; cases h
        · rw [if_neg hb] at h
          by_cases hc : c < 0x20
          · rw [if_pos hc] at h; cases h
          · rw [if_neg hc] at h
            obtain ⟨body, rest, r, h1, h2, h3, h4⟩ := ih cs _ toks (by omega) h
            refine ⟨[c] ++ body, rest, r, by simp [h1],
              StringBody.cons _ _ (StringItem.plain c (by omega) hq hb) h2, h3, ?_⟩
            rw [h4]; simp

/-! ## The scanner on numbers -/

theorem isDigit_iff (c : Nat) : isDigit c = true ↔ 0x30 ≤ c ∧ c ≤ 0x39 := by
  simp [isDigit]

theorem Digits_cons {c : Nat} {ds : List Nat} :
    Digits (c :: ds) ↔ isDigit c = true ∧ Digits ds := by
  simp [Digits]

theorem Digits_nil : Digits [] := by
  simp [Digits]

theorem numRun_cons (sub : NumState) (c : Nat) (cs : List Nat) :
    numRun sub (c :: cs) = (numStep sub c).bind (fun s => numRun s cs) := by
  rw [numRun]
  cases numStep sub c <;> rfl

theorem run_exp_of (b : List Nat) (h : Digits b) :
    numRun NumState.exp b = some NumState.exp := by
  induction b with
  | nil => rfl
  | cons c b ih =>
    obtain ⟨h1, h2⟩ := Digits_cons.mp h
    rw [numRun_cons]
    simp only [numStep, h1, if_true, Option.some_bind]
    exact ih h2

theorem of_run_exp (b : List Nat) (s' : NumState) (h : numRun NumState.exp b = some s') :
    Digits b := by
  induction b with
  | nil => exact Digits_nil
  | cons c b ih =>
    rw [numRun_cons] at h
    simp only [numStep] at h
    by_cases hc : isDigit c = true
    · rw [if_pos hc] at h
      exact Digits_cons.mpr ⟨hc, ih h⟩
    · rw [if_neg hc] at h
      cases h

theorem run_esign_of (b : List Nat) (hne : b ≠ []) (h : Digits b) :
    numRun NumState.esign b = some NumState.exp := by
  cases b with
  | nil => exact absurd rfl hne
  | cons c b =>
    obtain ⟨h1, h2⟩ := Digits_cons.mp h
    rw [numRun_cons]
    simp only [numStep, h1, if_true, Option.some_bind]
    exact run_exp_of b h2

theorem of_run_esign (b : List Nat) (s' : NumState)
    (h : numRun NumState.esign b = some s') (ha : s'.accepting = true) :
    b ≠ [] ∧ Digits b := by
  cases b with
  | nil =>
    simp only [numRun, Option.some.injEq] at h
    subst h
    cases ha
  | cons c b =>
    rw [numRun_cons] at h
    simp only [numStep] at h
    by_cases hc : isDigit c = true
    · rw [if_pos hc] at h
      exact ⟨by simp, Digits_cons.mpr ⟨hc, of_run_exp b s' h⟩⟩
    · rw [if_neg hc] at h
      cases h

theorem run_e_of (sg ds : List Nat) (hs : IsSign sg) (hne : ds ≠ []) (h : Digits ds) :
    numRun NumState.e (sg ++ ds) = some NumState.exp := by
  rcases hs with rfl | rfl | rfl
  · cases ds with
    | nil => exact absurd rfl hne
    | cons c b =>
      obtain ⟨h1, h2⟩ := Digits_cons.mp h
      have hc := (isDigit_iff c).mp h1
      rw [List.nil_append, numRun_cons]
      simp only [numStep]
      rw [if_neg (by omega), if_pos h1]
      exact run_exp_of b h2
  · rw [List.singleton_append, numRun_cons]
    simp only [numStep, true_or, if_true, Option.some_bind]
    exact run_esign_of ds hne h
  · rw [List.singleton_append, numRun_cons]
    simp only [numStep, or_true, if_true, Option.some_bind]
    exact run_esign_of ds hne h

theorem of_run_e (b : List Nat) (s' : NumState)
    (h : numRun NumState.e b = some s') (ha : s'.accepting = true) :
    ∃ sg ds, b = sg ++ ds ∧ IsSign sg ∧ ds ≠ [] ∧ Digits ds := by
  cases b with
  | nil =>
    simp only [numRun, Option.some.injEq] at h
    subst h
    cases ha
  | cons c b =>
    rw [numRun_cons] at h
    simp only [numStep] at h
    by_cases hc : c = 0x2B ∨ c = 0x2D
    · rw [if_pos hc] at h
      obtain ⟨h1, h2⟩ := of_run_esign b s' h ha
      refine ⟨[c], b, rfl, ?_, h1, h2⟩
      rcases hc with rfl | rfl
      · exact Or.inr (Or.inl rfl)
      · exact Or.inr (Or.inr rfl)
    · rw [if_neg hc] at h
      by_cases hd : isDigit c = true
      · rw [if_pos hd] at h
        exact ⟨[], c :: b, rfl, Or.inl rfl, by simp,
          Digits_cons.mpr ⟨hd, of_run_exp b s' h⟩⟩
      · rw [if_neg hd] at h
        cases h

theorem IsExp_cons (c : Nat) (b : List Nat) :
    IsExp (c :: b) ↔ (c = 0x65 ∨ c = 0x45) ∧
      ∃ sg ds, b = sg ++ ds ∧ IsSign sg ∧ ds ≠ [] ∧ Digits ds := by
  constructor
  · intro h
    rcases h with h | ⟨e, sg, ds, h1, h2, h3, h4, h5⟩
    · cases h
    · simp only [List.cons.injEq] at h1
      obtain ⟨rfl, rfl⟩ := h1
      exact ⟨h2, sg, ds, rfl, h3, h4, h5⟩
  · rintro ⟨h2, sg, ds, rfl, h3, h4, h5⟩
    exact Or.inr ⟨c, sg, ds, rfl, h2, h3, h4, h5⟩

/-- From a state that may end the number or read an exponent. -/
theorem run_exp_tail (st : NumState) (x : List Nat) (hx : IsExp x)
    (hacc : st.accepting = true)
    (hstep : ∀ c, c = 0x65 ∨ c = 0x45 → numStep st c = some NumState.e) :
    ∃ s', numRun st x = some s' ∧ s'.accepting = true := by
  cases x with
  | nil => exact ⟨st, rfl, hacc⟩
  | cons c b =>
    obtain ⟨hc, sg, ds, rfl, h3, h4, h5⟩ := (IsExp_cons c b).mp hx
    rw [numRun_cons, hstep c hc]
    exact ⟨NumState.exp, run_e_of sg ds h3 h4 h5, rfl⟩

theorem run_frac_of (ds x : List Nat) (hd : Digits ds) (hx : IsExp x) :
    ∃ s', numRun NumState.frac (ds ++ x) = some s' ∧ s'.accepting = true := by
  induction ds with
  | nil =>
    rw [List.nil_append]
    refine run_exp_tail NumState.frac x hx rfl ?_
    intro c hc
    have hnd : ¬ (isDigit c = true) := by
      rw [isDigit_iff]; omega
    simp only [numStep]
    rw [if_neg hnd, if_pos hc]
  | cons c ds ih =>
    obtain ⟨h1, h2⟩ := Digits_cons.mp hd
    rw [List.cons_append, numRun_cons]
    simp only [numStep]
    rw [if_pos h1]
    exact ih h2

theorem of_run_frac (b : List Nat) :
    ∀ (s' : NumState), numRun NumState.frac b = some s' → s'.accepting = true →
      ∃ ds x, b = ds ++ x ∧ Digits ds ∧ IsExp x := by
  induction b with
  | nil => intro _ _ _; exact ⟨[], [], rfl, Digits_nil, Or.inl rfl⟩
  | cons c b ih =>
    intro s' h ha
    rw [numRun_cons] at h
    simp only [numStep] at h
    by_cases hd : isDigit c = true
    · rw [if_pos hd] at h
      obtain ⟨ds, x, h1, h2, h3⟩ := ih s' h ha
      exact ⟨c :: ds, x, by simp [h1], Digits_cons.mpr ⟨hd, h2⟩, h3⟩
    · rw [if_neg hd] at h
      by_cases he : c = 0x65 ∨ c = 0x45
      · rw [if_pos he] at h
        exact ⟨[], c :: b, rfl, Digits_nil, (IsExp_cons c b).mpr ⟨he, of_run_e b s' h ha⟩⟩
      · rw [if_neg he] at h
        cases h

theorem run_dot_of (ds x : List Nat) (hne : ds ≠ []) (hd : Digits ds) (hx : IsExp x) :
    ∃ s', numRun NumState.dot (ds ++ x) = some s' ∧ s'.accepting = true := by
  cases ds with
  | nil => exact absurd rfl hne
  | cons c ds =>
    obtain ⟨h1, h2⟩ := Digits_cons.mp hd
    rw [List.cons_append, numRun_cons]
    simp only [numStep]
    rw [if_pos h1]
    exact run_frac_of ds x h2 hx

theorem of_run_dot (b : List Nat) (s' : NumState)
    (h : numRun NumState.dot b = some s') (ha : s'.accepting = true) :
    ∃ ds x, b = ds ++ x ∧ ds ≠ [] ∧ Digits ds ∧ IsExp x := by
  cases b with
  | nil =>
    simp only [numRun, Option.some.injEq] at h
    subst h
    cases ha
  | cons c b =>
    rw [numRun_cons] at h
    simp only [numStep] at h
    by_cases hd : isDigit c = true
    · rw [if_pos hd] at h
      obtain ⟨ds, x, h1, h2, h3⟩ := of_run_frac b s' h ha
      exact ⟨c :: ds, x, by simp [h1], by simp, Digits_cons.mpr ⟨hd, h2⟩, h3⟩
    · rw [if_neg hd] at h
      cases h

theorem IsFrac_cons (c : Nat) (b : List Nat) :
    IsFrac (c :: b) ↔ c = 0x2E ∧ b ≠ [] ∧ Digits b := by
  constructor
  · intro h
    rcases h with h | ⟨ds, h1, h2, h3⟩
    · cases h
    · simp only [List.cons.injEq] at h1
      obtain ⟨rfl, rfl⟩ := h1
      exact ⟨rfl, h2, h3⟩
  · rintro ⟨rfl, h2, h3⟩
    exact Or.inr ⟨b, rfl, h2, h3⟩

theorem run_zero_of (f x : List Nat) (hf : IsFrac f) (hx : IsExp x) :
    ∃ s', numRun NumState.zero (f ++ x) = some s' ∧ s'.accepting = true := by
  cases f with
  | nil =>
    rw [List.nil_append]
    refine run_exp_tail NumState.zero x hx rfl ?_
    intro c hc
    simp only [numStep]
    rw [if_neg (by omega), if_pos hc]
  | cons c ds =>
    obtain ⟨rfl, h2, h3⟩ := (IsFrac_cons c ds).mp hf
    rw [List.cons_append, numRun_cons]
    simp only [numStep, if_true, Option.some_bind]
    exact run_dot_of ds x h2 h3 hx

theorem of_run_zero (b : List Nat) (s' : NumState)
    (h : numRun NumState.zero b = some s') (ha : s'.accepting = true) :
    ∃ f x, b = f ++ x ∧ IsFrac f ∧ IsExp x := by
  cases b with
  | nil => exact ⟨[], [], rfl, Or.inl rfl, Or.inl rfl⟩
  | cons c b =>
    rw [numRun_cons] at h
    simp only [numStep] at h
    by_cases hp : c = 0x2E
    · rw [if_pos hp] at h
      obtain ⟨ds, x, h1, h2, h3, h4⟩ := of_run_dot b s' h ha
      exact ⟨c :: ds, x, by simp [h1], (IsFrac_cons c ds).mpr ⟨hp, h2, h3⟩, h4⟩
    · rw [if_neg hp] at h
      by_cases he : c = 0x65 ∨ c = 0x45
      · rw [if_pos he] at h
        exact ⟨[], c :: b, rfl, Or.inl rfl, (IsExp_cons c b).mpr ⟨he, of_run_e b s' h ha⟩⟩
      · rw [if_neg he] at h
        cases h

theorem run_int_of (ds f x : List Nat) (hd : Digits ds) (hf : IsFrac f) (hx : IsExp x) :
    ∃ s', numRun NumState.int (ds ++ (f ++ x)) = some s' ∧ s'.accepting = true := by
  induction ds with
  | nil =>
    rw [List.nil_append]
    cases f with
    | nil =>
      rw [List.nil_append]
      refine run_exp_tail NumState.int x hx rfl ?_
      intro c hc
      have hnd : ¬ (isDigit c = true) := by
        rw [isDigit_iff]; omega
      simp only [numStep]
      rw [if_neg hnd, if_neg (by omega), if_pos hc]
    | cons c fs =>
      obtain ⟨rfl, h2, h3⟩ := (IsFrac_cons c fs).mp hf
      rw [List.cons_append, numRun_cons]
      simp only [numStep, if_true, Option.some_bind]
      exact run_dot_of fs x h2 h3 hx
  | cons c ds ih =>
    obtain ⟨h1, h2⟩ := Digits_cons.mp hd
    rw [List.cons_append, numRun_cons]
    simp only [numStep]
    rw [if_pos h1]
    exact ih h2

theorem of_run_int (b : List Nat) :
    ∀ (s' : NumState), numRun NumState.int b = some s' → s'.accepting = true →
      ∃ ds f x, b = ds ++ (f ++ x) ∧ Digits ds ∧ IsFrac f ∧ IsExp x := by
  induction b with
  | nil => intro _ _ _; exact ⟨[], [], [], rfl, Digits_nil, Or.inl rfl, Or.inl rfl⟩
  | cons c b ih =>
    intro s' h ha
    rw [numRun_cons] at h
    simp only [numStep] at h
    by_cases hd : isDigit c = true
    · rw [if_pos hd] at h
      obtain ⟨ds, f, x, h1, h2, h3, h4⟩ := ih s' h ha
      exact ⟨c :: ds, f, x, by simp [h1], Digits_cons.mpr ⟨hd, h2⟩, h3, h4⟩
    · rw [if_neg hd] at h
      by_cases hp : c = 0x2E
      · rw [if_pos hp] at h
        obtain ⟨ds, x, h1, h2, h3, h4⟩ := of_run_dot b s' h ha
        exact ⟨[], c :: ds, x, by simp [h1], Digits_nil,
          (IsFrac_cons c ds).mpr ⟨hp, h2, h3⟩, h4⟩
      · rw [if_neg hp] at h
        by_cases he : c = 0x65 ∨ c = 0x45
        · rw [if_pos he] at h
          exact ⟨[], [], c :: b, rfl, Digits_nil, Or.inl rfl,
            (IsExp_cons c b).mpr ⟨he, of_run_e b s' h ha⟩⟩
        · rw [if_neg he] at h
          cases h

theorem run_neg_of (i f x : List Nat) (hi : IsInt i) (hf : IsFrac f) (hx : IsExp x) :
    ∃ s', numRun NumState.neg (i ++ (f ++ x)) = some s' ∧ s'.accepting = true := by
  rcases hi with rfl | ⟨d, ds, rfl, h1, h2, h3⟩
  · rw [List.singleton_append, numRun_cons]
    simp only [numStep, if_true, Option.some_bind]
    exact run_zero_of f x hf hx
  · rw [List.cons_append, numRun_cons]
    simp only [numStep]
    rw [if_neg (by omega), if_pos ⟨h1, h2⟩]
    exact run_int_of ds f x h3 hf hx

theorem of_run_neg (b : List Nat) (s' : NumState)
    (h : numRun NumState.neg b = some s') (ha : s'.accepting = true) :
    ∃ i f x, b = i ++ (f ++ x) ∧ IsInt i ∧ IsFrac f ∧ IsExp x := by
  cases b with
  | nil =>
    simp only [numRun, Option.some.injEq] at h
    subst h
    cases ha
  | cons c b =>
    rw [numRun_cons] at h
    simp only [numStep] at h
    by_cases hz : c = 0x30
    · rw [if_pos hz] at h
      obtain ⟨f, x, h1, h2, h3⟩ := of_run_zero b s' h ha
      exact ⟨[c], f, x, by simp [h1], Or.inl (by rw [hz]), h2, h3⟩
    · rw [if_neg hz] at h
      by_cases hd : 0x31 ≤ c ∧ c ≤ 0x39
      · rw [if_pos hd] at h
        obtain ⟨ds, f, x, h1, h2, h3, h4⟩ := of_run_int b s' h ha
        exact ⟨c :: ds, f, x, by simp [h1], Or.inr ⟨c, ds, rfl, hd.1, hd.2, h2⟩, h3, h4⟩
      · rw [if_neg hd] at h
        cases h

theorem lexStart_minus : lexStart 0x2D = some ([], LexState.num NumState.neg) := by
  simp [lexStart, jsonSpace]

theorem lexStart_zero : lexStart 0x30 = some ([], LexState.num NumState.zero) := by
  simp [lexStart, jsonSpace]

theorem lexStart_digit (c : Nat) (h1 : 0x31 ≤ c) (h2 : c ≤ 0x39) :
    lexStart c = some ([], LexState.num NumState.int) := by
  have hs : jsonSpace c = false := by
    simp [jsonSpace]; omega
  unfold lexStart
  rw [hs]
  rw [if_neg (by simp), if_neg (by omega), if_neg (by omega), if_neg (by omega),
    if_neg (by omega), if_neg (by omega), if_neg (by omega), if_neg (by omega),
    if_neg (by omega), if_neg (by omega), if_pos ⟨h1, h2⟩]

/-- A number of the grammar is read by the number states of the scanner. -/
theorem run_of_number (s : List Nat) (h : IsNumber s) :
    ∃ c body sub s', s = c :: body ∧ lexStart c = some ([], LexState.num sub) ∧
      numRun sub body = some s' ∧ s'.accepting = true := by
  obtain ⟨sg, i, f, x, rfl, hsg, hi, hf, hx⟩ := h
  rcases hsg with rfl | rfl
  · rcases hi with rfl | ⟨d, ds, rfl, h1, h2, h3⟩
    · obtain ⟨s', hr, ha⟩ := run_zero_of f x hf hx
      exact ⟨0x30, f ++ x, NumState.zero, s', by simp, lexStart_zero, hr, ha⟩
    · obtain ⟨s', hr, ha⟩ := run_int_of ds f x h3 hf hx
      exact ⟨d, ds ++ (f ++ x), NumState.int, s', by simp, lexStart_digit d h1 h2, hr, ha⟩
  · obtain ⟨s', hr, ha⟩ := run_neg_of i f x hi hf hx
    exact ⟨0x2D, i ++ (f ++ x), NumState.neg, s', by simp, lexStart_minus, hr, ha⟩

/-- What the number states of the scanner read is a number of the grammar. -/
theorem number_of_run (c : Nat) (body : List Nat) (sub s' : NumState)
    (hstart : lexStart c = some ([], LexState.num sub))
    (hr : numRun sub body = some s') (ha : s'.accepting = true) : IsNumber (c :: body) := by
  by_cases hm : c = 0x2D
  · subst hm
    rw [lexStart_minus] at hstart
    simp only [Option.some.injEq, Prod.mk.injEq, LexState.num.injEq, true_and] at hstart
    subst hstart
    obtain ⟨i, f, x, h1, h2, h3, h4⟩ := of_run_neg body s' hr ha
    exact ⟨[0x2D], i, f, x, by simp [h1], Or.inr rfl, h2, h3, h4⟩
  · by_cases hz : c = 0x30
    · subst hz
      rw [lexStart_zero] at hstart
      simp only [Option.some.injEq, Prod.mk.injEq, LexState.num.injEq, true_and] at hstart
      subst hstart
      obtain ⟨f, x, h1, h2, h3⟩ := of_run_zero body s' hr ha
      exact ⟨[], [0x30], f, x, by simp [h1], Or.inl rfl, Or.inl rfl, h2, h3⟩
    · by_cases hd : 0x31 ≤ c ∧ c ≤ 0x39
      · rw [lexStart_digit c hd.1 hd.2] at hstart
        simp only [Option.some.injEq, Prod.mk.injEq, LexState.num.injEq, true_and] at hstart
        subst hstart
        obtain ⟨ds, f, x, h1, h2, h3, h4⟩ := of_run_int body s' hr ha
        exact ⟨[], c :: ds, f, x, by simp [h1], Or.inl rfl,
          Or.inr ⟨c, ds, rfl, hd.1, hd.2, h2⟩, h3, h4⟩
      · exfalso
        unfold lexStart at hstart
        by_cases a0 : jsonSpace c = true
        · rw [if_pos a0] at hstart; cases hstart
        rw [if_neg a0] at hstart
        by_cases a1 : c = 0x5B
        · rw [if_pos a1] at hstart; cases hstart
        rw [if_neg a1] at hstart
        by_cases a2 : c = 0x5D
        · rw [if_pos a2] at hstart; cases hstart
        rw [if_neg a2] at hstart
        by_cases a3 : c = 0x7B
        · rw [if_pos a3] at hstart; cases hstart
        rw [if_neg a3] at hstart
        by_cases a4 : c = 0x7D
        · rw [if_pos a4] at hstart; cases hstart
        rw [if_neg a4] at hstart
        by_cases a5 : c = 0x2C
        · rw [if_pos a5] at hstart; cases hstart
        rw [if_neg a5] at hstart
        by_cases a6 : c = 0x3A
        · rw [if_pos a6] at hstart; cases hstart
        rw [if_neg a6] at hstart
        by_cases a7 : c = 0x22
        · rw [if_pos a7] at hstart; cases hstart
        rw [if_neg a7] at hstart
        rw [if_neg hm, if_neg hz, if_neg hd] at hstart
        by_cases b0 : c = 0x74
        · rw [if_pos b0] at hstart; cases hstart
        rw [if_neg b0] at hstart
        by_cases b1 : c = 0x66
        · rw [if_pos b1] at hstart; cases hstart
        rw [if_neg b1] at hstart
        by_cases b2 : c = 0x6E
        · rw [if_pos b2] at hstart; cases hstart
        rw [if_neg b2] at hstart
        cases hstart

/-! ## The scanner and the tokens of a text -/

theorem lex_start_cons (c : Nat) (cs : List Nat) :
    lex LexState.start (c :: cs)
      = (lexStart c).bind (fun p => (lex p.2 cs).map (fun r => p.1 ++ r)) := by
  rw [lex]
  cases lexStart c with
  | none => rfl
  | some p =>
    obtain ⟨toks, st⟩ := p
    rfl

theorem lex_num_stop (sub : NumState) (c : Nat) (cs : List Nat)
    (h : numStep sub c = none) (ha : sub.accepting = true) :
    lex (LexState.num sub) (c :: cs)
      = (lex LexState.start (c :: cs)).map (fun r => Token.num :: r) := by
  rw [lex_start_cons, lex, h]
  simp only [ha, if_true]
  cases lexStart c with
  | none => rfl
  | some p =>
    obtain ⟨toks, st⟩ := p
    simp only [Option.some_bind, Option.map_map]
    rfl

theorem lex_num_complete (rest : List Nat)
    (hrest : rest = [] ∨ ∃ d r, rest = d :: r ∧ ∀ st, numStep st d = none) :
    ∀ (body : List Nat) (sub s' : NumState), numRun sub body = some s' →
      s'.accepting = true →
      lex (LexState.num sub) (body ++ rest)
        = (lex LexState.start rest).map (fun r => Token.num :: r) := by
  intro body
  induction body with
  | nil =>
    intro sub s' hr ha
    simp only [numRun, Option.some.injEq] at hr
    subst hr
    rcases hrest with rfl | ⟨d, r, rfl, hd⟩
    · simp only [List.append_nil, lex, ha, if_true, Option.map_some']
    · rw [List.nil_append]
      exact lex_num_stop sub d r (hd sub) ha
  | cons c body ih =>
    intro sub s' hr ha
    rw [numRun_cons] at hr
    cases hs : numStep sub c with
    | none => rw [hs] at hr; cases hr
    | some sub1 =>
      rw [hs] at hr
      simp only [Option.some_bind] at hr
      rw [List.cons_append, lex, hs]
      exact ih sub1 s' hr ha

theorem lex_num_sound :
    ∀ (cs : List Nat) (sub : NumState) (toks : List Token),
      lex (LexState.num sub) cs = some toks →
      ∃ body rest r s', cs = body ++ rest ∧ numRun sub body = some s' ∧
        s'.accepting = true ∧ lex LexState.start rest = some r ∧ toks = Token.num :: r := by
  intro cs
  induction cs with
  | nil =>
    intro sub toks h
    rw [lex] at h
    by_cases ha : sub.accepting = true
    · rw [if_pos ha] at h
      simp only [Option.some.injEq] at h
      exact ⟨[], [], [], sub, rfl, rfl, ha, by simp [lex], h.symm⟩
    · rw [if_neg ha] at h
      cases h
  | cons c cs ih =>
    intro sub toks h
    cases hs : numStep sub c with
    | some sub1 =>
      rw [lex, hs] at h
      obtain ⟨body, rest, r, s', h1, h2, h3, h4, h5⟩ := ih sub1 toks h
      refine ⟨c :: body, rest, r, s', by simp [h1], ?_, h3, h4, h5⟩
      rw [numRun_cons, hs]
      exact h2
    | none =>
      by_cases ha : sub.accepting = true
      · rw [lex_num_stop sub c cs hs ha] at h
        obtain ⟨r, hr, rfl⟩ := Option.map_eq_some'.mp h
        exact ⟨[], c :: cs, r, sub, rfl, rfl, ha, hr, rfl⟩
      · rw [lex, hs] at h
        simp only [ha] at h
        cases h

theorem lex_lit_complete (tok : Token) (s : List Nat) :
    ∀ (e : Nat) (rest : List Nat),
      lex (LexState.lit (e :: rest) tok) ((e :: rest) ++ s)
        = (lex LexState.start s).map (fun r => tok :: r) := by
  intro e rest
  induction rest generalizing e with
  | nil =>
    rw [List.singleton_append, lex, if_pos rfl]
  | cons e2 rest ih =>
    rw [List.cons_append, lex, if_pos rfl]
    exact ih e2

theorem lex_lit_sound (tok : Token) :
    ∀ (rest : List Nat) (e : Nat) (cs : List Nat) (toks : List Token),
      lex (LexState.lit (e :: rest) tok) cs = some toks →
      ∃ s r, cs = (e :: rest) ++ s ∧ lex LexState.start s = some r ∧ toks = tok :: r := by
  intro rest
  induction rest with
  | nil =>
    intro e cs toks h
    cases cs with
    | nil => simp [lex] at h
    | cons c cs =>
      rw [lex] at h
      by_cases hc : c = e
      · rw [if_pos hc] at h
        obtain ⟨r, hr, rfl⟩ := Option.map_eq_some'.mp h
        exact ⟨cs, r, by simp [hc], hr, rfl⟩
      · rw [if_neg hc] at h
        cases h
  | cons e2 rest ih =>
    intro e cs toks h
    cases cs with
    | nil => simp [lex] at h
    | cons c cs =>
      rw [lex] at h
      by_cases hc : c = e
      · rw [if_pos hc] at h
        obtain ⟨s, r, h1, h2, h3⟩ := ih e2 cs toks h
        exact ⟨s, r, by simp [hc, h1], h2, h3⟩
      · rw [if_neg hc] at h
        cases h

/-- What a byte at the beginning of a token starts. -/
theorem lexStart_cases (c : Nat) (t0 : List Token) (st : LexState)
    (h : lexStart c = some (t0, st)) :
    (jsonSpace c = true ∧ t0 = [] ∧ st = LexState.start) ∨
    (∃ tok, Lexeme [c] tok ∧ t0 = [tok] ∧ st = LexState.start) ∨
    (c = 0x22 ∧ t0 = [] ∧ st = LexState.str StrState.normal []) ∨
    (∃ sub, t0 = [] ∧ st = LexState.num sub) ∨
    (∃ tok rest e, t0 = [] ∧ st = LexState.lit (e :: rest) tok
      ∧ Lexeme (c :: e :: rest) tok) := by
  unfold lexStart at h
  by_cases a0 : jsonSpace c = true
  · rw [if_pos a0] at h
    simp only [Option.some.injEq, Prod.mk.injEq] at h
    exact Or.inl ⟨a0, h.1.symm, h.2.symm⟩
  rw [if_neg a0] at h
  by_cases s0 : c = 0x5B
  · rw [if_pos s0] at h
    simp only [Option.some.injEq, Prod.mk.injEq] at h
    subst s0
    exact Or.inr (Or.inl ⟨Token.lbracket, Lexeme.lbracket, h.1.symm, h.2.symm⟩)
  rw [if_neg s0] at h
  by_cases s1 : c = 0x5D
  · rw [if_pos s1] at h
    simp only [Option.some.injEq, Prod.mk.injEq] at h
    subst s1
    exact Or.inr (Or.inl ⟨Token.rbracket, Lexeme.rbracket, h.1.symm, h.2.symm⟩)
  rw [if_neg s1] at h
  by_cases s2 : c = 0x7B
  · rw [if_pos s2] at h
    simp only [Option.some.injEq, Prod.mk.injEq] at h
    subst s2
    exact Or.inr (Or.inl ⟨Token.lbrace, Lexeme.lbrace, h.1.symm, h.2.symm⟩)
  rw [if_neg s2] at h
  by_cases s3 : c = 0x7D
  · rw [if_pos s3] at h
    simp only [Option.some.injEq, Prod.mk.injEq] at h
    subst s3
    exact Or.inr (Or.inl ⟨Token.rbrace, Lexeme.rbrace, h.1.symm, h.2.symm⟩)
  rw [if_neg s3] at h
  by_cases s4 : c = 0x2C
  · rw [if_pos s4] at h
    simp only [Option.some.injEq, Prod.mk.injEq] at h
    subst s4
    exact Or.inr (Or.inl ⟨Token.comma, Lexeme.comma, h.1.symm, h.2.symm⟩)
  rw [if_neg s4] at h
  by_cases s5 : c = 0x3A
  · rw [if_pos s5] at h
    simp only [Option.some.injEq, Prod.mk.injEq] at h
    subst s5
    exact Or.inr (Or.inl ⟨Token.colon, Lexeme.colon, h.1.symm, h.2.symm⟩)
  rw [if_neg s5] at h
  by_cases q : c = 0x22
  · rw [if_pos q] at h
    simp only [Option.some.injEq, Prod.mk.injEq] at h
    exact Or.inr (Or.inr (Or.inl ⟨q, h.1.symm, h.2.symm⟩))
  rw [if_neg q] at h
  by_cases n0 : c = 0x2D
  · rw [if_pos n0] at h
    simp only [Option.some.injEq, Prod.mk.injEq] at h
    exact Or.inr (Or.inr (Or.inr (Or.inl ⟨_, h.1.symm, h.2.symm⟩)))
  rw [if_neg n0] at h
  by_cases n1 : c = 0x30
  · rw [if_pos n1] at h
    simp only [Option.some.injEq, Prod.mk.injEq] at h
    exact Or.inr (Or.inr (Or.inr (Or.inl ⟨_, h.1.symm, h.2.symm⟩)))
  rw [if_neg n1] at h
  by_cases n2 : 0x31 ≤ c ∧ c ≤ 0x39
  · rw [if_pos n2] at h
    simp only [Option.some.injEq, Prod.mk.injEq] at h
    exact Or.inr (Or.inr (Or.inr (Or.inl ⟨_, h.1.symm, h.2.symm⟩)))
  rw [if_neg n2] at h
  by_cases l0 : c = 0x74
  · rw [if_pos l0] at h
    simp only [Option.some.injEq, Prod.mk.injEq] at h
    subst l0
    exact Or.inr (Or.inr (Or.inr (Or.inr ⟨Token.tru, [0x75, 0x65], 0x72, h.1.symm, h.2.symm, Lexeme.tru⟩)))
  rw [if_neg l0] at h
  by_cases l1 : c = 0x66
  · rw [if_pos l1] at h
    simp only [Option.some.injEq, Prod.mk.injEq] at h
    subst l1
    exact Or.inr (Or.inr (Or.inr (Or.inr ⟨Token.fls, [0x6C, 0x73, 0x65], 0x61, h.1.symm, h.2.symm, Lexeme.fls⟩)))
  rw [if_neg l1] at h
  by_cases l2 : c = 0x6E
  · rw [if_pos l2] at h
    simp only [Option.some.injEq, Prod.mk.injEq] at h
    subst l2
    exact Or.inr (Or.inr (Or.inr (Or.inr ⟨Token.nul, [0x6C, 0x6C], 0x75, h.1.symm, h.2.symm, Lexeme.nul⟩)))
  rw [if_neg l2] at h
  cases h

/-- The scanner is sound: the text it accepts is its tokens one after
another, with white space between them. -/
theorem lex_sound :
    ∀ (n : Nat) (s : List Nat) (toks : List Token), s.length ≤ n →
      lex LexState.start s = some toks → Tokenizes s toks := by
  intro n
  induction n with
  | zero =>
    intro s toks hn h
    have : s = [] := List.eq_nil_of_length_eq_zero (by omega)
    subst this
    simp only [lex, Option.some.injEq] at h
    subst h
    exact Tokenizes.nil
  | succ n ih =>
    intro s toks hn h
    cases s with
    | nil =>
      simp only [lex, Option.some.injEq] at h
      subst h
      exact Tokenizes.nil
    | cons c cs =>
      simp only [List.length_cons] at hn
      rw [lex_start_cons] at h
      cases hst : lexStart c with
      | none => rw [hst] at h; cases h
      | some p =>
        obtain ⟨t0, st⟩ := p
        rw [hst] at h
        simp only [Option.some_bind] at h
        obtain ⟨r, hr, rfl⟩ := Option.map_eq_some'.mp h
        rcases lexStart_cases c t0 st hst with ⟨hs, rfl, rfl⟩ | ⟨tok, hl, rfl, rfl⟩ |
            ⟨rfl, rfl, rfl⟩ | ⟨sub, rfl, rfl⟩ | ⟨tok, rest, e, rfl, rfl, hl⟩
        · exact Tokenizes.space c cs r hs (ih cs r (by omega) hr)
        · exact Tokenizes.lexeme [c] tok cs r hl (ih cs r (by omega) hr)
        · obtain ⟨body, rest, r', h1, h2, h3, h4⟩ := lex_string_sound cs.length cs [] r
            (le_refl _) hr
          have hlen : rest.length ≤ n := by
            have := congrArg List.length h1
            simp only [List.length_append, List.length_cons] at this
            omega
          have := Tokenizes.lexeme (0x22 :: body ++ [0x22]) (Token.str body) rest r'
            (Lexeme.str body h2) (ih rest r' hlen h3)
          rw [h4, h1]
          simpa using this
        · obtain ⟨body, rest, r', s', h1, h2, h3, h4, h5⟩ := lex_num_sound cs sub r hr
          have hlen : rest.length ≤ n := by
            have := congrArg List.length h1
            simp only [List.length_append] at this
            omega
          have := Tokenizes.lexeme (c :: body) Token.num rest r'
            (Lexeme.num _ (number_of_run c body sub s' hst h2 h3)) (ih rest r' hlen h4)
          rw [h5, h1]
          simpa using this
        · obtain ⟨s2, r', h1, h2, h3⟩ := lex_lit_sound tok rest e cs r hr
          have hlen : s2.length ≤ n := by
            have := congrArg List.length h1
            simp only [List.length_append, List.length_cons] at this
            omega
          have := Tokenizes.lexeme (c :: e :: rest) tok s2 r' hl (ih s2 r' hlen h2)
          rw [h3, h1]
          simpa using this

theorem numStep_none (c : Nat) (h1 : ¬ (0x30 ≤ c ∧ c ≤ 0x39)) (h2 : c ≠ 0x2E)
    (h3 : c ≠ 0x65) (h4 : c ≠ 0x45) (h5 : c ≠ 0x2B) (h6 : c ≠ 0x2D) :
    ∀ st, numStep st c = none := by
  have hd : ¬ (isDigit c = true) := by
    rw [isDigit_iff]; exact h1
  intro st
  cases st
  · simp only [numStep]
    rw [if_neg (by omega), if_neg (by omega)]
  · simp only [numStep]
    rw [if_neg h2, if_neg (by omega)]
  · simp only [numStep]
    rw [if_neg hd, if_neg h2, if_neg (by omega)]
  · simp only [numStep]
    rw [if_neg hd]
  · simp only [numStep]
    rw [if_neg hd, if_neg (by omega)]
  · simp only [numStep]
    rw [if_neg (by omega), if_neg hd]
  · simp only [numStep]
    rw [if_neg hd]
  · simp only [numStep]
    rw [if_neg hd]

theorem bytes_true : bytes "true" = [0x74, 0x72, 0x75, 0x65] := by decide

theorem bytes_false : bytes "false" = [0x66, 0x61, 0x6C, 0x73, 0x65] := by decide

theorem bytes_null : bytes "null" = [0x6E, 0x75, 0x6C, 0x6C] := by decide

/-- The text of tokens that do not begin with a number does not begin with a
byte that could continue a number. -/
theorem Tokenizes_head (s : List Nat) (toks : List Token) (h : Tokenizes s toks)
    (hn : startsNum toks = false) :
    s = [] ∨ ∃ d r, s = d :: r ∧ ∀ st, numStep st d = none := by
  cases h with
  | nil => exact Or.inl rfl
  | space c s' _ hs _ =>
    right
    refine ⟨c, s', rfl, ?_⟩
    have : ((c = 0x20 ∨ c = 0x09) ∨ c = 0x0D) ∨ c = 0x0A := by
      simpa [jsonSpace] using hs
    exact numStep_none c (by omega) (by omega) (by omega) (by omega) (by omega) (by omega)
  | lexeme l t s' toks' hl _ =>
    right
    cases hl with
    | lbracket => exact ⟨0x5B, s', rfl, numStep_none _ (by omega) (by omega) (by omega)
        (by omega) (by omega) (by omega)⟩
    | rbracket => exact ⟨0x5D, s', rfl, numStep_none _ (by omega) (by omega) (by omega)
        (by omega) (by omega) (by omega)⟩
    | lbrace => exact ⟨0x7B, s', rfl, numStep_none _ (by omega) (by omega) (by omega)
        (by omega) (by omega) (by omega)⟩
    | rbrace => exact ⟨0x7D, s', rfl, numStep_none _ (by omega) (by omega) (by omega)
        (by omega) (by omega) (by omega)⟩
    | comma => exact ⟨0x2C, s', rfl, numStep_none _ (by omega) (by omega) (by omega)
        (by omega) (by omega) (by omega)⟩
    | colon => exact ⟨0x3A, s', rfl, numStep_none _ (by omega) (by omega) (by omega)
        (by omega) (by omega) (by omega)⟩
    | str raw hb => exact ⟨0x22, raw ++ [0x22] ++ s', by simp, numStep_none _ (by omega)
        (by omega) (by omega) (by omega) (by omega) (by omega)⟩
    | num _ _ => simp [startsNum] at hn
    | tru => exact ⟨0x74, [0x72, 0x75, 0x65] ++ s', by rw [bytes_true]; rfl,
        numStep_none _ (by omega) (by omega) (by omega) (by omega) (by omega) (by omega)⟩
    | fls => exact ⟨0x66, [0x61, 0x6C, 0x73, 0x65] ++ s', by rw [bytes_false]; rfl,
        numStep_none _ (by omega) (by omega) (by omega) (by omega) (by omega) (by omega)⟩
    | nul => exact ⟨0x6E, [0x75, 0x6C, 0x6C] ++ s', by rw [bytes_null]; rfl,
        numStep_none _ (by omega) (by omega) (by omega) (by omega) (by omega) (by omega)⟩

theorem NoAdjNum_tail (t : Token) (toks : List Token) (h : NoAdjNum (t :: toks)) :
    NoAdjNum toks := by
  intro pre post e
  exact h (t :: pre) post (by rw [e]; rfl)

theorem lexStart_space (c : Nat) (h : jsonSpace c = true) :
    lexStart c = some ([], LexState.start) := by
  unfold lexStart
  rw [if_pos h]

/-- The scanner is complete: it reads the tokens of every text that is
tokens one after another in which no number follows a number at once. -/
theorem lex_complete (s : List Nat) (toks : List Token) (h : Tokenizes s toks) :
    NoAdjNum toks → lex LexState.start s = some toks := by
  induction h with
  | nil => intro _; simp [lex]
  | space c s' toks' hs _ ih =>
    intro hn
    rw [lex_start_cons, lexStart_space c hs]
    simp only [Option.some_bind, List.nil_append]
    rw [ih hn]
    rfl
  | lexeme l t s' toks' hl r ih =>
    intro hn
    have ih' := ih (NoAdjNum_tail t toks' hn)
    cases hl with
    | lbracket =>
      rw [List.singleton_append, lex_start_cons]
      simp [lexStart, jsonSpace, ih']
    | rbracket =>
      rw [List.singleton_append, lex_start_cons]
      simp [lexStart, jsonSpace, ih']
    | lbrace =>
      rw [List.singleton_append, lex_start_cons]
      simp [lexStart, jsonSpace, ih']
    | rbrace =>
      rw [List.singleton_append, lex_start_cons]
      simp [lexStart, jsonSpace, ih']
    | comma =>
      rw [List.singleton_append, lex_start_cons]
      simp [lexStart, jsonSpace, ih']
    | colon =>
      rw [List.singleton_append, lex_start_cons]
      simp [lexStart, jsonSpace, ih']
    | str raw hb =>
      have e : 0x22 :: raw ++ [0x22] ++ s' = 0x22 :: (raw ++ 0x22 :: s') := by simp
      have hq : lexStart 0x22 = some ([], LexState.str StrState.normal []) := by
        simp [lexStart, jsonSpace]
      rw [e, lex_start_cons, hq]
      simp only [Option.some_bind, List.nil_append]
      rw [lex_string_complete raw hb [] s', ih']
      simp
    | num _ hnum =>
      obtain ⟨c, body, sub, s2, rfl, hst, hrun, hacc⟩ := run_of_number l hnum
      have hrest := Tokenizes_head s' toks' r (hn [] toks' rfl)
      rw [List.cons_append, lex_start_cons, hst]
      simp only [Option.some_bind, List.nil_append]
      rw [lex_num_complete s' hrest body sub s2 hrun hacc, ih']
      simp
    | tru =>
      have hq : lexStart 0x74 = some ([], LexState.lit [0x72, 0x75, 0x65] Token.tru) := by
        simp [lexStart, jsonSpace, bytes, utf8EncodeNat]
      rw [bytes_true, List.cons_append, lex_start_cons, hq]
      simp only [Option.some_bind, List.nil_append]
      rw [lex_lit_complete Token.tru s' 0x72 [0x75, 0x65], ih']
      simp
    | fls =>
      have hq : lexStart 0x66 = some ([], LexState.lit [0x61, 0x6C, 0x73, 0x65] Token.fls) := by
        simp [lexStart, jsonSpace, bytes, utf8EncodeNat]
      rw [bytes_false, List.cons_append, lex_start_cons, hq]
      simp only [Option.some_bind, List.nil_append]
      rw [lex_lit_complete Token.fls s' 0x61 [0x6C, 0x73, 0x65], ih']
      simp
    | nul =>
      have hq : lexStart 0x6E = some ([], LexState.lit [0x75, 0x6C, 0x6C] Token.nul) := by
        simp [lexStart, jsonSpace, bytes, utf8EncodeNat]
      rw [bytes_null, List.cons_append, lex_start_cons, hq]
      simp only [Option.some_bind, List.nil_append]
      rw [lex_lit_complete Token.nul s' 0x75 [0x6C, 0x6C], ih']
      simp

/-! ## The syntax check and the grammar -/

theorem NoAdjNum_nil : NoAdjNum [] := by
  intro pre post e
  cases pre <;> cases e

theorem NoAdjNum_cons (t : Token) (toks : List Token) (h : NoAdjNum toks)
    (hs : startsNum (t :: toks) = true → startsNum toks = false) : NoAdjNum (t :: toks) := by
  intro pre post e
  cases pre with
  | nil =>
    simp only [List.nil_append, List.cons.injEq] at e
    obtain ⟨rfl, rfl⟩ := e
    exact hs rfl
  | cons p pre =>
    simp only [List.cons_append, List.cons.injEq] at e
    exact h pre post e.2

mutual
theorem noAdj_value : ∀ (v : JValue) (rest : List Token), NoAdjNum rest →
    startsNum rest = false → NoAdjNum (tokensOf v ++ rest)
  | JValue.null, rest, h, _ => NoAdjNum_cons _ _ h (fun h0 => by cases h0)
  | JValue.bool true, rest, h, _ => NoAdjNum_cons _ _ h (fun h0 => by cases h0)
  | JValue.bool false, rest, h, _ => NoAdjNum_cons _ _ h (fun h0 => by cases h0)
  | JValue.number, rest, h, hs => NoAdjNum_cons _ _ h (fun _ => hs)
  | JValue.string raw, rest, h, _ => NoAdjNum_cons _ _ h (fun h0 => by cases h0)
  | JValue.array [], rest, h, _ =>
    NoAdjNum_cons _ _ (NoAdjNum_cons _ _ h (fun h0 => by cases h0)) (fun h0 => by cases h0)
  | JValue.array (v :: vs), rest, h, _ => by
    have e : tokensOf (JValue.array (v :: vs)) ++ rest
        = Token.lbracket :: (tokensOf v ++ (moreElems vs ++ Token.rbracket :: rest)) := by
      simp only [tokensOf, List.cons_append, List.append_assoc, List.nil_append]
    rw [e]
    have h1 := noAdj_moreElems vs (Token.rbracket :: rest)
      (NoAdjNum_cons _ _ h (fun h0 => by cases h0)) rfl
    exact NoAdjNum_cons _ _ (noAdj_value v _ h1.1 h1.2) (fun h0 => by cases h0)
  | JValue.object [], rest, h, _ =>
    NoAdjNum_cons _ _ (NoAdjNum_cons _ _ h (fun h0 => by cases h0)) (fun h0 => by cases h0)
  | JValue.object ((k, v) :: ms), rest, h, _ => by
    have e : tokensOf (JValue.object ((k, v) :: ms)) ++ rest
        = Token.lbrace :: Token.str k :: Token.colon
            :: (tokensOf v ++ (moreMembers ms ++ Token.rbrace :: rest)) := by
      simp only [tokensOf, List.cons_append, List.append_assoc, List.nil_append]
    rw [e]
    have h1 := noAdj_moreMembers ms (Token.rbrace :: rest)
      (NoAdjNum_cons _ _ h (fun h0 => by cases h0)) rfl
    exact NoAdjNum_cons _ _ (NoAdjNum_cons _ _ (NoAdjNum_cons _ _
      (noAdj_value v _ h1.1 h1.2) (fun h0 => by cases h0)) (fun h0 => by cases h0))
      (fun h0 => by cases h0)
theorem noAdj_moreElems : ∀ (vs : List JValue) (rest : List Token), NoAdjNum rest →
    startsNum rest = false →
    NoAdjNum (moreElems vs ++ rest) ∧ startsNum (moreElems vs ++ rest) = false
  | [], rest, h, hs => by
    simpa only [moreElems, List.nil_append] using And.intro h hs
  | v :: vs, rest, h, hs => by
    have e : moreElems (v :: vs) ++ rest
        = Token.comma :: (tokensOf v ++ (moreElems vs ++ rest)) := by
      simp only [moreElems, List.cons_append, List.append_assoc]
    rw [e]
    have h1 := noAdj_moreElems vs rest h hs
    exact ⟨NoAdjNum_cons _ _ (noAdj_value v _ h1.1 h1.2) (fun h0 => by cases h0), rfl⟩
theorem noAdj_moreMembers : ∀ (ms : List (List Nat × JValue)) (rest : List Token),
    NoAdjNum rest → startsNum rest = false →
    NoAdjNum (moreMembers ms ++ rest) ∧ startsNum (moreMembers ms ++ rest) = false
  | [], rest, h, hs => by
    simpa only [moreMembers, List.nil_append] using And.intro h hs
  | (k, v) :: ms, rest, h, hs => by
    have e : moreMembers ((k, v) :: ms) ++ rest
        = Token.comma :: Token.str k :: Token.colon
            :: (tokensOf v ++ (moreMembers ms ++ rest)) := by
      simp only [moreMembers, List.cons_append, List.append_assoc]
    rw [e]
    have h1 := noAdj_moreMembers ms rest h hs
    exact ⟨NoAdjNum_cons _ _ (NoAdjNum_cons _ _ (NoAdjNum_cons _ _
      (noAdj_value v _ h1.1 h1.2) (fun h0 => by cases h0)) (fun h0 => by cases h0))
      (fun h0 => by cases h0), rfl⟩
end

theorem NoAdjNum_tokensOf (v : JValue) : NoAdjNum (tokensOf v) := by
  have := noAdj_value v [] NoAdjNum_nil rfl
  rwa [List.append_nil] at this

/-- The syntax check of `encoding/json` accepts only well-formed JSON: a
text it reads as a value is the tokens of that value. -/
theorem parseJSON_sound (s : List Nat) (v : JValue) (h : parseJSON s = some v) :
    JsonText s v := by
  unfold parseJSON at h
  cases hl : lex LexState.start s with
  | none => rw [hl] at h; cases h
  | some toks =>
    rw [hl] at h
    simp only [] at h
    have := parseTokens_tokens toks v h
    unfold JsonText
    rw [← this]
    exact lex_sound s.length s toks (le_refl _) hl

/-- The syntax check of `encoding/json` accepts every well-formed JSON text
of a value nested within the limit, and reads that value. -/
theorem parseJSON_complete (s : List Nat) (v : JValue) (h : JsonText s v)
    (hd : depth v ≤ maxNestingDepth) : parseJSON s = some v := by
  unfold parseJSON
  rw [lex_complete s (tokensOf v) h (NoAdjNum_tokensOf v)]
  exact parseTokens_tokensOf v hd


/-! ## The nesting limit -/

theorem depthElems_append (xs ys : List JValue) :
    depthElems (xs ++ ys) = max (depthElems xs) (depthElems ys) := by
  induction xs with
  | nil => simp [depthElems]
  | cons x xs ih => simp [depthElems, ih, max_assoc]

theorem depthElems_reverse (xs : List JValue) : depthElems xs.reverse = depthElems xs := by
  induction xs with
  | nil => rfl
  | cons x xs ih =>
    simp [depthElems_append, depthElems, ih, max_comm]

theorem depthMembers_append (xs ys : List (List Nat × JValue)) :
    depthMembers (xs ++ ys) = max (depthMembers xs) (depthMembers ys) := by
  induction xs with
  | nil => simp [depthMembers]
  | cons x xs ih =>
    obtain ⟨k, v⟩ := x
    simp [depthMembers, ih, max_assoc]

theorem depthMembers_reverse (xs : List (List Nat × JValue)) :
    depthMembers xs.reverse = depthMembers xs := by
  induction xs with
  | nil => rfl
  | cons x xs ih =>
    obtain ⟨k, v⟩ := x
    simp [depthMembers_append, depthMembers, ih, max_comm]

/-- A value that fits above the stack is completed into a shallow stack. -/
theorem Shallow_complete (v : JValue) (stack : List Frame) (hs : Shallow stack)
    (hv : depth v + stack.length ≤ maxNestingDepth)
    (stack' : List Frame) (ex' : Expect) (r : Option JValue)
    (hc : complete v stack = some (stack', ex', r)) :
    Shallow stack' ∧ ∀ w, r = some w → depth w ≤ maxNestingDepth := by
  match stack, hs, hv, hc with
  | [], _, hv, hc =>
    simp only [complete, Option.some.injEq, Prod.mk.injEq] at hc
    obtain ⟨rfl, rfl, rfl⟩ := hc
    refine ⟨trivial, ?_⟩
    intro w hw
    simp only [Option.some.injEq] at hw
    subst hw
    simpa using hv
  | Frame.arr acc :: rest, hs, hv, hc =>
    simp only [complete, Option.some.injEq, Prod.mk.injEq] at hc
    obtain ⟨rfl, rfl, rfl⟩ := hc
    simp only [Shallow, frameFits, List.length_cons, depthElems] at hs hv ⊢
    refine ⟨⟨⟨hs.1.1, ?_⟩, hs.2⟩, fun w hw => by cases hw⟩
    have := hs.1.2
    omega
  | Frame.obj acc (some k) :: rest, hs, hv, hc =>
    simp only [complete, Option.some.injEq, Prod.mk.injEq] at hc
    obtain ⟨rfl, rfl, rfl⟩ := hc
    simp only [Shallow, frameFits, List.length_cons, depthMembers] at hs hv ⊢
    refine ⟨⟨⟨hs.1.1, ?_⟩, hs.2⟩, fun w hw => by cases hw⟩
    have := hs.1.2
    omega
  | Frame.obj acc none :: rest, _, _, hc => simp [complete] at hc

theorem Shallow_length (stack : List Frame) (hs : Shallow stack) :
    stack.length ≤ maxNestingDepth := by
  cases stack with
  | nil => simp
  | cons f rest =>
    simp only [Shallow] at hs
    cases f with
    | arr acc => exact hs.1.1
    | obj acc k => exact hs.1.1

theorem Shallow_beginValue (t : Token) (stack : List Frame) (hs : Shallow stack)
    (stack' : List Frame) (ex' : Expect) (r : Option JValue)
    (hb : beginValue t stack = some (stack', ex', r)) :
    Shallow stack' ∧ ∀ w, r = some w → depth w ≤ maxNestingDepth := by
  have hl := Shallow_length stack hs
  cases t with
  | str raw => exact Shallow_complete _ stack hs (by simpa [depth] using hl) stack' ex' r hb
  | num => exact Shallow_complete _ stack hs (by simpa [depth] using hl) stack' ex' r hb
  | tru => exact Shallow_complete _ stack hs (by simpa [depth] using hl) stack' ex' r hb
  | fls => exact Shallow_complete _ stack hs (by simpa [depth] using hl) stack' ex' r hb
  | nul => exact Shallow_complete _ stack hs (by simpa [depth] using hl) stack' ex' r hb
  | lbracket =>
    simp only [beginValue] at hb
    split at hb
    · rename_i hlt
      simp only [Option.some.injEq, Prod.mk.injEq] at hb
      obtain ⟨rfl, rfl, rfl⟩ := hb
      refine ⟨?_, fun w hw => by cases hw⟩
      simp only [Shallow, frameFits, depthElems]
      exact ⟨⟨by omega, by omega⟩, hs⟩
    · cases hb
  | lbrace =>
    simp only [beginValue] at hb
    split at hb
    · rename_i hlt
      simp only [Option.some.injEq, Prod.mk.injEq] at hb
      obtain ⟨rfl, rfl, rfl⟩ := hb
      refine ⟨?_, fun w hw => by cases hw⟩
      simp only [Shallow, frameFits, depthMembers]
      exact ⟨⟨by omega, by omega⟩, hs⟩
    · cases hb
  | rbracket => simp [beginValue] at hb
  | rbrace => simp [beginValue] at hb
  | comma => simp [beginValue] at hb
  | colon => simp [beginValue] at hb

theorem Shallow_close_arr (elems : List JValue) (stack : List Frame)
    (hs : Shallow (Frame.arr elems :: stack))
    (stack' : List Frame) (ex' : Expect) (r : Option JValue)
    (hc : complete (JValue.array elems.reverse) stack = some (stack', ex', r)) :
    Shallow stack' ∧ ∀ w, r = some w → depth w ≤ maxNestingDepth := by
  simp only [Shallow, frameFits] at hs
  refine Shallow_complete _ stack hs.2 ?_ stack' ex' r hc
  simp only [depth, depthElems_reverse]
  have := hs.1.2
  omega

theorem Shallow_close_obj (members : List (List Nat × JValue)) (k : Option (List Nat))
    (stack : List Frame) (hs : Shallow (Frame.obj members k :: stack))
    (stack' : List Frame) (ex' : Expect) (r : Option JValue)
    (hc : complete (JValue.object members.reverse) stack = some (stack', ex', r)) :
    Shallow stack' ∧ ∀ w, r = some w → depth w ≤ maxNestingDepth := by
  simp only [Shallow, frameFits] at hs
  refine Shallow_complete _ stack hs.2 ?_ stack' ex' r hc
  simp only [depth, depthMembers_reverse]
  have := hs.1.2
  omega

/-- One step of `parseTokens` keeps the stack shallow, and the value it
gives at the top level is within the nesting limit. -/
theorem Shallow_step (t : Token) (stack : List Frame) (ex : Expect)
    (hsh : Shallow stack) (stack' : List Frame) (ex' : Expect) (r : Option JValue)
    (hs : parseStep t stack ex = some (stack', ex', r)) :
    Shallow stack' ∧ ∀ w, r = some w → depth w ≤ maxNestingDepth := by
  unfold parseStep at hs
  split at hs
  · exact Shallow_beginValue _ _ hsh stack' ex' r hs
  · exact Shallow_close_arr _ _ hsh stack' ex' r hs
  · exact Shallow_beginValue _ _ hsh stack' ex' r hs
  · simp only [Option.some.injEq, Prod.mk.injEq] at hs
    obtain ⟨rfl, rfl, rfl⟩ := hs
    exact ⟨by simpa [Shallow, frameFits] using hsh, fun w hw => by cases hw⟩
  · simp only [Option.some.injEq, Prod.mk.injEq] at hs
    obtain ⟨rfl, rfl, rfl⟩ := hs
    exact ⟨by simpa [Shallow, frameFits] using hsh, fun w hw => by cases hw⟩
  · exact Shallow_close_obj _ _ _ hsh stack' ex' r hs
  · simp only [Option.some.injEq, Prod.mk.injEq] at hs
    obtain ⟨rfl, rfl, rfl⟩ := hs
    exact ⟨hsh, fun w hw => by cases hw⟩
  · simp only [Option.some.injEq, Prod.mk.injEq] at hs
    obtain ⟨rfl, rfl, rfl⟩ := hs
    exact ⟨hsh, fun w hw => by cases hw⟩
  · simp only [Option.some.injEq, Prod.mk.injEq] at hs
    obtain ⟨rfl, rfl, rfl⟩ := hs
    exact ⟨hsh, fun w hw => by cases hw⟩
  · exact Shallow_close_arr _ _ hsh stack' ex' r hs
  · exact Shallow_close_obj _ _ _ hsh stack' ex' r hs
  · cases hs

theorem parseTokens_shallow :
    ∀ (ts : List Token) (stack : List Frame) (ex : Expect) (res : Option JValue)
      (v : JValue), Shallow stack → (∀ w, res = some w → depth w ≤ maxNestingDepth) →
      parseTokens ts stack ex res = some v → depth v ≤ maxNestingDepth := by
  intro ts
  induction ts with
  | nil =>
    intro stack ex res v _ hres hp
    cases ex with
    | done =>
      simp only [parseTokens] at hp
      exact hres v hp
    | _ => simp [parseTokens] at hp
  | cons t ts ih =>
    intro stack ex res v hsh hres hp
    rw [parseTokens_cons] at hp
    cases hs : parseStep t stack ex with
    | none =>
      rw [hs] at hp
      simp [afterValue] at hp
    | some c =>
      obtain ⟨stack', ex', r⟩ := c
      rw [hs] at hp
      simp only [afterValue] at hp
      obtain ⟨h1, h2⟩ := Shallow_step t stack ex hsh stack' ex' r hs
      refine ih stack' ex' (firstSome r res) v h1 ?_ hp
      intro w hw
      cases r with
      | none => exact hres w hw
      | some x => exact h2 w hw

/-- The value that the syntax check reads is nested within the limit. -/
theorem parseJSON_depth (s : List Nat) (v : JValue) (h : parseJSON s = some v) :
    depth v ≤ maxNestingDepth := by
  unfold parseJSON at h
  cases hl : lex LexState.start s with
  | none => rw [hl] at h; cases h
  | some toks =>
    rw [hl] at h
    simp only [] at h
    exact parseTokens_shallow toks [] Expect.value none v trivial
      (fun w hw => by cases hw) h

/-! ## The decoding of a history -/

theorem decodeMember_ok (parseTime : List Nat → Option Int) (a : LegistarAction)
    (m : List Nat × JValue) (h : memberOk parseTime m = true) :
    ∃ a', decodeMember parseTime a m = some a' := by
  unfold memberOk at h
  unfold decodeMember
  cases hk : unquote m.1 with
  | none => rw [hk] at h; cases h
  | some key =>
    rw [hk] at h
    simp only at h ⊢
    by_cases h1 : fieldIs "date" key = true
    · rw [if_pos h1] at h ⊢
      have hstore : ∃ d, storeTime parseTime m.2 a.Date = some d := by
        cases hv : m.2 with
        | null => exact ⟨a.Date, rfl⟩
        | string raw =>
          rw [hv] at h
          simp only at h
          obtain ⟨d, hd⟩ := Option.isSome_iff_exists.mp h
          exact ⟨d, by simp [storeTime, hd]⟩
        | bool _ => rw [hv] at h; cases h
        | number => rw [hv] at h; cases h
        | array _ => rw [hv] at h; cases h
        | object _ => rw [hv] at h; cases h
      obtain ⟨d, hd⟩ := hstore
      rw [hd]; exact ⟨_, rfl⟩
    · rw [if_neg h1] at h ⊢
      by_cases h2 : (fieldIs "actor" key || fieldIs "action" key
          || fieldIs "committee" key) = true
      · rw [if_pos h2] at h
        have hstore : ∀ old, ∃ s, storeString m.2 old = some s := by
          intro old
          cases hv : m.2 with
          | null => exact ⟨old, rfl⟩
          | string raw =>
            rw [hv] at h
            simp only at h
            obtain ⟨s, hs⟩ := Option.isSome_iff_exists.mp h
            exact ⟨s, by simp [storeString, hs]⟩
          | bool _ => rw [hv] at h; cases h
          | number => rw [hv] at h; cases h
          | array _ => rw [hv] at h; cases h
          | object _ => rw [hv] at h; cases h
        by_cases h3 : fieldIs "actor" key = true
        · obtain ⟨s, hs⟩ := hstore a.Actor
          rw [if_pos h3, hs]; exact ⟨_, rfl⟩
        · rw [if_neg h3]
          by_cases h4 : fieldIs "action" key = true
          · obtain ⟨s, hs⟩ := hstore a.Action
            rw [if_pos h4, hs]; exact ⟨_, rfl⟩
          · rw [if_neg h4]
            by_cases h5 : fieldIs "committee" key = true
            · obtain ⟨s, hs⟩ := hstore a.Committee
              rw [if_pos h5, hs]; exact ⟨_, rfl⟩
            · rw [if_neg h5]; exact ⟨_, rfl⟩
      · have h3 : ¬ fieldIs "actor" key = true := fun hh => h2 (by simp [hh])
        have h4 : ¬ fieldIs "action" key = true := fun hh => h2 (by simp [hh])
        have h5 : ¬ fieldIs "committee" key = true := fun hh => h2 (by simp [hh])
        rw [if_neg h3, if_neg h4, if_neg h5]
        exact ⟨_, rfl⟩

theorem decodeMembers_ok (parseTime : List Nat → Option Int) :
    ∀ (ms : List (List Nat × JValue)) (a : LegistarAction),
      ms.all (memberOk parseTime) = true → ∃ a', decodeMembers parseTime a ms = some a' := by
  intro ms
  induction ms with
  | nil => intro a _; exact ⟨a, rfl⟩
  | cons m ms ih =>
    intro a h
    simp only [List.all_cons, Bool.and_eq_true] at h
    obtain ⟨a1, h1⟩ := decodeMember_ok parseTime a m h.1
    obtain ⟨a2, h2⟩ := ih a1 h.2
    exact ⟨a2, by simp [decodeMembers, h1, h2]⟩

theorem decodeMember_keeps (parseTime : List Nat → Option Int) (a a' : LegistarAction)
    (m : List Nat × JValue) (h : decodeMember parseTime a m = some a') :
    ((∀ key, unquote m.1 = some key → fieldIs "date" key = false) → a'.Date = a.Date) ∧
    ((∀ key, unquote m.1 = some key → fieldIs "actor" key = false) → a'.Actor = a.Actor) ∧
    ((∀ key, unquote m.1 = some key → fieldIs "action" key = false) → a'.Action = a.Action) ∧
    ((∀ key, unquote m.1 = some key → fieldIs "committee" key = false)
      → a'.Committee = a.Committee) := by
  unfold decodeMember at h
  cases hk : unquote m.1 with
  | none => rw [hk] at h; cases h
  | some key =>
    rw [hk] at h
    simp only at h
    by_cases h1 : fieldIs "date" key = true
    · rw [if_pos h1] at h
      obtain ⟨d, _, rfl⟩ := Option.map_eq_some'.mp h
      refine ⟨fun hab => ?_, fun _ => rfl, fun _ => rfl, fun _ => rfl⟩
      have := hab key rfl
      rw [h1] at this; cases this
    · rw [if_neg h1] at h
      by_cases h2 : fieldIs "actor" key = true
      · rw [if_pos h2] at h
        obtain ⟨d, _, rfl⟩ := Option.map_eq_some'.mp h
        refine ⟨fun _ => rfl, fun hab => ?_, fun _ => rfl, fun _ => rfl⟩
        have := hab key rfl
        rw [h2] at this; cases this
      · rw [if_neg h2] at h
        by_cases h3 : fieldIs "action" key = true
        · rw [if_pos h3] at h
          obtain ⟨d, _, rfl⟩ := Option.map_eq_some'.mp h
          refine ⟨fun _ => rfl, fun _ => rfl, fun hab => ?_, fun _ => rfl⟩
          have := hab key rfl
          rw [h3] at this; cases this
        · rw [if_neg h3] at h
          by_cases h4 : fieldIs "committee" key = true
          · rw [if_pos h4] at h
            obtain ⟨d, _, rfl⟩ := Option.map_eq_some'.mp h
            refine ⟨fun _ => rfl, fun _ => rfl, fun _ => rfl, fun hab => ?_⟩
            have := hab key rfl
            rw [h4] at this; cases this
          · rw [if_neg h4] at h
            simp only [Option.some.injEq] at h
            subst h
            exact ⟨fun _ => rfl, fun _ => rfl, fun _ => rfl, fun _ => rfl⟩

theorem hasField_cons_false {name : String} {m : List Nat × JValue}
    {ms : List (List Nat × JValue)} (h : hasField name (m :: ms) = false) :
    (∀ key, unquote m.1 = some key → fieldIs name key = false) ∧ hasField name ms = false := by
  simp only [hasField, List.any_cons, Bool.or_eq_false_iff] at h
  refine ⟨?_, by simpa [hasField] using h.2⟩
  intro key hk
  have := h.1
  rw [hk] at this
  exact this

theorem decodeMembers_keeps (parseTime : List Nat → Option Int) :
    ∀ (ms : List (List Nat × JValue)) (a a' : LegistarAction),
      decodeMembers parseTime a ms = some a' →
      (hasField "date" ms = false → a'.Date = a.Date) ∧
      (hasField "actor" ms = false → a'.Actor = a.Actor) ∧
      (hasField "action" ms = false → a'.Action = a.Action) ∧
      (hasField "committee" ms = false → a'.Committee = a.Committee) := by
  intro ms
  induction ms with
  | nil =>
    intro a a' h
    simp only [decodeMembers, Option.some.injEq] at h
    subst h
    exact ⟨fun _ => rfl, fun _ => rfl, fun _ => rfl, fun _ => rfl⟩
  | cons m ms ih =>
    intro a a' h
    rw [decodeMembers] at h
    cases h1 : decodeMember parseTime a m with
    | none => rw [h1] at h; cases h
    | some a1 =>
      rw [h1] at h
      simp only at h
      obtain ⟨k1, k2, k3, k4⟩ := decodeMember_keeps parseTime a a1 m h1
      obtain ⟨i1, i2, i3, i4⟩ := ih a1 a' h
      refine ⟨fun hf => ?_, fun hf => ?_, fun hf => ?_, fun hf => ?_⟩
      · obtain ⟨x, y⟩ := hasField_cons_false hf
        rw [i1 y, k1 x]
      · obtain ⟨x, y⟩ := hasField_cons_false hf
        rw [i2 y, k2 x]
      · obtain ⟨x, y⟩ := hasField_cons_false hf
        rw [i3 y, k3 x]
      · obtain ⟨x, y⟩ := hasField_cons_false hf
        rw [i4 y, k4 x]

theorem decodeElem_ok (parseTime : List Nat → Option Int) (e : JValue)
    (h : isActionElem parseTime e = true) : ∃ a, DecodesTo parseTime e a := by
  cases e with
  | object members =>
    obtain ⟨a, ha⟩ := decodeMembers_ok parseTime members LegistarAction.zero
      (by simpa [isActionElem, isActionObject] using h)
    refine ⟨a, by simpa [decodeElem] using ha, ?_⟩
    intro ms hms
    cases hms
    exact decodeMembers_keeps parseTime members LegistarAction.zero a ha
  | null =>
    refine ⟨LegistarAction.zero, rfl, ?_⟩
    intro ms hms
    cases hms
  | bool _ => simp [isActionElem, isActionObject] at h
  | number => simp [isActionElem, isActionObject] at h
  | string _ => simp [isActionElem, isActionObject] at h
  | array _ => simp [isActionElem, isActionObject] at h

theorem decodeElems_ok (parseTime : List Nat → Option Int) :
    ∀ elems : List JValue, elems.all (isActionElem parseTime) = true →
      ∃ actions, decodeElems parseTime elems = some actions ∧
        List.Forall₂ (DecodesTo parseTime) elems actions := by
  intro elems
  induction elems with
  | nil => intro _; exact ⟨[], rfl, List.Forall₂.nil⟩
  | cons e es ih =>
    intro h
    simp only [List.all_cons, Bool.and_eq_true] at h
    obtain ⟨a, ha⟩ := decodeElem_ok parseTime e h.1
    obtain ⟨as, has, hrel⟩ := ih h.2
    refine ⟨a :: as, ?_, List.Forall₂.cons ha hrel⟩
    simp [decodeElems, ha.1, has]

theorem memberOk_of_decodeMember (parseTime : List Nat → Option Int) (a a' : LegistarAction)
    (m : List Nat × JValue) (h : decodeMember parseTime a m = some a') :
    memberOk parseTime m = true := by
  unfold decodeMember at h
  unfold memberOk
  cases hk : unquote m.1 with
  | none => rw [hk] at h; cases h
  | some key =>
    rw [hk] at h
    simp only at h ⊢
    by_cases h1 : fieldIs "date" key = true
    · rw [if_pos h1] at h ⊢
      obtain ⟨d, hd, _⟩ := Option.map_eq_some'.mp h
      cases hv : m.2 with
      | null => rfl
      | string raw =>
        rw [hv] at hd
        simp only [storeTime] at hd
        simp [hd]
      | bool _ => rw [hv] at hd; cases hd
      | number => rw [hv] at hd; cases hd
      | array _ => rw [hv] at hd; cases hd
      | object _ => rw [hv] at hd; cases hd
    · rw [if_neg h1] at h ⊢
      have hstore : ∀ old s, storeString m.2 old = some s →
          (match m.2 with
           | JValue.null => true
           | JValue.string raw => (unquote raw).isSome
           | _ => false) = true := by
        intro old s hs
        cases hv : m.2 with
        | null => rfl
        | string raw =>
          rw [hv] at hs
          simp only [storeString] at hs
          simp [hs]
        | bool _ => rw [hv] at hs; cases hs
        | number => rw [hv] at hs; cases hs
        | array _ => rw [hv] at hs; cases hs
        | object _ => rw [hv] at hs; cases hs
      by_cases h2 : fieldIs "actor" key = true
      · rw [if_pos h2] at h
        obtain ⟨d, hd, _⟩ := Option.map_eq_some'.mp h
        rw [if_pos (by simp [h2])]
        exact hstore _ _ hd
      · rw [if_neg h2] at h
        by_cases h3 : fieldIs "action" key = true
        · rw [if_pos h3] at h
          obtain ⟨d, hd, _⟩ := Option.map_eq_some'.mp h
          rw [if_pos (by simp [h3])]
          exact hstore _ _ hd
        · rw [if_neg h3] at h
          by_cases h4 : fieldIs "committee" key = true
          · rw [if_pos h4] at h
            obtain ⟨d, hd, _⟩ := Option.map_eq_some'.mp h
            rw [if_pos (by simp [h4])]
            exact hstore _ _ hd
          · rw [if_neg (by simp [h2, h3, h4])]

theorem memberOk_of_decodeMembers (parseTime : List Nat → Option Int) :
    ∀ (ms : List (List Nat × JValue)) (a a' : LegistarAction),
      decodeMembers parseTime a ms = some a' → ms.all (memberOk parseTime) = true := by
  intro ms
  induction ms with
  | nil => intro _ _ _; rfl
  | cons m ms ih =>
    intro a a' h
    rw [decodeMembers] at h
    cases h1 : decodeMember parseTime a m with
    | none => rw [h1] at h; cases h
    | some a1 =>
      rw [h1] at h
      simp only at h
      simp only [List.all_cons, Bool.and_eq_true]
      exact ⟨memberOk_of_decodeMember parseTime a a1 m h1, ih a1 a' h⟩

theorem isActionElem_of_decodeElem (parseTime : List Nat → Option Int) (e : JValue)
    (a : LegistarAction) (h : decodeElem parseTime e = some a) :
    isActionElem parseTime e = true := by
  cases e with
  | null => rfl
  | object members =>
    simp only [decodeElem] at h
    simpa [isActionElem, isActionObject] using
      memberOk_of_decodeMembers parseTime members LegistarAction.zero a h
  | bool _ => simp [decodeElem] at h
  | number => simp [decodeElem] at h
  | string _ => simp [decodeElem] at h
  | array _ => simp [decodeElem] at h

theorem isActionElem_of_decodeElems (parseTime : List Nat → Option Int) :
    ∀ (elems : List JValue) (actions : List LegistarAction),
      decodeElems parseTime elems = some actions →
      elems.all (isActionElem parseTime) = true := by
  intro elems
  induction elems with
  | nil => intro _ _; rfl
  | cons e es ih =>
    intro actions h
    rw [decodeElems] at h
    cases h1 : decodeElem parseTime e with
    | none => rw [h1] at h; simp at h
    | some a =>
      cases h2 : decodeElems parseTime es with
      | none => rw [h1, h2] at h; simp at h
      | some as =>
        simp only [List.all_cons, Bool.and_eq_true]
        exact ⟨isActionElem_of_decodeElem parseTime e a h1, ih as h2⟩

/-- The decoding into `[]LegistarAction` succeeds exactly on a history. -/
theorem isActionList_of_decodeActions (parseTime : List Nat → Option Int) (v : JValue)
    (actions : List LegistarAction) (h : decodeActions parseTime v = some actions) :
    isActionList parseTime v = true := by
  cases v with
  | null => rfl
  | array elems =>
    simp only [decodeActions] at h
    exact isActionElem_of_decodeElems parseTime elems actions h
  | bool _ => simp [decodeActions] at h
  | number => simp [decodeActions] at h
  | string _ => simp [decodeActions] at h
  | object _ => simp [decodeActions] at h

theorem decodeActions_of_isActionList (parseTime : List Nat → Option Int) (v : JValue)
    (h : isActionList parseTime v = true) :
    ∃ actions, decodeActions parseTime v = some actions ∧
      (v = JValue.null → actions = []) ∧
      ∀ elems, v = JValue.array elems → List.Forall₂ (DecodesTo parseTime) elems actions := by
  cases v with
  | null =>
    refine ⟨[], rfl, fun _ => rfl, ?_⟩
    intro elems he
    cases he
  | array elems =>
    obtain ⟨actions, h1, h2⟩ := decodeElems_ok parseTime elems h
    refine ⟨actions, h1, ?_, ?_⟩
    · intro he; cases he
    · intro es he
      cases he
      exact h2
  | bool _ => simp [isActionList] at h
  | number => simp [isActionList] at h
  | string _ => simp [isActionList] at h
  | object _ => simp [isActionList] at h

theorem CreateTweet_needs_actions (L : Lib) (b : Bill) (billURL s : List Nat)
    (h : L.jsonUnmarshal b.Data = none) : CreateTweet L b billURL ≠ Except.ok s := by
  unfold CreateTweet
  cases GetCleanBillID b with
  | error e => simp
  | ok cid => simp [GetActions, h]

theorem Refused_of_error (U : Lib) (parseTime : List Nat → Option Int) (b : Bill)
    (h : goUnmarshal parseTime b.Data = none) : Refused (goLib U parseTime) b :=
  ⟨by simp [GetActions, goLib, h],
   fun billURL s => CreateTweet_needs_actions (goLib U parseTime) b billURL s h⟩

theorem Lexeme_ne_nil (l : List Nat) (t : Token) (h : Lexeme l t) : l ≠ [] := by
  cases h with
  | num _ hn =>
    obtain ⟨sg, i, f, x, rfl, _, hi, _, _⟩ := hn
    rcases hi with rfl | ⟨d, ds, rfl, _⟩ <;> simp
  | tru => rw [bytes_true]; simp
  | fls => rw [bytes_false]; simp
  | nul => rw [bytes_null]; simp
  | _ => simp

theorem Tokenizes_nil (s : List Nat) (toks : List Token) (h : Tokenizes s toks)
    (hs : s = []) : toks = [] := by
  cases h with
  | nil => rfl
  | space c s' _ _ _ => cases hs
  | lexeme l t s' toks' hl _ =>
    have := Lexeme_ne_nil l t hl
    simp only [List.append_eq_nil] at hs
    exact absurd hs.1 this

theorem tokensOf_ne_nil (v : JValue) : tokensOf v ≠ [] := by
  cases v with
  | null => simp [tokensOf]
  | bool b => cases b <;> simp [tokensOf]
  | number => simp [tokensOf]
  | string raw => simp [tokensOf]
  | array elems => cases elems <;> simp [tokensOf]
  | object members =>
    cases members with
    | nil => simp [tokensOf]
    | cons m ms =>
      obtain ⟨k, w⟩ := m
      simp [tokensOf]

/-- The empty text is not JSON. -/
theorem no_JsonText_nil (v : JValue) : ¬ JsonText [] v := by
  intro h
  exact tokensOf_ne_nil v (Tokenizes_nil [] _ h rfl)

/-! ## Claims on `GetActions` -/

/-- C17 (counterexample): the data `[{"actor": 5}]` is well-formed JSON for
an array of one object, yet `json.Unmarshal` reports an error on the number
under `actor` and `GetActions` ends the process instead of returning one
action; and the data `[null]` is well-formed JSON for an array whose element
is no object, yet `GetActions` returns a list, of one action with every
field empty. -/
theorem C17_number_member_counterexample :
    JsonText numberActorData
        (JValue.array [JValue.object [(bytes "actor", JValue.number)]])
      ∧ GetActions jsonLib { testBill with Data := numberActorData }
        = Except.error Fault.fatal
      ∧ JsonText nullElementData (JValue.array [JValue.null])
      ∧ GetActions jsonLib { testBill with Data := nullElementData }
        = Except.ok [LegistarAction.zero] :=
  ⟨parseJSON_sound _ _ rfl, by decide, parseJSON_sound _ _ rfl, by decide⟩

/-- C17 (amended): a history is JSON `null` or an array whose elements are
`null` or action objects, an action object being an object whose members
`date`, `actor`, `action` and `committee`, where present, are strings or
`null` (the date a string that parses); JSON values are nested at most
`maxNestingDepth` deep.  On the empty string, on every Data that is not
well-formed JSON for a history, and on every Data that is well-formed JSON
for a value that is no history, `GetActions` ends the process and
`CreateTweet` produces no summary; on every Data that is well-formed JSON
for a history it returns the empty list for `null` and one action per
element of the array in the same order, each absent field left at its empty
value. -/
theorem C17_GetActions_decides_on_json (U : Lib) (parseTime : List Nat → Option Int)
    (b : Bill) :
    (b.Data = [] → Refused (goLib U parseTime) b) ∧
    ((¬ ∃ v, JsonText b.Data v ∧ depth v ≤ maxNestingDepth
        ∧ isActionList parseTime v = true) →
      Refused (goLib U parseTime) b) ∧
    (∀ v, JsonText b.Data v → depth v ≤ maxNestingDepth →
      isActionList parseTime v = false → Refused (goLib U parseTime) b) ∧
    (∀ v, JsonText b.Data v → depth v ≤ maxNestingDepth →
      isActionList parseTime v = true →
      ∃ actions, GetActions (goLib U parseTime) b = Except.ok actions ∧
        (v = JValue.null → actions = []) ∧
        ∀ elems, v = JValue.array elems →
          List.Forall₂ (DecodesTo parseTime) elems actions) := by
  have key : (¬ ∃ v, JsonText b.Data v ∧ depth v ≤ maxNestingDepth
      ∧ isActionList parseTime v = true) → Refused (goLib U parseTime) b := by
    intro hno
    apply Refused_of_error
    cases hg : goUnmarshal parseTime b.Data with
    | none => rfl
    | some actions =>
      exfalso
      apply hno
      unfold goUnmarshal at hg
      cases hp : parseJSON b.Data with
      | none => rw [hp] at hg; cases hg
      | some v =>
        rw [hp] at hg
        exact ⟨v, parseJSON_sound _ _ hp, parseJSON_depth _ _ hp,
          isActionList_of_decodeActions parseTime v actions hg⟩
  refine ⟨?_, key, ?_, ?_⟩
  · intro h0
    apply key
    rintro ⟨v, hv, _, _⟩
    rw [h0] at hv
    exact no_JsonText_nil v hv
  · intro v hv hd hl
    apply Refused_of_error
    unfold goUnmarshal
    rw [parseJSON_complete _ v hv hd]
    simp only []
    cases hdec : decodeActions parseTime v with
    | none => rfl
    | some actions =>
      rw [isActionList_of_decodeActions parseTime v actions hdec] at hl
      cases hl
  · intro v hv hd hl
    obtain ⟨actions, h1, h2, h3⟩ := decodeActions_of_isActionList parseTime v hl
    refine ⟨actions, ?_, h2, h3⟩
    simp [GetActions, goLib, goUnmarshal, parseJSON_complete _ v hv hd, h1]

theorem C17_GetActions_decides_on_json_witness :
    GetActions jsonLib { testBill with Data := [] } = Except.error Fault.fatal
    ∧ GetActions jsonLib { testBill with Data := emptyObjectData } = Except.error Fault.fatal
    ∧ GetActions jsonLib { testBill with Data := numberElementData }
        = Except.error Fault.fatal
    ∧ ∃ actions,
        GetActions jsonLib { testBill with Data := passedReferredData } = Except.ok actions
          ∧ List.Forall₂ (DecodesTo noTime)
              [JValue.object [(bytes "action", JValue.string (bytes "Passed"))],
               JValue.object [(bytes "action", JValue.string (bytes "Referred"))]]
              actions := by
  refine ⟨?_, ?_, ?_, ?_⟩
  · exact ((C17_GetActions_decides_on_json (exampleLib []) noTime
      { testBill with Data := [] }).1 rfl).1
  · exact ((C17_GetActions_decides_on_json (exampleLib []) noTime
      { testBill with Data := emptyObjectData }).2.2.1 (JValue.object [])
      (parseJSON_sound _ _ rfl) (by decide) rfl).1
  · exact ((C17_GetActions_decides_on_json (exampleLib []) noTime
      { testBill with Data := numberElementData }).2.2.1 (JValue.array [JValue.number])
      (parseJSON_sound _ _ rfl) (by decide) rfl).1
  · obtain ⟨actions, h1, _, h3⟩ := (C17_GetActions_decides_on_json (exampleLib []) noTime
      { testBill with Data := passedReferredData }).2.2.2
      (JValue.array
        [JValue.object [(bytes "action", JValue.string (bytes "Passed"))],
         JValue.object [(bytes "action", JValue.string (bytes "Referred"))]])
      (parseJSON_sound _ _ rfl) (by decide) (by decide)
    exact ⟨actions, h1, h3 _ rfl⟩

end Models
